import Mathlib

/-!
Verification of the pysong score model and its MIDI converter
(src/pysong/song_elements.py, src/pysong/song.py,
src/pysong/song_midi_converter.py, src/pysong/exceptions.py).

The Python classes are embedded shallowly: each class becomes a structure,
each method a function; `raise` and failing `assert` statements become
`Except` errors; Python dicts (which preserve insertion order) become
association lists; Python sets of small naturals are modelled as ascending
lists of naturals.
-/

set_option maxRecDepth 4000

namespace Pysong

/-- Errors a pysong constructor or conversion can raise: ArgumentError
(src/pysong/exceptions.py) or a failed assert / other runtime error. -/
inductive PyError where
  | argumentError (msg : String)
  | assertionError
  | runtimeError (msg : String)
deriving DecidableEq, Repr

deriving instance DecidableEq for Except

/-- Python dict read with default (defaultdict semantics: a missing key reads
as the default value). -/
def dictGetD {α : Type} (d : List (Nat × α)) (k : Nat) (dflt : α) : α :=
  match d.find? (fun kv => kv.1 = k) with
  | some kv => kv.2
  | none => dflt

/-- Python dict assignment d[k] = v: overwrite in place when the key exists,
append otherwise (CPython dicts preserve insertion order). -/
def dictSet {α : Type} (d : List (Nat × α)) (k : Nat) (v : α) : List (Nat × α) :=
  if d.any (fun kv => kv.1 = k) then
    d.map (fun kv => if kv.1 = k then (k, v) else kv)
  else d ++ [(k, v)]

/-- Insert a small natural into an ascending duplicate-free list: the model of
adding an element to a Python set of small ints (whose iteration order for the
sets arising here is ascending). -/
def setAdd (s : List Nat) (x : Nat) : List Nat :=
  match s with
  | [] => [x]
  | y :: t => if x < y then x :: y :: t else if x = y then y :: t else y :: setAdd t x

/-- Time signature: numerator and denominator, value equality only
(song_elements.py, class TimeSignature). -/
structure TimeSignature where
  numerator : Nat
  denominator : Nat
deriving DecidableEq, Repr

/-- Major/minor mode (song_elements.py, class Mode). -/
inductive Mode where
  | MAJOR
  | MINOR
deriving DecidableEq, Repr

/-- Lookup from sharps count to tonic pitch class, major mode
(song_elements.py line 39): the dict sends i to (7 * i) % 12 for i in
range(-6, 7).  Int.emod agrees with the Python % operator here. -/
def sharpsToTonicMajor (i : Int) : Nat := ((7 * i) % 12).toNat

/-- Minor-mode variant (line 40): i maps to (7 * i - 3) % 12. -/
def sharpsToTonicMinor (i : Int) : Nat := ((7 * i - 3) % 12).toNat

/-- The list range(-6, 7) of sharps counts. -/
def sharpsRange : List Int := (List.range 13).map (fun k => (k : Int) - 6)

/-- The inverse dict _TONIC_TO_SHARPS_MAJOR (line 41), built by a
comprehension over range(-6, 7); later entries overwrite earlier ones that
share a tonic pitch class. -/
def tonicToSharpsMajor : List (Nat × Int) :=
  sharpsRange.foldl (fun d i => dictSet d (sharpsToTonicMajor i) i) []

/-- The inverse dict _TONIC_TO_SHARPS_MINOR (line 42). -/
def tonicToSharpsMinor : List (Nat × Int) :=
  sharpsRange.foldl (fun d i => dictSet d (sharpsToTonicMinor i) i) []

/-- A fully constructed Key: tonic pitch class and mode
(song_elements.py, class Key). -/
structure Key where
  tonic_pitch_class : Nat
  mode : Mode
deriving DecidableEq, Repr

/-- Key.__init__ (song_elements.py lines 46-67).  Exactly one of
tonic_pitch_class and num_sharps must be given, otherwise ArgumentError is
raised before any attribute is set; the asserts bound the given value.
A returned Key is fully constructed (the Except model is atomic by
construction: an error builds nothing). -/
def Key.init (tonic_pitch_class : Option Nat) (num_sharps : Option Int)
    (mode : Mode) : Except PyError Key :=
  match tonic_pitch_class, num_sharps with
  | none, none =>
      .error (.argumentError "Specify exactly one of tonic_pitch_class, num_sharps")
  | some _, some _ =>
      .error (.argumentError "Specify exactly one of tonic_pitch_class, num_sharps")
  | some tpc, none =>
      if tpc < 12 then .ok ⟨tpc, mode⟩ else .error .assertionError
  | none, some s =>
      if -7 < s ∧ s < 7 then
        match mode with
        | .MAJOR => .ok ⟨sharpsToTonicMajor s, mode⟩
        | .MINOR => .ok ⟨sharpsToTonicMinor s, mode⟩
      else .error .assertionError

/-- Key.number_of_sharps (lines 81-86): a dict lookup in the inverse table
for the key's mode.  A missing key would raise KeyError in Python, modelled
by none (in fact every pitch class 0-11 is present). -/
def Key.number_of_sharps (k : Key) : Option Int :=
  match k.mode with
  | .MAJOR => (tonicToSharpsMajor.find? (fun kv => kv.1 = k.tonic_pitch_class)).map Prod.snd
  | .MINOR => (tonicToSharpsMinor.find? (fun kv => kv.1 = k.tonic_pitch_class)).map Prod.snd

/-- A single Note (song_elements.py, class Note): midi pitch, velocity
(-1 is the sentinel used for ties) and the tie-from-previous flag. -/
structure Note where
  midi_pitch : Nat
  velocity : Int
  tie_from_previous : Bool
deriving DecidableEq, Repr

/-- Note.__init__ (lines 254-257): the arguments are stored unchanged, with
no validation; the Python defaults are velocity = -1 and
tie_from_previous = False. -/
def Note.init (midi_pitch : Nat) (velocity : Int) (tie_from_previous : Bool) : Note :=
  ⟨midi_pitch, velocity, tie_from_previous⟩

/-- The invariant the spec states for Note: a tie carries the sentinel
velocity -1, a non-tie carries a MIDI velocity in 0..127. -/
def noteInvariant (n : Note) : Prop :=
  (n.tie_from_previous = true → n.velocity = -1) ∧
  (n.tie_from_previous = false → 0 ≤ n.velocity ∧ n.velocity ≤ 127)

instance (n : Note) : Decidable (noteInvariant n) := by
  unfold noteInvariant; infer_instance

/-- An Event (song_elements.py, class Event): a duration in ticks and the
notes sounding during it; an Event with no notes is a rest. -/
structure Event where
  duration : Nat
  notes : List Note
deriving DecidableEq, Repr

/-- Event.__init__ (lines 210-212). -/
def Event.init (duration : Nat) : Event := ⟨duration, []⟩

/-- Event.append_note (lines 240-241): a plain list append, with no
duplicate-pitch handling. -/
def Event.append_note (e : Event) (note : Note) : Event :=
  { e with notes := e.notes ++ [note] }

/-- Event.new_note (lines 243-246): construct a Note and append it. -/
def Event.new_note (e : Event) (midi_pitch : Nat) (velocity : Int)
    (tie_from_previous : Bool) : Event :=
  e.append_note (Note.init midi_pitch velocity tie_from_previous)

/-- Note.__eq__ (lines 259-262): field equality. -/
def noteEq (n1 n2 : Note) : Bool :=
  n1.midi_pitch == n2.midi_pitch && n1.velocity == n2.velocity &&
    n1.tie_from_previous == n2.tie_from_previous

/-- Event.__eq__ (lines 217-229): equal duration and note count, and every
note of the first event equal to some note of the second (order-free). -/
def eventEq (e1 e2 : Event) : Bool :=
  e1.duration == e2.duration && e1.notes.length == e2.notes.length &&
    e1.notes.all (fun n => e2.notes.any (fun n2 => noteEq n n2))

/-- The trailing run of note-less Events that Measure.__eq__ ignores
(lines 163-180 compute the length up to that run). -/
def trimTrailingRests (events : List Event) : List Event :=
  (events.reverse.dropWhile (fun e => e.notes.isEmpty)).reverse

/-- A Measure (song_elements.py, class Measure): absolute start tick, time
signature, and its events.  The parent_track back-reference is dropped; the
ticks-per-beat it was used to reach is passed explicitly where needed. -/
structure Measure where
  start_tick : Nat
  time_signature : TimeSignature
  events : List Event
deriving DecidableEq, Repr

/-- Measure.__eq__ (lines 159-188): both event lists are compared after
ignoring any trailing note-less rests; start_tick and time_signature are not
compared. -/
def measureEq (m1 m2 : Measure) : Bool :=
  let e1 := trimTrailingRests m1.events
  let e2 := trimTrailingRests m2.events
  e1.length == e2.length && (List.zip e1 e2).all (fun p => eventEq p.1 p.2)

/-- Measure.get_duration_ticks (lines 201-204) computes
int(numerator * 4.0 / denominator * ticks_per_beat).  The double-precision
expression is modelled by its exact rational value (for the power-of-two
denominators of MIDI time signatures the doubles are exact), truncated
toward zero by int(); for the nonnegative values here that is the floor. -/
def get_duration_ticks_rat (ts : TimeSignature) (ticks_per_beat : Nat) : Int :=
  ⌊((ts.numerator * 4 : ℚ) / ts.denominator) * ticks_per_beat⌋

/-- Executable form of Measure.get_duration_ticks: the floor of the exact
rational value is the natural-number division below (proved in
c6_amended_theorem). -/
def get_duration_ticks (ts : TimeSignature) (ticks_per_beat : Nat) : Nat :=
  ts.numerator * 4 * ticks_per_beat / ts.denominator

/-- The duration the spec asserts instead: round(numerator * 4 / denominator
* ticks_per_beat), over the exact rationals. -/
def spec_duration_ticks_rounded (ts : TimeSignature) (ticks_per_beat : Nat) : Int :=
  round (((ts.numerator * 4 : ℚ) / ts.denominator) * ticks_per_beat)

/-- Track type enum (song_elements.py, class TrackType). -/
inductive TrackType where
  | UNKNOWN
  | MELODY
  | HARMONY
  | BASS
  | DRUMS
  | FX
deriving DecidableEq, Repr

/-- A Track (song_elements.py, class Track): name, program, channel, type and
measures.  The parent_song back-reference is dropped; ticks-per-beat is
passed explicitly where the source reads it through the parent. -/
structure Track where
  name : String
  program : Nat
  channel : Nat
  track_type : TrackType
  measures : List Measure
deriving DecidableEq, Repr

/-- Track.new_measure (lines 132-140): the new measure starts where the
previous one ends (tick 0 for the first), and carries the given time
signature.  The Python default of inheriting the song's signature when none
is given is applied by the caller here: the signature is always passed. -/
def Track.new_measure (t : Track) (ticks_per_beat : Nat) (ts : TimeSignature) : Track :=
  let next_tick :=
    match t.measures.getLast? with
    | some prev => prev.start_tick + get_duration_ticks prev.time_signature ticks_per_beat
    | none => 0
  { t with measures := t.measures ++ [⟨next_tick, ts, []⟩] }

/-- A Song (song.py, class Song): name, resolution, default time signature,
key, and its tracks. -/
structure Song where
  name : String
  ticks_per_beat : Nat
  time_signature : TimeSignature
  key : Key
  tracks : List Track
deriving DecidableEq, Repr

/-- Song.new_track (song.py lines 74-78): create a Track and append it. -/
def Song.new_track (s : Song) (name : String) (program channel : Nat)
    (track_type : TrackType) : Song :=
  { s with tracks := s.tracks ++ [⟨name, program, channel, track_type, []⟩] }

/-- Whether a constructor result is a raised ArgumentError. -/
def raisesArgumentError {α : Type} (r : Except PyError α) : Bool :=
  match r with
  | .error (.argumentError _) => true
  | _ => false

/-- Sharps-to-tonic-to-sharps round trip for one mode, as the spec describes
it: build the Key from a sharps count, then read the count back. -/
def sharpsRoundTrip (s : Int) (m : Mode) : Except PyError (Option Int) :=
  (Key.init none (some s) m).map Key.number_of_sharps

/-! ### The exporter (song_midi_converter.py, SongMidiConverter.export_midi) -/

/-- A transport-level track message as export_midi emits mido messages;
time is the delta in ticks since the previous message of the same track. -/
inductive Msg where
  | program_change (channel program : Nat) (time : Nat)
  | time_signature (numerator denominator : Nat) (time : Nat)
  | note_on (channel pitch : Nat) (velocity : Int) (time : Nat)
  | note_off (channel pitch : Nat) (velocity : Nat) (time : Nat)
  | end_of_track
deriving DecidableEq, Repr

/-- One pitch of the loop inside _turn_off_notes (lines 37-42): skip it if
ignored, otherwise emit a note_off with the delta from the last message. -/
def turn_off_step (channel tick : Nat) (notes_to_ignore : List Nat)
    (acc : List Msg × Nat) (pitch : Nat) : List Msg × Nat :=
  if pitch ∈ notes_to_ignore then acc
  else (acc.1 ++ [Msg.note_off channel pitch 0 (tick - acc.2)], tick)

/-- SongMidiConverter._turn_off_notes (lines 33-43): emit a note_off for
every pitch in notes_to_turn_off that is not in notes_to_ignore; returns the
messages and the updated prev_tick.  In the source notes_to_turn_off is a
Python set of pitches, modelled as an ascending list. -/
def turn_off_notes (channel tick prev_tick : Nat)
    (notes_to_turn_off notes_to_ignore : List Nat) : List Msg × Nat :=
  notes_to_turn_off.foldl (turn_off_step channel tick notes_to_ignore)
    ([], prev_tick)

/-- One Note inside the per-event loop of export_midi (lines 94-116): the
asserts of lines 98-99 become errors; a positive-velocity non-tie emits a
note_on and starts sounding, a non-tie otherwise emits an explicit note_off,
and a tie keeps sounding silently.  State: messages so far, prev_tick, and
the sounding_notes set being built for this event.  The source's local
variables pitch and velocity are inlined. -/
def export_note_step (channel tick : Nat) (st : List Msg × Nat × List Nat)
    (note : Note) : Except PyError (List Msg × Nat × List Nat) :=
  if 128 ≤ note.midi_pitch then .error .assertionError
  else if ¬ (note.tie_from_previous = true ∨
      (0 ≤ note.velocity ∧ note.velocity < 128)) then
    .error .assertionError
  else if 0 < note.velocity ∧ note.tie_from_previous = false then
    .ok (st.1 ++ [Msg.note_on channel note.midi_pitch note.velocity (tick - st.2.1)],
      tick, setAdd st.2.2 note.midi_pitch)
  else if note.tie_from_previous = false then
    .ok (st.1 ++ [Msg.note_off channel note.midi_pitch 0 (tick - st.2.1)],
      tick, st.2.2)
  else
    .ok (st.1, st.2.1, setAdd st.2.2 note.midi_pitch)

/-- The per-track cursor of export_midi: messages emitted so far, the tick of
the last emitted message, the absolute tick cursor, and the previously
sounding pitches (lines 63-67). -/
structure Cursor where
  msgs : List Msg
  prev_tick : Nat
  tick : Nat
  sounding : List Nat
deriving DecidableEq, Repr

/-- The set of pitches of an event's tie-from-previous notes (line 89). -/
def tiedPitches (event : Event) : List Nat :=
  event.notes.foldl (fun s n => if n.tie_from_previous then setAdd s n.midi_pitch else s) []

/-- One Event of export_midi (lines 84-119): turn off previously sounding
pitches that are not tied through, process each note, then advance the tick
cursor by the duration and replace the sounding set. -/
def export_event (channel : Nat) (c : Cursor) (event : Event) :
    Except PyError Cursor := do
  let off := turn_off_notes channel c.tick c.prev_tick c.sounding (tiedPitches event)
  let r ← event.notes.foldlM (fun st note => export_note_step channel c.tick st note)
    (c.msgs ++ off.1, off.2, ([] : List Nat))
  pure ⟨r.1, r.2.1, c.tick + event.duration, r.2.2⟩

/-- One Measure of export_midi (lines 69-128): jump the cursor to the
measure's start tick, emit a time-signature message on track 0 when the
signature changed, process the events, and, if the events do not fill the
measure, turn everything off and clear the sounding set. -/
def export_measure (track_idx tpb channel : Nat)
    (st : Cursor × Option TimeSignature) (measure : Measure) :
    Except PyError (Cursor × Option TimeSignature) := do
  let c1 : Cursor := { st.1 with tick := measure.start_tick }
  let emitTs := track_idx = 0 ∧ st.2 ≠ some measure.time_signature
  let c2 : Cursor :=
    if emitTs then
      { c1 with
        msgs := c1.msgs ++ [Msg.time_signature measure.time_signature.numerator
          measure.time_signature.denominator (c1.tick - c1.prev_tick)],
        prev_tick := c1.tick }
    else c1
  let prevTs := if emitTs then some measure.time_signature else st.2
  let c3 ← measure.events.foldlM (export_event channel) c2
  let c4 :=
    if c3.tick < measure.start_tick + get_duration_ticks measure.time_signature tpb then
      let off := turn_off_notes channel c3.tick c3.prev_tick c3.sounding []
      { c3 with msgs := c3.msgs ++ off.1, prev_tick := off.2, sounding := [] }
    else c3
  pure (c4, prevTs)

/-- One track of export_midi (lines 52-135): a channel above 15 is skipped
with a warning (its mido track stays empty); otherwise a program_change
opens the track, the measures are walked, remaining notes are turned off and
an end_of_track marker closes the track. -/
def export_track (track_idx tpb : Nat) (track : Track) : Except PyError (List Msg) := do
  if 15 < track.channel then pure []
  else
    let c0 : Cursor := ⟨[Msg.program_change track.channel track.program 0], 0, 0, []⟩
    let r ← track.measures.foldlM (export_measure track_idx tpb track.channel) (c0, none)
    let off := turn_off_notes track.channel r.1.tick r.1.prev_tick r.1.sounding []
    pure (r.1.msgs ++ off.1 ++ [Msg.end_of_track])

/-- SongMidiConverter.export_midi (lines 46-137), up to the byte encoding
done by mido: the per-track message lists. -/
def export_midi (song : Song) : Except PyError (List (List Msg)) :=
  song.tracks.enum.mapM (fun p => export_track p.1 song.ticks_per_beat p.2)

/-! ### The importer helper _write_event -/

/-- SongMidiConverter._write_event (lines 197-208), the part that builds the
new Event's note list: append every pending note, then append a
tie-from-previous Note for every sounding pitch not already written.  The
Python mutates the Event it appended to the measure; here the note list is
built and the Event appended whole. -/
def write_event_notes (notes_to_add : List Note)
    (sounding_notes : List (Nat × Bool)) : List Note :=
  let pitches_written := notes_to_add.foldl
    (fun d n => dictSet d n.midi_pitch true) ([] : List (Nat × Bool))
  (sounding_notes.foldl
    (fun (acc : List Note × List (Nat × Bool)) kv =>
      if kv.2 = true then
        if dictGetD acc.2 kv.1 false = false then
          (acc.1 ++ [Note.init kv.1 (-1) true], dictSet acc.2 kv.1 true)
        else acc
      else acc)
    (notes_to_add, pitches_written)).1

/-- SongMidiConverter._write_event (lines 197-208): append the built Event,
with the given delta duration, to the current measure. -/
def write_event (delta_duration : Nat) (m : Measure) (notes_to_add : List Note)
    (sounding_notes : List (Nat × Bool)) : Measure :=
  { m with events := m.events ++
      [⟨delta_duration, write_event_notes notes_to_add sounding_notes⟩] }

/-! ### The importer (song_midi_converter.py, lines 163-334) -/

/-- MIDI event kinds of the importer with their intentional ordering
(song_midi_converter.py, class _EventType: NOTE_OFF=1, MEASURE_START=2,
NOTE_ON=3). -/
inductive EventType where
  | NOTE_OFF
  | MEASURE_START
  | NOTE_ON
deriving DecidableEq, Repr

/-- The IntEnum value used for sorting. -/
def EventType.code : EventType → Nat
  | .NOTE_OFF => 1
  | .MEASURE_START => 2
  | .NOTE_ON => 3

/-- A pretty_midi note interval already converted to absolute ticks (spec
section 6: the transport codec delivers per-instrument note intervals as
absolute ticks, pitch and velocity; midi.time_to_tick performs the
conversion in the source).  The end tick is named stop. -/
structure PMNote where
  start : Nat
  stop : Nat
  pitch : Nat
  velocity : Int
deriving DecidableEq, Repr

/-- A tagged instant of the importer merge list (tick, _EventType, note),
as _get_events builds them; measure starts carry no note. -/
structure TEv where
  tick : Nat
  etype : EventType
  note : Option PMNote
deriving DecidableEq, Repr

/-- The sort key of _get_events lines 190-193: (tick, type, pitch) for note
events and (tick, type) for measure starts.  The third component never
decides between a note event and a measure start (their type codes differ),
so the measure-start key is padded with 0. -/
def evKey (e : TEv) : Nat × Nat × Nat :=
  match e.note with
  | some n => (e.tick, e.etype.code, n.pitch)
  | none => (e.tick, e.etype.code, 0)

/-- Lexicographic comparison of sort keys. -/
def keyLe (k1 k2 : Nat × Nat × Nat) : Prop :=
  k1.1 < k2.1 ∨ (k1.1 = k2.1 ∧
    (k1.2.1 < k2.2.1 ∨ (k1.2.1 = k2.2.1 ∧ k1.2.2 ≤ k2.2.2)))

instance (k1 k2 : Nat × Nat × Nat) : Decidable (keyLe k1 k2) := by
  unfold keyLe; infer_instance

/-- The order _get_events sorts by. -/
def evLe (a b : TEv) : Prop := keyLe (evKey a) (evKey b)

instance : DecidableRel evLe := fun a b => by unfold evLe; infer_instance

instance : IsTotal TEv evLe :=
  ⟨fun a b => by unfold evLe keyLe; omega⟩

instance : IsTrans TEv evLe :=
  ⟨fun a b c hab hbc => by unfold evLe keyLe at *; omega⟩

/-- The unsorted merge list of _get_events (lines 175-185): a NOTE_ON at
each interval start and a NOTE_OFF at each interval end, then a
MEASURE_START at each downbeat. -/
def raw_events (notes : List PMNote) (downbeats : List Nat) : List TEv :=
  notes.flatMap (fun n =>
    [⟨n.start, .NOTE_ON, some n⟩, ⟨n.stop, .NOTE_OFF, some n⟩])
  ++ downbeats.map (fun d => ⟨d, .MEASURE_START, none⟩)

/-- _get_events (lines 171-195): the merge list sorted by (tick, type,
pitch).  Python's sorted is stable; insertion sort with the non-strict
total preorder evLe is also stable. -/
def get_events (notes : List PMNote) (downbeats : List Nat) : List TEv :=
  List.insertionSort evLe (raw_events notes downbeats)

/-- An event is a note-on of pitch p. -/
def isOnP (e : TEv) (p : Nat) : Prop :=
  e.etype = .NOTE_ON ∧ ∃ n, e.note = some n ∧ n.pitch = p

/-- An event is a note-off of pitch p. -/
def isOffP (e : TEv) (p : Nat) : Prop :=
  e.etype = .NOTE_OFF ∧ ∃ n, e.note = some n ∧ n.pitch = p

/-- The effect of one event on the sounding flag of pitch p, exactly as the
sweep writes sounding_notes (lines 303 and 320). -/
def updSounding (e : TEv) (p : Nat) (b : Bool) : Bool :=
  match e.etype, e.note with
  | .NOTE_ON, some n => if n.pitch = p then true else b
  | .NOTE_OFF, some n => if n.pitch = p then false else b
  | _, _ => b

/-- The sounding flag of pitch p after a list of events, starting from b. -/
def pTrack (L : List TEv) (p : Nat) (b : Bool) : Bool :=
  L.foldl (fun acc e => updSounding e p acc) b

/-- Delete the first list entry with the given pitch, if any (the
enumerate-and-break loop of lines 298-301). -/
def removeFirstPitch (notes : List Note) (p : Nat) : List Note :=
  match notes with
  | [] => []
  | n :: t => if n.midi_pitch = p then t else n :: removeFirstPitch t p

/-- Delete the last list entry with the given pitch, if any (lines 313-318
keep overwriting remove_idx, so the last match is deleted). -/
def removeLastPitch (notes : List Note) (p : Nat) : List Note :=
  (removeFirstPitch notes.reverse p).reverse

/-- The per-instrument sweep state of
create_song_from_pretty_midi_instruments (lines 259-266).  current_measure
is always the last measure of the track under construction (None iff the
track has no measures yet), and measure_idx always equals the number of
measures minus one, so neither is stored separately. -/
structure SweepState where
  track : Track
  sounding_notes : List (Nat × Bool)
  prev_tick : Nat
  notes_to_add : List Note
  first_note_off_at_tick : Bool
deriving DecidableEq, Repr

/-- The tick-advance commit (lines 268-278): when an event has a strictly
later tick, write an Event of the elapsed duration into the current measure
(_write_event), clear the pending list and reset the first-note-off flag.
A missing current measure is the AttributeError Python raises when
current_measure is still None. -/
def sweep_commit (st : SweepState) (tick : Nat) : Except PyError SweepState :=
  if st.prev_tick < tick then
    match st.track.measures.getLast? with
    | none => .error (.runtimeError "current_measure is None")
    | some m =>
        .ok { st with
          track := { st.track with measures := st.track.measures.dropLast ++
            [write_event (tick - st.prev_tick) m st.notes_to_add st.sounding_notes] },
          notes_to_add := [],
          first_note_off_at_tick := true }
  else .ok st

/-- The event dispatch (lines 280-320).  NOTE_OFF: on the first note-off of
this tick, snapshot every sounding pitch into the pending list as a tie;
then delete the terminating pitch's first pending entry and clear its
sounding flag.  MEASURE_START: open the next measure with the time
signature aligned to this downbeat (an out-of-range index is the IndexError
Python would raise).  NOTE_ON: delete the last pending entry of the same
pitch, append a fresh onset Note and set the sounding flag. -/
def sweep_dispatch (tpb : Nat) (tss : List TimeSignature) (st : SweepState)
    (e : TEv) : Except PyError SweepState :=
  match e.etype, e.note with
  | .NOTE_OFF, some note =>
      let stA :=
        if st.first_note_off_at_tick then
          { st with
            first_note_off_at_tick := false,
            notes_to_add := st.notes_to_add ++
              (st.sounding_notes.filter (fun kv => kv.2 = true)).map
                (fun kv => Note.init kv.1 (-1) true) }
        else st
      .ok { stA with
        notes_to_add := removeFirstPitch stA.notes_to_add note.pitch,
        sounding_notes := dictSet stA.sounding_notes note.pitch false }
  | .MEASURE_START, _ =>
      match tss.get? st.track.measures.length with
      | none => .error (.runtimeError "IndexError: time_signatures")
      | some ts => .ok { st with track := st.track.new_measure tpb ts }
  | .NOTE_ON, some note =>
      .ok { st with
        notes_to_add := removeLastPitch st.notes_to_add note.pitch ++
          [Note.init note.pitch note.velocity false],
        sounding_notes := dictSet st.sounding_notes note.pitch true }
  | _, none => .error (.runtimeError "note event without a note")

/-- One iteration of the sweep loop (lines 267-322): commit on tick
advance, dispatch the event, record the processed tick. -/
def sweep_step (tpb : Nat) (tss : List TimeSignature) (st : SweepState)
    (e : TEv) : Except PyError SweepState := do
  let st1 ← sweep_commit st e.tick
  let st2 ← sweep_dispatch tpb tss st1 e
  pure { st2 with prev_tick := e.tick }

/-- The freshly created track an instrument is imported into (line 242). -/
def track0 (name : String) (program channel : Nat) (tt : TrackType) : Track :=
  ⟨name, program, channel, tt, []⟩

/-- The whole sweep over a sorted event list, from the initial state. -/
def importSweep (tpb : Nat) (tss : List TimeSignature) (t0 : Track)
    (events : List TEv) : Except PyError SweepState :=
  events.foldlM (sweep_step tpb tss) ⟨t0, [], 0, [], true⟩

/-- Import of one instrument (the per-instrument body of
create_song_from_pretty_midi_instruments, lines 233-326): build and sort the
event list, sweep it, and assert that no pitch is left sounding (lines
324-326) — a violated assert aborts the conversion. -/
def importTrack (tpb : Nat) (name : String) (program channel : Nat)
    (tt : TrackType) (notes : List PMNote) (downbeats : List Nat)
    (tss : List TimeSignature) : Except PyError Track := do
  let stf ← importSweep tpb tss (track0 name program channel tt)
    (get_events notes downbeats)
  if stf.sounding_notes.any (fun kv => kv.2 = true) then
    .error .assertionError
  else
    pure stf.track

/-- One source instrument for import: name, program, whether it is a drum
instrument, its note intervals, and the TrackType assigned to it. -/
structure Instrument where
  name : String
  program : Nat
  is_drum : Bool
  notes : List PMNote
  track_type : TrackType
deriving DecidableEq, Repr

/-- The reserved drum channel (line 20). -/
def DRUM_CHANNEL : Nat := 9

/-- create_song_from_pretty_midi_instruments (lines 211-334): import every
instrument as a track; drums go to channel 9, melodic instruments receive
ascending channels skipping 9 (channel overflow past 15 only warns). -/
def import_song (tpb : Nat) (instruments : List Instrument)
    (downbeats : List Nat) (tss : List TimeSignature) (name : String) :
    Except PyError Song := do
  let r ← instruments.foldlM
    (fun (acc : List Track × Nat) inst => do
      let this_channel := if inst.is_drum then DRUM_CHANNEL else acc.2
      let track ← importTrack tpb inst.name inst.program this_channel
        inst.track_type inst.notes downbeats tss
      let channel2 := acc.2 + 1
      let channel3 := if channel2 = DRUM_CHANNEL then DRUM_CHANNEL + 1 else channel2
      pure (acc.1 ++ [track], channel3))
    ([], 0)
  pure ⟨name, tpb, ⟨4, 4⟩, ⟨0, Mode.MAJOR⟩, r.1⟩

/-! ### Semantics of a track: per-pitch occurrences (claims C2 and C1).
A well-formed track (measures consecutive and exactly filled) is flattened
to its event list; absolute time is the running sum of event durations. -/

/-- The events of a track in playing order. -/
def trackEvents (t : Track) : List Event :=
  t.measures.flatMap (fun m => m.events)

/-- The note of an Event holding the given pitch, if any (unique in
well-formed Events). -/
def pnote (e : Event) (p : Nat) : Option Note :=
  e.notes.find? (fun n => n.midi_pitch = p)

/-- What an Event says about one pitch: a fresh onset with a velocity, a
tie continuation, or silence. -/
inductive PStat where
  | onset (v : Int)
  | tie
  | silent
deriving DecidableEq, Repr

/-- The per-pitch reading of an Event. -/
def pstatus (e : Event) (p : Nat) : PStat :=
  match pnote e p with
  | none => .silent
  | some n => if n.tie_from_previous then .tie else .onset n.velocity

/-- The pitches of an Event's notes. -/
def eventPitches (e : Event) : List Nat :=
  e.notes.map (fun n => n.midi_pitch)

/-- Scan of the flattened events collecting the sustained occurrences of
pitch p: an occurrence is (onset tick, termination tick, onset velocity); a
chain of an onset followed by tie continuations is one occurrence. -/
def occsGo (p : Nat) (t : Nat) (opn : Option (Nat × Int)) :
    List Event → List (Nat × Nat × Int)
  | [] =>
      match opn with
      | some o => [(o.1, t, o.2)]
      | none => []
  | e :: rest =>
      match pstatus e p, opn with
      | .onset v, some o => (o.1, t, o.2) :: occsGo p (t + e.duration) (some (t, v)) rest
      | .onset v, none => occsGo p (t + e.duration) (some (t, v)) rest
      | .tie, opn2 => occsGo p (t + e.duration) opn2 rest
      | .silent, some o => (o.1, t, o.2) :: occsGo p (t + e.duration) none rest
      | .silent, none => occsGo p (t + e.duration) none rest

/-- The (onset tick, termination tick, velocity) occurrences of pitch p in
a track: the intervals the spec speaks about. -/
def occurrences (p : Nat) (t : Track) : List (Nat × Nat × Int) :=
  occsGo p 0 none (trackEvents t)

/-! Absolute-time view of a message list. -/

/-- The delta-time field of a message. -/
def msgDelta : Msg → Nat
  | .program_change _ _ t => t
  | .time_signature _ _ t => t
  | .note_on _ _ _ t => t
  | .note_off _ _ _ t => t
  | .end_of_track => 0

/-- The sum of all delta times: the absolute tick after a message list. -/
def deltaSum (msgs : List Msg) : Nat := (msgs.map msgDelta).sum

/-- Each message paired with its absolute tick (cumulative deltas). -/
def absMsgs : Nat → List Msg → List (Nat × Msg)
  | _, [] => []
  | t0, m :: rest => (t0 + msgDelta m, m) :: absMsgs (t0 + msgDelta m) rest

/-- A per-pitch message shape: a note-on with its velocity, or a note-off. -/
inductive PMsg where
  | on (v : Int)
  | off
deriving DecidableEq, Repr

/-- The messages of one pitch, with their absolute ticks. -/
def pitchMsgs (p : Nat) (ams : List (Nat × Msg)) : List (Nat × PMsg) :=
  ams.filterMap (fun tm =>
    match tm.2 with
    | .note_on _ q v _ => if q = p then some (tm.1, .on v) else none
    | .note_off _ q _ _ => if q = p then some (tm.1, .off) else none
    | _ => none)

/-- The message trace an occurrence list denotes: one note-on at each onset
tick, one note-off at each termination tick, in order. -/
def occMsgs (l : List (Nat × Nat × Int)) : List (Nat × PMsg) :=
  l.flatMap (fun o => [(o.1, .on o.2.2), (o.2.1, .off)])

/-- What the exporter emits for pitch p at one event starting at tick t,
given whether p was sounding before: a sounding pitch not tied through is
turned off; a fresh onset is turned on. -/
def stepMsgs (p t : Nat) (wasOn : Bool) (e : Event) : List (Nat × PMsg) :=
  match pstatus e p, wasOn with
  | .onset v, true => [(t, .off), (t, .on v)]
  | .onset v, false => [(t, .on v)]
  | .tie, _ => []
  | .silent, true => [(t, .off)]
  | .silent, false => []

/-- The exporter's pitch-p emissions over a run of events (without the
final track-end turn-off). -/
def stepMsgsList (p t : Nat) (b : Bool) : List Event → List (Nat × PMsg)
  | [] => []
  | e :: rest => stepMsgs p t b e ++
      stepMsgsList p (t + e.duration) (decide (p ∈ eventPitches e)) rest

/-- Whether pitch p is sounding after a run of events, starting from b. -/
def finalB (p : Nat) (b : Bool) : List Event → Bool
  | [] => b
  | e :: rest => finalB p (decide (p ∈ eventPitches e)) rest

/-! Well-formedness of a programmatically built track (the "well-formed
Events" of the spec, made precise). -/

/-- Distinct pitches as a pairwise relation on note lists. -/
def distinctPitches (notes : List Note) : Prop :=
  List.Pairwise (fun a b => a.midi_pitch ≠ b.midi_pitch) notes

/-- Well-formed notes of one Event: pitches below 128 and pairwise
distinct, and every non-tie note carries a velocity in 1..127 (an audible
onset; velocity 0 would export a bare note-off that does not survive a
round trip). -/
def eventNotesWF (e : Event) : Prop :=
  (∀ n ∈ e.notes, n.midi_pitch < 128 ∧
    (n.tie_from_previous = false → 1 ≤ n.velocity ∧ n.velocity ≤ 127)) ∧
  distinctPitches e.notes

/-- Ties only continue pitches present in the previous event. -/
def tiesOK (prev : List Nat) : List Event → Prop
  | [] => True
  | e :: rest =>
      (∀ n ∈ e.notes, n.tie_from_previous = true → n.midi_pitch ∈ prev) ∧
      tiesOK (eventPitches e) rest

/-- Measures sit consecutively: each starts where the previous one ends. -/
def measStartsOK (tpb : Nat) : Nat → List Measure → Prop
  | _, [] => True
  | t0, m :: rest =>
      m.start_tick = t0 ∧
      measStartsOK tpb (t0 + get_duration_ticks m.time_signature tpb) rest

/-- A well-formed track: in-range channel, consecutive measures starting at
tick 0, each measure exactly filled by its events' durations, well-formed
event notes, positive event durations, and proper ties. -/
def trackWF (t : Track) (tpb : Nat) : Prop :=
  t.channel ≤ 15 ∧
  measStartsOK tpb 0 t.measures ∧
  (∀ m ∈ t.measures, ((m.events.map Event.duration).sum
    = get_duration_ticks m.time_signature tpb)) ∧
  (∀ m ∈ t.measures, ∀ e ∈ m.events, eventNotesWF e) ∧
  (∀ m ∈ t.measures, ∀ e ∈ m.events, 1 ≤ e.duration) ∧
  tiesOK [] (trackEvents t)

/-- Ties read for a single pitch: whenever an event reads as a tie
continuation of pitch p, the pitch came out of the previous event (the
flag b tracks whether p is produced by the event before). -/
def pTiesOK (p : Nat) : Bool → List Event → Prop
  | _, [] => True
  | b, e :: rest =>
      (pstatus e p = PStat.tie → b = true) ∧
      pTiesOK p (decide (p ∈ eventPitches e)) rest

instance (notes : List Note) : Decidable (distinctPitches notes) :=
  decidable_of_iff
    (List.Pairwise (fun (a b : Note) => a.midi_pitch ≠ b.midi_pitch) notes)
    ⟨fun h => h, fun h => h⟩

instance (e : Event) : Decidable (eventNotesWF e) :=
  decidable_of_iff
    ((∀ n ∈ e.notes, n.midi_pitch < 128 ∧
        (n.tie_from_previous = false → 1 ≤ n.velocity ∧ n.velocity ≤ 127)) ∧
      distinctPitches e.notes) ⟨fun h => h, fun h => h⟩

instance tiesOKDec : (prev : List Nat) → (evs : List Event) →
    Decidable (tiesOK prev evs)
  | _, [] => .isTrue trivial
  | prev, e :: rest =>
      haveI : Decidable (tiesOK (eventPitches e) rest) :=
        tiesOKDec (eventPitches e) rest
      decidable_of_iff
        ((∀ n ∈ e.notes, n.tie_from_previous = true → n.midi_pitch ∈ prev) ∧
          tiesOK (eventPitches e) rest) ⟨fun h => h, fun h => h⟩

instance measStartsOKDec (tpb : Nat) : (t0 : Nat) → (ms : List Measure) →
    Decidable (measStartsOK tpb t0 ms)
  | _, [] => .isTrue trivial
  | t0, m :: rest =>
      haveI : Decidable (measStartsOK tpb
          (t0 + get_duration_ticks m.time_signature tpb) rest) :=
        measStartsOKDec tpb (t0 + get_duration_ticks m.time_signature tpb) rest
      decidable_of_iff
        (m.start_tick = t0 ∧ measStartsOK tpb
          (t0 + get_duration_ticks m.time_signature tpb) rest) ⟨fun h => h, fun h => h⟩

instance (t : Track) (tpb : Nat) : Decidable (trackWF t tpb) :=
  decidable_of_iff
    (t.channel ≤ 15 ∧
      measStartsOK tpb 0 t.measures ∧
      (∀ m ∈ t.measures, ((m.events.map Event.duration).sum
        = get_duration_ticks m.time_signature tpb)) ∧
      (∀ m ∈ t.measures, ∀ e ∈ m.events, eventNotesWF e) ∧
      (∀ m ∈ t.measures, ∀ e ∈ m.events, 1 ≤ e.duration) ∧
      tiesOK [] (trackEvents t)) ⟨fun h => h, fun h => h⟩

/-! ### Round trip A (claim C1): the decode step and the import-side
occurrence bookkeeping. -/

/-- Modelled from the spec (section 6): the transport codec's decode pairs
each note-on with the following note-off of the same pitch into a
(start, stop, pitch, velocity) interval. -/
def pairIntervals (p : Nat) : List (Nat × PMsg) → List PMNote
  | (t1, PMsg.on v) :: (t2, PMsg.off) :: rest =>
      ⟨t1, t2, p, v⟩ :: pairIntervals p rest
  | _ :: rest => pairIntervals p rest
  | [] => []

/-- Modelled from the spec (section 6): the decoded note intervals of one
exported track, collected pitch by pitch over the MIDI pitch range. -/
def decode_notes (msgs : List Msg) : List PMNote :=
  (List.range 128).flatMap (fun p => pairIntervals p (pitchMsgs p (absMsgs 0 msgs)))

/-- The input intervals of one pitch, in list order. -/
def pitchIvs (p : Nat) (notes : List PMNote) : List PMNote :=
  notes.filter (fun n => n.pitch = p)

/-- The occurrence triples an interval list denotes. -/
def ivsToOccs (l : List PMNote) : List (Nat × Nat × Int) :=
  l.map (fun n => (n.start, n.stop, n.velocity))

/-- Strictly positive intervals chained in time: each ends strictly after
its start and no later than the next one starts. -/
def pitchChain : List PMNote → Prop
  | [] => True
  | [n] => n.start < n.stop
  | n :: m :: rest => n.start < n.stop ∧ n.stop ≤ m.start ∧ pitchChain (m :: rest)

instance pitchChainDec : (l : List PMNote) → Decidable (pitchChain l)
  | [] => .isTrue trivial
  | [n] => decidable_of_iff (n.start < n.stop) ⟨fun h => h, fun h => h⟩
  | n :: m :: rest =>
      haveI : Decidable (pitchChain (m :: rest)) := pitchChainDec (m :: rest)
      decidable_of_iff
        (n.start < n.stop ∧ n.stop ≤ m.start ∧ pitchChain (m :: rest))
        ⟨fun h => h, fun h => h⟩

/-- Occurrence lists chained in time above a lower bound. -/
def occChain : Nat → List (Nat × Nat × Int) → Prop
  | _, [] => True
  | t, o :: rest => t ≤ o.1 ∧ o.1 < o.2.1 ∧ occChain o.2.1 rest

/-- The note events of one pitch in an importer event list. -/
def pEvts (p : Nat) (L : List TEv) : List TEv :=
  L.filter (fun e => match e.note with
    | some n => decide (n.pitch = p)
    | none => false)

/-- The note-on/note-off instants an interval list contributes, in order. -/
def ivEvents : List PMNote → List TEv
  | [] => []
  | iv :: rest => ⟨iv.start, .NOTE_ON, some iv⟩
      :: ⟨iv.stop, .NOTE_OFF, some iv⟩ :: ivEvents rest

/-- Strict lexicographic comparison of sort keys. -/
def keyLt (k1 k2 : Nat × Nat × Nat) : Prop :=
  k1.1 < k2.1 ∨ (k1.1 = k2.1 ∧
    (k1.2.1 < k2.2.1 ∨ (k1.2.1 = k2.2.1 ∧ k1.2.2 < k2.2.2)))

/-- The closed occurrences of occsGo, without the final open one. -/
def occsClosed (p : Nat) (t : Nat) (opn : Option (Nat × Int)) :
    List Event → List (Nat × Nat × Int)
  | [] => []
  | e :: rest =>
      match pstatus e p, opn with
      | .onset v, some o =>
          (o.1, t, o.2) :: occsClosed p (t + e.duration) (some (t, v)) rest
      | .onset v, none => occsClosed p (t + e.duration) (some (t, v)) rest
      | .tie, opn2 => occsClosed p (t + e.duration) opn2 rest
      | .silent, some o => (o.1, t, o.2) :: occsClosed p (t + e.duration) none rest
      | .silent, none => occsClosed p (t + e.duration) none rest

/-- The occurrence still open after a list of events. -/
def occsOpen (p : Nat) (t : Nat) (opn : Option (Nat × Int)) :
    List Event → Option (Nat × Int)
  | [] => opn
  | e :: rest =>
      match pstatus e p, opn with
      | .onset v, _ => occsOpen p (t + e.duration) (some (t, v)) rest
      | .tie, opn2 => occsOpen p (t + e.duration) opn2 rest
      | .silent, _ => occsOpen p (t + e.duration) none rest

/-- The closed occurrences one event contributes. -/
def occStepC (p t : Nat) (opn : Option (Nat × Int)) (e : Event) :
    List (Nat × Nat × Int) :=
  match pstatus e p, opn with
  | .onset _, some o => [(o.1, t, o.2)]
  | .silent, some o => [(o.1, t, o.2)]
  | _, _ => []

/-- The open occurrence after one event. -/
def occStepO (p t : Nat) (opn : Option (Nat × Int)) (e : Event) :
    Option (Nat × Int) :=
  match pstatus e p, opn with
  | .onset v, _ => some (t, v)
  | .tie, o => o
  | .silent, _ => none

/-- The pending notes of one pitch in the sweep state. -/
def pendNotes (p : Nat) (st : SweepState) : List Note :=
  st.notes_to_add.filter (fun n => decide (n.midi_pitch = p))

/-- The per-pitch invariant of the import sweep, over the read values:
committed events TE, the pitch's sounding flag sndp, its pending notes
pendp, the first-note-off flag fno, the current tick prev, the pitch's
remaining events restP, and the guarantee onlyOn that no note-off at the
current tick remains.  target is the pitch's full expected occurrence
list.  Configurations: idle (silent, fully committed), justEnded (an
interval closed exactly at prev), and open inside interval cur, either
just started at prev (onset pending) or with its onset committed. -/
def pinv (p : Nat) (target : List (Nat × Nat × Int)) (TE : List Event)
    (sndp : Bool) (pendp : List Note) (fno : Bool) (prev : Nat)
    (restP : List TEv) (onlyOn : Prop) : Prop :=
  ∃ ivrem : List PMNote,
    (∀ iv ∈ ivrem, iv.pitch = p) ∧ pitchChain ivrem ∧
    ((restP = ivEvents ivrem ∧ sndp = false ∧ pendp = [] ∧
      occsOpen p 0 none TE = none ∧
      occsClosed p 0 none TE ++ ivsToOccs ivrem = target)
    ∨ (∃ s : Nat, ∃ v : Int,
      restP = ivEvents ivrem ∧ sndp = false ∧ pendp = [] ∧
      occsOpen p 0 none TE = some (s, v) ∧
      occsClosed p 0 none TE ++ (s, prev, v) :: ivsToOccs ivrem = target)
    ∨ (∃ cur : PMNote,
      cur.pitch = p ∧ cur.start < cur.stop ∧
      restP = ⟨cur.stop, .NOTE_OFF, some cur⟩ :: ivEvents ivrem ∧
      sndp = true ∧
      ((cur.start = prev ∧
        pendp = [Note.init p cur.velocity false] ∧
        onlyOn ∧
        occsClosed p 0 none TE
          ++ (match occsOpen p 0 none TE with
              | some o => [(o.1, prev, o.2)]
              | none => [])
          ++ (cur.start, cur.stop, cur.velocity) :: ivsToOccs ivrem = target)
      ∨ (cur.start < prev ∧
        pendp = (if fno then [] else [Note.init p (-1) true]) ∧
        occsOpen p 0 none TE = some (cur.start, cur.velocity) ∧
        occsClosed p 0 none TE
          ++ (cur.start, cur.stop, cur.velocity) :: ivsToOccs ivrem = target))))

/-- The global invariant of the import sweep. -/
def sinv (tss : List TimeSignature) (target : Nat → List (Nat × Nat × Int))
    (st : SweepState) (rest : List TEv) : Prop :=
  rest.Pairwise evLe ∧
  (∀ e ∈ rest, st.prev_tick ≤ e.tick) ∧
  (∀ e ∈ rest, e.etype ≠ .MEASURE_START → ∃ n, e.note = some n) ∧
  (∀ e ∈ rest, e.etype = .MEASURE_START → e.note = none) ∧
  st.track.measures ≠ [] ∧
  st.track.measures.length
    + rest.countP (fun e => decide (e.etype = .MEASURE_START)) ≤ tss.length ∧
  (st.sounding_notes.map Prod.fst).Nodup ∧
  ((trackEvents st.track).map Event.duration).sum = st.prev_tick ∧
  (∀ p, pinv p (target p) (trackEvents st.track)
    (dictGetD st.sounding_notes p false) (pendNotes p st)
    st.first_note_off_at_tick st.prev_tick (pEvts p rest)
    (∀ x ∈ rest, x.tick = st.prev_tick → x.etype ≠ EventType.NOTE_OFF))

/-- The full roundtrip of claim C1: export, decode each track's messages
(spec section 6), import with the given downbeat/signature grid, export
again. -/
def roundtrip1 (s : Song) (downbeats : List Nat) (tss : List TimeSignature) :
    Except PyError (List (List Msg)) := do
  let msgss ← export_midi s
  let insts := (s.tracks.zip msgss).map (fun tm =>
    (⟨tm.1.name, tm.1.program, false, decode_notes tm.2,
      tm.1.track_type⟩ : Instrument))
  let s2 ← import_song s.ticks_per_beat insts downbeats tss s.name
  export_midi s2

/-- The Song of the C1 counterexample: as scenario 1 but on channel 1 with
a full 4/4 measure. -/
def c1_song : Song :=
  { name := "t", ticks_per_beat := 480, time_signature := ⟨4, 4⟩,
    key := ⟨0, Mode.MAJOR⟩,
    tracks := [⟨"t", 0, 1, TrackType.MELODY,
      [⟨0, ⟨4, 4⟩, [⟨1920, [⟨60, 100, false⟩]⟩]⟩]⟩] }

/-! ### Concrete songs used by the scenario claims -/

/-- The Song of claim C3 (spec Scenario 1): one track, one 3/8 measure of
720 ticks at 480 ticks per beat, one Event spanning the measure with a
single Note of pitch 60 and velocity 100. -/
def scenario1_song : Song :=
  { name := "", ticks_per_beat := 480, time_signature := ⟨4, 4⟩,
    key := ⟨0, Mode.MAJOR⟩,
    tracks := [{ name := "", program := 0, channel := 0,
                 track_type := TrackType.MELODY,
                 measures := [⟨0, ⟨3, 8⟩, [⟨720, [⟨60, 100, false⟩]⟩]⟩] }] }

/-- The message sequence claim C3 asserts for scenario1_song. -/
def scenario1_claimed_msgs : List Msg :=
  [Msg.program_change 0 0 0, Msg.note_on 0 60 100 0, Msg.note_off 0 60 0 720,
   Msg.end_of_track]

/-- The message sequence export_midi actually produces for scenario1_song:
track 0 also carries a time-signature message for the first measure, whose
signature differs from the initial None. -/
def scenario1_actual_msgs : List Msg :=
  [Msg.program_change 0 0 0, Msg.time_signature 3 8 0, Msg.note_on 0 60 100 0,
   Msg.note_off 0 60 0 720, Msg.end_of_track]

end Pysong

namespace Pysong

/-- Claim C4, counterexample: for s = -6 (either mode) the round trip
returns 6, not -6: (7 * -6) % 12 = (7 * 6) % 12 = 6, and in the inverse
dict the later entry i = 6 overwrote i = -6. -/
theorem c4_counterexample :
    sharpsRoundTrip (-6) Mode.MAJOR = .ok (some 6) ∧
      sharpsRoundTrip (-6) Mode.MINOR = .ok (some 6) ∧
      sharpsRoundTrip (-6) Mode.MAJOR ≠ .ok (some (-6)) := by
  refine ⟨by decide, by decide, by decide⟩

/-- Claim C4 (amended): for every s in [-5, 6] and each mode the
sharps-tonic-sharps round trip returns s; at s = -6 it returns the
enharmonically equivalent 6 instead. -/
theorem c4_amended_theorem (s : Int) (m : Mode) (h1 : -5 ≤ s) (h2 : s ≤ 6) :
    sharpsRoundTrip s m = .ok (some s) := by
  interval_cases s <;> cases m <;> decide

/-- Witness for c4_amended_theorem at s = 3, major mode. -/
theorem c4_amended_theorem_witness :
    sharpsRoundTrip 3 Mode.MAJOR = .ok (some 3) :=
  c4_amended_theorem 3 Mode.MAJOR (by decide) (by decide)

/-! ### Claim C6: measure duration arithmetic -/

/-- Claim C6, counterexample: for time signature 3/8 and ticks_per_beat = 1
the source computes int(1.5) = 1, while the round(...) the claim states
gives 2. -/
theorem c6_counterexample :
    get_duration_ticks_rat ⟨3, 8⟩ 1 = 1 ∧
      spec_duration_ticks_rounded ⟨3, 8⟩ 1 = 2 ∧
      get_duration_ticks_rat ⟨3, 8⟩ 1 ≠ spec_duration_ticks_rounded ⟨3, 8⟩ 1 := by
  have h1 : get_duration_ticks_rat ⟨3, 8⟩ 1 = 1 := by
    unfold get_duration_ticks_rat
    norm_num
  have h2 : spec_duration_ticks_rounded ⟨3, 8⟩ 1 = 2 := by
    unfold spec_duration_ticks_rounded
    norm_num [round_eq]
  exact ⟨h1, h2, by rw [h1, h2]; decide⟩

/-- Claim C6 (amended): get_duration_ticks truncates (floor), rather than
rounds, the exact value numerator * 4 / denominator * ticks_per_beat; the
truncation equals the natural-number division used by the executable model,
and for ticks_per_beat = 480 and signature 3/8 the result is 720. -/
theorem c6_amended_theorem (ts : TimeSignature) (tpb : Nat)
    (hden : 0 < ts.denominator) :
    get_duration_ticks_rat ts tpb = (get_duration_ticks ts tpb : Int) ∧
      get_duration_ticks ⟨3, 8⟩ 480 = 720 := by
  constructor
  · unfold get_duration_ticks_rat get_duration_ticks
    have hcast : ((ts.numerator * 4 : ℚ) / ts.denominator) * tpb
        = ((ts.numerator * 4 * tpb : Nat) : ℚ) / ((ts.denominator : Nat) : ℚ) := by
      push_cast
      ring
    rw [hcast, Rat.floor_natCast_div_natCast]
    omega
  · decide

/-- Witness for c6_amended_theorem at time signature 3/8,
ticks_per_beat = 480. -/
theorem c6_amended_theorem_witness :
    get_duration_ticks_rat ⟨3, 8⟩ 480 = (get_duration_ticks ⟨3, 8⟩ 480 : Int) ∧
      get_duration_ticks ⟨3, 8⟩ 480 = 720 :=
  c6_amended_theorem ⟨3, 8⟩ 480 (by decide)

/-! ### Claim C10: Measure equality ignores start tick and time signature -/

/-- Note.__eq__ is reflexive. -/
theorem noteEq_refl (n : Note) : noteEq n n = true := by
  simp [noteEq]

/-- Event.__eq__ is reflexive: every note of an event matches itself. -/
theorem eventEq_refl (e : Event) : eventEq e e = true := by
  unfold eventEq
  rw [Bool.and_eq_true, Bool.and_eq_true, List.all_eq_true]
  refine ⟨⟨by simp, by simp⟩, ?_⟩
  intro n hn
  rw [List.any_eq_true]
  exact ⟨n, hn, noteEq_refl n⟩

/-- Zipping a list with itself pairs every element with itself. -/
theorem zip_self_eq_map {α : Type} (l : List α) :
    List.zip l l = l.map (fun x => (x, x)) := by
  induction l with
  | nil => rfl
  | cons a t ih => simpa [List.zip] using ih

/-- Claim C10 (confirmed): two Measures with the same event list compare
equal under Measure.__eq__ whatever their start ticks and time signatures;
the comparison looks only at the event lists (with trailing note-less rests
ignored, which for identical lists removes the same suffix). -/
theorem c10_theorem (evs : List Event) (st1 st2 : Nat)
    (ts1 ts2 : TimeSignature) :
    measureEq ⟨st1, ts1, evs⟩ ⟨st2, ts2, evs⟩ = true := by
  unfold measureEq
  rw [Bool.and_eq_true, List.all_eq_true]
  refine ⟨by simp, ?_⟩
  intro p hp
  rw [zip_self_eq_map] at hp
  obtain ⟨x, _, hx⟩ := List.mem_map.mp hp
  rw [← hx]
  exact eventEq_refl x

/-! ### Claim C3: scenario 1 export -/

/-- Claim C3, counterexample: the export of scenario1_song is not the
four-message sequence the claim states, because export_midi also emits a
time-signature meta message on track 0 for the first measure (its 3/8
signature differs from the initial None previous signature). -/
theorem c3_counterexample :
    export_midi scenario1_song ≠ .ok [scenario1_claimed_msgs] := by
  decide

/-- Claim C3 (amended): the export of scenario1_song is exactly
program_change, time_signature(3/8, delta 0), note_on(60,100, delta 0),
note_off(60, delta 720), end_of_track. -/
theorem c3_amended_theorem :
    export_midi scenario1_song = .ok [scenario1_actual_msgs] := by
  decide

/-! ### Claim C9: Key constructor argument errors -/

/-- Claim C9, counterexample: passing exactly one of the two arguments does
not always succeed: num_sharps = 7 alone fails the range assert of
Key.__init__ line 63. -/
theorem c9_counterexample :
    Key.init none (some 7) Mode.MAJOR = .error PyError.assertionError := by
  decide

/-- Claim C9 (amended): constructing a Key with both or neither of
tonic_pitch_class and num_sharps raises ArgumentError immediately (nothing
is built: the Except model returns no partial Key); with exactly one of the
two given and within its range (tonic 0..11, sharps -6..6) construction
succeeds. -/
theorem c9_amended_theorem :
    (∀ m : Mode, raisesArgumentError (Key.init none none m) = true) ∧
    (∀ (m : Mode) (tpc : Nat) (s : Int),
      raisesArgumentError (Key.init (some tpc) (some s) m) = true) ∧
    (∀ (m : Mode) (tpc : Nat), tpc < 12 → ∃ k, Key.init (some tpc) none m = .ok k) ∧
    (∀ (m : Mode) (s : Int), -7 < s → s < 7 → ∃ k, Key.init none (some s) m = .ok k) := by
  refine ⟨fun m => rfl, fun m tpc s => rfl, fun m tpc h => ?_, fun m s h1 h2 => ?_⟩
  · exact ⟨⟨tpc, m⟩, by simp [Key.init, h]⟩
  · cases m with
    | MAJOR => exact ⟨⟨sharpsToTonicMajor s, .MAJOR⟩, by simp [Key.init, h1, h2]⟩
    | MINOR => exact ⟨⟨sharpsToTonicMinor s, .MINOR⟩, by simp [Key.init, h1, h2]⟩

/-- Witness for c9_amended_theorem: both-and-neither raise ArgumentError for
major mode, and tonic 3 alone or sharps 2 alone construct successfully. -/
theorem c9_amended_theorem_witness :
    raisesArgumentError (Key.init none none Mode.MAJOR) = true ∧
    raisesArgumentError (Key.init (some 3) (some 2) Mode.MAJOR) = true ∧
    (∃ k, Key.init (some 3) none Mode.MAJOR = .ok k) ∧
    (∃ k, Key.init none (some 2) Mode.MINOR = .ok k) :=
  ⟨c9_amended_theorem.1 Mode.MAJOR, c9_amended_theorem.2.1 Mode.MAJOR 3 2,
   c9_amended_theorem.2.2.1 Mode.MAJOR 3 (by decide),
   c9_amended_theorem.2.2.2 Mode.MINOR 2 (by decide) (by decide)⟩

/-! ### Claim C7: the Note invariant and construction -/

/-- Claim C7, counterexample: Note.__init__ validates nothing, so the
all-defaults call Note(60) stores velocity -1 with tie_from_previous False,
violating the non-tie half of the invariant. -/
theorem c7_counterexample : ¬ noteInvariant (Note.init 60 (-1) false) := by
  decide

/-! ### Dictionary lemmas -/

/-- Reading an overwritten-in-place dict at a key other than the written one
is unchanged. -/
theorem dictGetD_map_overwrite_ne {α : Type} (d : List (Nat × α)) (k q : Nat)
    (v dflt : α) (hq : q ≠ k) :
    dictGetD (d.map (fun kv => if kv.1 = k then (k, v) else kv)) q dflt
      = dictGetD d q dflt := by
  induction d with
  | nil => rfl
  | cons a t ih =>
      unfold dictGetD
      rw [List.map_cons]
      by_cases ha : a.1 = k
      · rw [if_pos ha]
        rw [List.find?_cons_of_neg _ (by simp; exact fun h => hq h.symm)]
        rw [List.find?_cons_of_neg _ (by
          simp
          intro h
          exact hq (by rw [← h, ha]))]
        exact ih
      · rw [if_neg ha]
        by_cases haq : a.1 = q
        · rw [List.find?_cons_of_pos _ (by simp [haq]),
            List.find?_cons_of_pos _ (by simp [haq])]
        · rw [List.find?_cons_of_neg _ (by simp [haq]),
            List.find?_cons_of_neg _ (by simp [haq])]
          exact ih

/-- Reading an overwritten-in-place dict at the written key gives the new
value, provided the key was present. -/
theorem dictGetD_map_overwrite_self {α : Type} (d : List (Nat × α)) (k : Nat)
    (v dflt : α) (hany : d.any (fun kv => kv.1 = k) = true) :
    dictGetD (d.map (fun kv => if kv.1 = k then (k, v) else kv)) k dflt = v := by
  induction d with
  | nil => cases hany
  | cons a t ih =>
      unfold dictGetD
      rw [List.map_cons]
      by_cases ha : a.1 = k
      · rw [if_pos ha]
        rw [List.find?_cons_of_pos _ (by simp)]
      · have htany : t.any (fun kv => kv.1 = k) = true := by
          simpa [List.any_cons, ha] using hany
        rw [if_neg ha]
        rw [List.find?_cons_of_neg _ (by simp [ha])]
        exact ih htany

/-- Python dict write/read: reading the written key gives the new value,
any other key reads as before. -/
theorem dictGetD_dictSet {α : Type} (d : List (Nat × α)) (k q : Nat) (v dflt : α) :
    dictGetD (dictSet d k v) q dflt
      = if q = k then v else dictGetD d q dflt := by
  by_cases hq : q = k
  · subst hq
    simp only [if_pos rfl]
    unfold dictSet
    by_cases hany : d.any (fun kv => kv.1 = q) = true
    · rw [if_pos hany]
      exact dictGetD_map_overwrite_self d q v dflt hany
    · rw [if_neg hany]
      have hnone : d.find? (fun kv => decide (kv.1 = q)) = none := by
        rw [List.find?_eq_none]
        intro x hx
        have := List.any_eq_false.mp (Bool.eq_false_iff.mpr hany) x hx
        simpa using this
      simp [dictGetD, List.find?_append, hnone]
  · rw [if_neg hq]
    unfold dictSet
    by_cases hany : d.any (fun kv => kv.1 = k) = true
    · rw [if_pos hany]
      exact dictGetD_map_overwrite_ne d k q v dflt hq
    · rw [if_neg hany]
      unfold dictGetD
      rw [List.find?_append]
      have hone : List.find? (fun kv : Nat × α => decide (kv.1 = q)) [(k, v)] = none := by
        rw [List.find?_cons_of_neg _ (by simp; exact fun h => hq h.symm)]
        rfl
      cases hfind : d.find? (fun kv => decide (kv.1 = q)) with
      | none => simp [hfind, hone]
      | some kv => simp [hfind]

/-- After folding dictSet-to-true over a note list, a pitch reads true
exactly when it is one of the notes' pitches or was already true. -/
theorem dictGetD_fold_pitches (notes : List Note) (d0 : List (Nat × Bool)) (q : Nat) :
    dictGetD (notes.foldl (fun d n => dictSet d n.midi_pitch true) d0) q false = true
      ↔ (q ∈ notes.map (fun n => n.midi_pitch) ∨ dictGetD d0 q false = true) := by
  induction notes generalizing d0 with
  | nil => simp
  | cons n t ih =>
      rw [List.foldl_cons]
      rw [ih (dictSet d0 n.midi_pitch true) ]
      rw [dictGetD_dictSet]
      by_cases hq : q = n.midi_pitch
      · simp [hq]
      · simp only [if_neg hq, List.map_cons, List.mem_cons]
        tauto

/-! ### Claim C8: duplicate pitches within one Event -/

/-- Claim C8, counterexample: Event.append_note is a plain append with no
replacement, so two new_note calls with pitch 60 leave two notes of pitch 60
in the event; the claimed last-write-wins replacement does not happen. -/
theorem c8_counterexample :
    (((Event.init 0).new_note 60 100 false).new_note 60 80 false).notes.map
      (fun n => n.midi_pitch) = [60, 60] := by
  decide

/-- The tie-adding fold of _write_event preserves pitch-distinctness of the
accumulated note list, because a tie note is only appended when its pitch is
not yet marked in pitches_written. -/
theorem write_event_fold_distinct (sounding : List (Nat × Bool)) :
    ∀ (acc : List Note × List (Nat × Bool)),
      distinctPitches acc.1 →
      (∀ n ∈ acc.1, dictGetD acc.2 n.midi_pitch false = true) →
      distinctPitches
        ((sounding.foldl
          (fun (acc2 : List Note × List (Nat × Bool)) kv =>
            if kv.2 = true then
              if dictGetD acc2.2 kv.1 false = false then
                (acc2.1 ++ [Note.init kv.1 (-1) true], dictSet acc2.2 kv.1 true)
              else acc2
            else acc2)
          acc).1) := by
  induction sounding with
  | nil => intro acc h1 _; exact h1
  | cons kv t ih =>
      intro acc h1 h2
      rw [List.foldl_cons]
      by_cases hkv : kv.2 = true
      · by_cases hlook : dictGetD acc.2 kv.1 false = false
        · rw [if_pos hkv, if_pos hlook]
          apply ih
          · refine List.pairwise_append.mpr ⟨h1, List.pairwise_singleton _ _, ?_⟩
            intro a ha b hb
            have hbp : b = Note.init kv.1 (-1) true := List.mem_singleton.mp hb
            intro hab
            have : dictGetD acc.2 kv.1 false = true := by
              have := h2 a ha
              rw [hab, hbp] at this
              exact this
            rw [hlook] at this
            cases this
          · intro n hn
            rw [List.mem_append] at hn
            rw [dictGetD_dictSet]
            cases hn with
            | inl hmem =>
                by_cases hnp : n.midi_pitch = kv.1
                · rw [if_pos hnp]
                · rw [if_neg hnp]
                  exact h2 n hmem
            | inr hone =>
                have : n = Note.init kv.1 (-1) true := List.mem_singleton.mp hone
                rw [this]
                simp [Note.init]
        · rw [if_pos hkv, if_neg hlook]
          exact ih acc h1 h2
      · rw [if_neg hkv]
        exact ih acc h1 h2

/-- Claim C8 (amended): Event.append_note appends unconditionally, so two
Notes with the same pitch can coexist inside one Event (no last-write-wins
replacement); pitch-distinctness is instead maintained where the importer
builds events: _write_event, fed a pending list with pairwise distinct
pitches, produces an Event note list with pairwise distinct pitches, because
a tie continuation is added only for a pitch not already written. -/
theorem c8_amended_theorem :
    (∀ (e : Event) (n : Note), (e.append_note n).notes = e.notes ++ [n]) ∧
    (∀ (notes_to_add : List Note) (sounding : List (Nat × Bool)),
      distinctPitches notes_to_add →
      distinctPitches (write_event_notes notes_to_add sounding)) := by
  refine ⟨fun e n => rfl, fun notes_to_add sounding h => ?_⟩
  unfold write_event_notes
  apply write_event_fold_distinct
  · exact h
  · intro n hn
    rw [dictGetD_fold_pitches]
    exact Or.inl (List.mem_map.mpr ⟨n, hn, rfl⟩)

/-- Witness for c8_amended_theorem: a concrete _write_event call with a
distinct-pitch pending list and a sounding table yields distinct pitches. -/
theorem c8_amended_theorem_witness :
    ((Event.init 0).append_note (Note.init 60 100 false)).notes
        = [] ++ [Note.init 60 100 false] ∧
    distinctPitches (write_event_notes [Note.init 60 100 false]
        [(60, true), (64, true), (62, false)]) :=
  ⟨c8_amended_theorem.1 (Event.init 0) (Note.init 60 100 false),
   c8_amended_theorem.2 [Note.init 60 100 false] [(60, true), (64, true), (62, false)]
     (by unfold distinctPitches; decide)⟩

/-! ### Claim C7 (amended): what the code enforces instead -/

/-- An Except-valued foldlM that returns ok ran every element through the
step function successfully. -/
theorem foldlM_ok_forall {α β : Type} (f : β → α → Except PyError β) :
    ∀ (xs : List α) (a b : β), xs.foldlM f a = .ok b →
      ∀ x ∈ xs, ∃ s t, f s x = .ok t := by
  intro xs
  induction xs with
  | nil => intro a b _ x hx; cases hx
  | cons y t ih =>
      intro a b h x hx
      rw [List.foldlM_cons] at h
      cases hfy : f a y with
      | error e =>
          rw [hfy] at h
          cases h
      | ok a2 =>
          rw [hfy] at h
          cases hx with
          | head => exact ⟨a, a2, hfy⟩
          | tail _ hmem => exact ih a2 b h x hmem

/-- A successful export_note_step implies the asserted conditions of
export_midi lines 98-99 for that note. -/
theorem export_note_step_ok_conditions {channel tick : Nat}
    {st st2 : List Msg × Nat × List Nat} {note : Note}
    (h : export_note_step channel tick st note = .ok st2) :
    note.midi_pitch < 128 ∧
      (note.tie_from_previous = true ∨ (0 ≤ note.velocity ∧ note.velocity < 128)) := by
  unfold export_note_step at h
  by_cases h1 : 128 ≤ note.midi_pitch
  · rw [if_pos h1] at h; cases h
  · rw [if_neg h1] at h
    by_cases h2 : note.tie_from_previous = true ∨ (0 ≤ note.velocity ∧ note.velocity < 128)
    · exact ⟨by omega, h2⟩
    · rw [if_pos h2] at h
      cases h

/-- Destructuring a successful Except bind: the first stage succeeded and
the continuation succeeded on its result. -/
theorem except_bind_ok {α β : Type} {x : Except PyError α}
    {g : α → Except PyError β} {b : β} (h : (x >>= g) = .ok b) :
    ∃ a, x = .ok a ∧ g a = .ok b := by
  cases x with
  | error e =>
      rw [show ((Except.error e : Except PyError α) >>= g) = .error e from rfl] at h
      cases h
  | ok a => exact ⟨a, rfl, h⟩

/-- A successful export_event ran export_note_step successfully on every
note of the event. -/
theorem export_event_ok_notes {channel : Nat} {c c2 : Cursor} {event : Event}
    (h : export_event channel c event = .ok c2) :
    ∀ n ∈ event.notes, ∃ s t, export_note_step channel c.tick s n = .ok t := by
  unfold export_event at h
  obtain ⟨r, hr, -⟩ := except_bind_ok h
  exact foldlM_ok_forall _ event.notes _ r hr

/-- A successful export_measure ran export_event successfully on every event
of the measure. -/
theorem export_measure_ok_events {track_idx tpb channel : Nat}
    {st out : Cursor × Option TimeSignature} {measure : Measure}
    (h : export_measure track_idx tpb channel st measure = .ok out) :
    ∀ e ∈ measure.events, ∃ c c2, export_event channel c e = .ok c2 := by
  unfold export_measure at h
  obtain ⟨c3, hc3, -⟩ := except_bind_ok h
  exact foldlM_ok_forall _ measure.events _ c3 hc3

/-- A successful export_track with an in-range channel ran export_measure
successfully on every measure of the track. -/
theorem export_track_ok_measures {track_idx tpb : Nat} {track : Track}
    {msgs : List Msg} (h : export_track track_idx tpb track = .ok msgs)
    (hch : track.channel ≤ 15) :
    ∀ m ∈ track.measures, ∃ st out,
      export_measure track_idx tpb track.channel st m = .ok out := by
  unfold export_track at h
  rw [if_neg (by omega)] at h
  obtain ⟨r, hr, -⟩ := except_bind_ok h
  exact foldlM_ok_forall _ track.measures _ r hr

/-- Claim C7 (amended): Note construction stores its arguments verbatim, so
the spec's invariant holds for a constructed Note exactly when the arguments
already satisfy it (construction itself establishes nothing: see
c7_counterexample).  What the code does enforce is the weaker assert of
export_midi lines 98-99: a track whose export succeeds (with an in-range
channel) contains only Notes with pitch below 128 that are ties or carry a
velocity in 0..127. -/
theorem c7_amended_theorem :
    (∀ (p : Nat) (v : Int) (t : Bool),
      noteInvariant (Note.init p v t) ↔
        ((t = true → v = -1) ∧ (t = false → 0 ≤ v ∧ v ≤ 127))) ∧
    (∀ (track_idx tpb : Nat) (track : Track) (msgs : List Msg),
      export_track track_idx tpb track = .ok msgs → track.channel ≤ 15 →
      ∀ m ∈ track.measures, ∀ e ∈ m.events, ∀ n ∈ e.notes,
        n.midi_pitch < 128 ∧
          (n.tie_from_previous = true ∨ (0 ≤ n.velocity ∧ n.velocity < 128))) := by
  constructor
  · intro p v t
    exact Iff.rfl
  · intro track_idx tpb track msgs h hch m hm e he n hn
    obtain ⟨st, out, hmeas⟩ := export_track_ok_measures h hch m hm
    obtain ⟨c, c2, hev⟩ := export_measure_ok_events hmeas e he
    obtain ⟨s, t, hstep⟩ := export_event_ok_notes hev n hn
    exact export_note_step_ok_conditions hstep

/-- Witness for c7_amended_theorem: the invariant equivalence at a concrete
conforming Note, and the asserted conditions for the one note of
scenario1_song, whose export succeeds. -/
theorem c7_amended_theorem_witness :
    noteInvariant (Note.init 60 100 false) ∧
      ((⟨60, 100, false⟩ : Note).midi_pitch < 128 ∧
        ((⟨60, 100, false⟩ : Note).tie_from_previous = true ∨
          (0 ≤ (⟨60, 100, false⟩ : Note).velocity ∧
            (⟨60, 100, false⟩ : Note).velocity < 128))) :=
  ⟨(c7_amended_theorem.1 60 100 false).mpr (by decide),
   c7_amended_theorem.2 0 480
     { name := "", program := 0, channel := 0, track_type := TrackType.MELODY,
       measures := [⟨0, ⟨3, 8⟩, [⟨720, [⟨60, 100, false⟩]⟩]⟩] }
     scenario1_actual_msgs
     (by decide) (by decide)
     ⟨0, ⟨3, 8⟩, [⟨720, [⟨60, 100, false⟩]⟩]⟩ (by decide)
     ⟨720, [⟨60, 100, false⟩]⟩ (by decide)
     ⟨60, 100, false⟩ (by decide)⟩

/-! ### Claim C5: importer postcondition.  Dictionary key lemmas first. -/

/-- dictSet preserves duplicate-freedom of the key list. -/
theorem dictSet_nodup_keys {α : Type} (d : List (Nat × α)) (k : Nat) (v : α)
    (h : (d.map Prod.fst).Nodup) : ((dictSet d k v).map Prod.fst).Nodup := by
  unfold dictSet
  by_cases hany : d.any (fun kv => kv.1 = k) = true
  · rw [if_pos hany]
    have heq : (d.map (fun kv => if kv.1 = k then (k, v) else kv)).map Prod.fst
        = d.map Prod.fst := by
      rw [List.map_map]
      apply List.map_congr_left
      intro kv _
      by_cases h2 : kv.1 = k
      · simp [h2]
      · simp [h2]
    rw [heq]
    exact h
  · rw [if_neg hany]
    rw [List.map_append]
    refine List.Nodup.append h (by simp) ?_
    intro a ha hb
    simp only [List.map_cons, List.map_nil, List.mem_singleton] at hb
    subst hb
    obtain ⟨kv, hkv, hfst⟩ := List.mem_map.mp ha
    have hall := List.any_eq_false.mp (Bool.eq_false_iff.mpr hany) kv hkv
    simp at hall
    exact hall hfst

/-- In a dict with duplicate-free keys, a member pair reads back its own
value. -/
theorem mem_dict_val {α : Type} (d : List (Nat × α)) (kv : Nat × α) (dflt : α)
    (hnd : (d.map Prod.fst).Nodup) (hmem : kv ∈ d) :
    dictGetD d kv.1 dflt = kv.2 := by
  induction d with
  | nil => cases hmem
  | cons a t ih =>
      rw [List.map_cons] at hnd
      have hnd2 := List.nodup_cons.mp hnd
      cases hmem with
      | head =>
          unfold dictGetD
          rw [List.find?_cons_of_pos _ (by simp)]
      | tail _ hmem2 =>
          have hne : a.1 ≠ kv.1 := by
            intro heq
            exact hnd2.1 (heq ▸ List.mem_map.mpr ⟨kv, hmem2, rfl⟩)
          unfold dictGetD
          rw [List.find?_cons_of_neg _ (by simp [hne])]
          exact ih hnd2.2 hmem2

/-! Per-pitch sounding-flag lemmas. -/

theorem pTrack_cons (e : TEv) (L : List TEv) (p : Nat) (b : Bool) :
    pTrack (e :: L) p b = pTrack L p (updSounding e p b) := rfl

/-- Without any note-on of pitch p, the flag stays false. -/
theorem pTrack_no_on (L : List TEv) (p : Nat) (h : ∀ e ∈ L, ¬ isOnP e p) :
    pTrack L p false = false := by
  induction L with
  | nil => rfl
  | cons e t ih =>
      rw [pTrack_cons]
      have hupd : updSounding e p false = false := by
        unfold updSounding
        cases he : e.etype with
        | NOTE_ON =>
            cases hn : e.note with
            | none => rfl
            | some n =>
                have hne : n.pitch ≠ p := by
                  intro hp
                  exact h e (List.mem_cons_self e t) ⟨he, n, hn, hp⟩
                simp [hne]
        | NOTE_OFF =>
            cases hn : e.note with
            | none => rfl
            | some n => by_cases hp : n.pitch = p <;> simp [hp]
        | MEASURE_START =>
            cases hn : e.note with
            | none => rfl
            | some n => rfl
      rw [hupd]
      exact ih (fun x hx => h x (List.mem_cons_of_mem _ hx))

/-- In a sorted event list holding a note-off of pitch p at tick M and
whose note-ons of pitch p all lie strictly before M, the final flag of p is
false: the off at M comes after every on of p. -/
theorem pTrack_sorted_false (p M : Nat) :
    ∀ (L : List TEv) (b : Bool), L.Sorted evLe →
      (∃ e ∈ L, isOffP e p ∧ e.tick = M) →
      (∀ e ∈ L, isOnP e p → e.tick < M) →
      pTrack L p b = false := by
  intro L
  induction L with
  | nil =>
      intro b _ hoff _
      obtain ⟨e, he, _⟩ := hoff
      cases he
  | cons e t ih =>
      intro b hs hoff hon
      have hst : t.Sorted evLe := (List.sorted_cons.mp hs).2
      have hrel : ∀ x ∈ t, evLe e x := (List.sorted_cons.mp hs).1
      rw [pTrack_cons]
      by_cases hrest : ∃ e2 ∈ t, isOffP e2 p ∧ e2.tick = M
      · exact ih _ hst hrest (fun x hx hxon => hon x (List.mem_cons_of_mem e hx) hxon)
      · obtain ⟨e0, he0mem, he0off, he0tick⟩ := hoff
        have he0e : e0 = e := by
          cases he0mem with
          | head => rfl
          | tail _ hm => exact absurd ⟨e0, hm, he0off, he0tick⟩ hrest
        subst he0e
        obtain ⟨hoffT, n, hnote, hpitch⟩ := he0off
        have hupd : updSounding e0 p b = false := by
          unfold updSounding
          rw [hoffT, hnote]
          simp [hpitch]
        rw [hupd]
        apply pTrack_no_on
        intro x hx hxon
        have hle := hrel x hx
        have hxt : x.tick < M := hon x (List.mem_cons_of_mem e0 hx) hxon
        obtain ⟨honT, m2, hnote2, hpitch2⟩ := hxon
        have hkey1 : evKey e0 = (M, 1, p) := by
          unfold evKey
          rw [hnote, hoffT]
          simp [EventType.code, hpitch, he0tick]
        have hkey2 : evKey x = (x.tick, 3, p) := by
          unfold evKey
          rw [hnote2, honT]
          simp [EventType.code, hpitch2]
        unfold evLe at hle
        rw [hkey1, hkey2] at hle
        unfold keyLe at hle
        simp only at hle
        omega

/-! Structure of the sorted event list. -/

/-- get_events is sorted by the (tick, type, pitch) key. -/
theorem get_events_sorted (notes : List PMNote) (downbeats : List Nat) :
    (get_events notes downbeats).Sorted evLe :=
  List.sorted_insertionSort evLe (raw_events notes downbeats)

/-- Membership in get_events is membership in the unsorted merge list. -/
theorem mem_get_events {notes : List PMNote} {downbeats : List Nat} {e : TEv} :
    e ∈ get_events notes downbeats ↔ e ∈ raw_events notes downbeats :=
  (List.perm_insertionSort evLe (raw_events notes downbeats)).mem_iff

/-- Every interval contributes its note-off instant to the event list. -/
theorem off_mem_get_events {notes : List PMNote} {downbeats : List Nat}
    {iv : PMNote} (hiv : iv ∈ notes) :
    (⟨iv.stop, .NOTE_OFF, some iv⟩ : TEv) ∈ get_events notes downbeats := by
  rw [mem_get_events]
  unfold raw_events
  refine List.mem_append_left _ (List.mem_flatMap.mpr ⟨iv, hiv, ?_⟩)
  simp

/-- Every downbeat contributes its measure-start instant. -/
theorem ms_mem_get_events {notes : List PMNote} {downbeats : List Nat}
    {d : Nat} (hd : d ∈ downbeats) :
    (⟨d, .MEASURE_START, none⟩ : TEv) ∈ get_events notes downbeats := by
  rw [mem_get_events]
  unfold raw_events
  exact List.mem_append_right _ (List.mem_map.mpr ⟨d, hd, rfl⟩)

/-- Every member of the event list is an interval's note-on, an interval's
note-off, or a downbeat's measure start. -/
theorem mem_get_events_cases {notes : List PMNote} {downbeats : List Nat}
    {e : TEv} (he : e ∈ get_events notes downbeats) :
    (∃ iv ∈ notes, e = ⟨iv.start, .NOTE_ON, some iv⟩) ∨
    (∃ iv ∈ notes, e = ⟨iv.stop, .NOTE_OFF, some iv⟩) ∨
    (∃ d ∈ downbeats, e = ⟨d, .MEASURE_START, none⟩) := by
  rw [mem_get_events] at he
  unfold raw_events at he
  rcases List.mem_append.mp he with h | h
  · obtain ⟨iv, hiv, hmem⟩ := List.mem_flatMap.mp h
    simp only [List.mem_cons, List.mem_singleton, List.not_mem_nil, or_false] at hmem
    rcases hmem with h1 | h1
    · exact Or.inl ⟨iv, hiv, h1⟩
    · exact Or.inr (Or.inl ⟨iv, hiv, h1⟩)
  · obtain ⟨d, hd, hmem⟩ := List.mem_map.mp h
    exact Or.inr (Or.inr ⟨d, hd, hmem.symm⟩)

/-- A note-on of pitch p in the event list comes from an interval of pitch
p and sits at that interval's start tick. -/
theorem on_mem_get_events_inv {notes : List PMNote} {downbeats : List Nat}
    {e : TEv} {p : Nat} (he : e ∈ get_events notes downbeats)
    (hon : isOnP e p) : ∃ iv ∈ notes, iv.pitch = p ∧ e.tick = iv.start := by
  obtain ⟨honT, n, hnote, hpitch⟩ := hon
  rcases mem_get_events_cases he with ⟨iv, hiv, hei⟩ | ⟨iv, hiv, hei⟩ | ⟨d, hd, hei⟩
  · refine ⟨iv, hiv, ?_, by rw [hei]⟩
    have : n = iv := by
      rw [hei] at hnote
      exact (Option.some_inj.mp hnote).symm
    rw [← this, hpitch]
  · rw [hei] at honT
    cases honT
  · rw [hei] at honT
    cases honT

/-- Every note event in the event list carries a note. -/
theorem get_events_note_shape {notes : List PMNote} {downbeats : List Nat}
    {e : TEv} (he : e ∈ get_events notes downbeats) :
    e.etype ≠ .MEASURE_START → e.note ≠ none := by
  rcases mem_get_events_cases he with ⟨iv, _, hei⟩ | ⟨iv, _, hei⟩ | ⟨d, _, hei⟩ <;>
    rw [hei] <;> simp

/-- The event list holds exactly one measure start per downbeat. -/
theorem countMS_get_events (notes : List PMNote) (downbeats : List Nat) :
    (get_events notes downbeats).countP
      (fun e => decide (e.etype = .MEASURE_START)) = downbeats.length := by
  unfold get_events
  rw [(List.perm_insertionSort evLe (raw_events notes downbeats)).countP_eq]
  unfold raw_events
  rw [List.countP_append]
  have h1 : (notes.flatMap (fun n =>
      [(⟨n.start, .NOTE_ON, some n⟩ : TEv), ⟨n.stop, .NOTE_OFF, some n⟩])).countP
      (fun e => decide (e.etype = .MEASURE_START)) = 0 := by
    rw [List.countP_eq_zero]
    intro a ha
    obtain ⟨iv, _, hmem⟩ := List.mem_flatMap.mp ha
    simp only [List.mem_cons, List.mem_singleton, List.not_mem_nil, or_false] at hmem
    rcases hmem with h | h <;> rw [h] <;> simp
  have h2 : ((downbeats.map (fun d => (⟨d, .MEASURE_START, none⟩ : TEv)))).countP
      (fun e => decide (e.etype = .MEASURE_START)) = downbeats.length := by
    rw [List.countP_map, List.countP_eq_length]
    intro d _
    simp
  rw [h1, h2]
  omega

/-- With a downbeat at tick 0 and strictly positive-length intervals, the
first sorted event is the measure start at tick 0: nothing sorts before the
key (0, 2, 0) except a note-off at tick 0, which positive length rules
out. -/
theorem get_events_head (notes : List PMNote) (downbeats : List Nat)
    (h1 : ∀ iv ∈ notes, iv.start < iv.stop) (h2 : 0 ∈ downbeats) :
    ∃ L2, get_events notes downbeats = (⟨0, .MEASURE_START, none⟩ : TEv) :: L2 := by
  have hmem := @ms_mem_get_events notes downbeats 0 h2
  cases hL : get_events notes downbeats with
  | nil => rw [hL] at hmem; cases hmem
  | cons e L2 =>
      refine ⟨L2, ?_⟩
      have hsorted := get_events_sorted notes downbeats
      rw [hL] at hsorted hmem
      have hrel : ∀ x ∈ L2, evLe e x := (List.sorted_cons.mp hsorted).1
      have hle : evLe e ⟨0, .MEASURE_START, none⟩ := by
        cases hmem with
        | head => decide
        | tail _ hm => exact hrel _ hm
      have hekey : keyLe (evKey e) (0, 2, 0) := by
        have : evKey (⟨0, .MEASURE_START, none⟩ : TEv) = (0, 2, 0) := rfl
        rw [evLe, this] at hle
        exact hle
      have hemem : e ∈ get_events notes downbeats := by
        rw [hL]
        exact List.mem_cons_self e L2
      rcases mem_get_events_cases hemem with ⟨iv, hiv, hei⟩ | ⟨iv, hiv, hei⟩ | ⟨d, hd, hei⟩
      · exfalso
        rw [hei] at hekey
        have : evKey (⟨iv.start, .NOTE_ON, some iv⟩ : TEv)
            = (iv.start, 3, iv.pitch) := rfl
        rw [this] at hekey
        unfold keyLe at hekey
        simp only at hekey
        omega
      · exfalso
        rw [hei] at hekey
        have : evKey (⟨iv.stop, .NOTE_OFF, some iv⟩ : TEv)
            = (iv.stop, 1, iv.pitch) := rfl
        rw [this] at hekey
        have hpos : 0 < iv.stop := Nat.lt_of_le_of_lt (Nat.zero_le _) (h1 iv hiv)
        unfold keyLe at hekey
        simp only at hekey
        omega
      · rw [hei] at hekey
        have : evKey (⟨d, .MEASURE_START, none⟩ : TEv) = (d, 2, 0) := rfl
        rw [this] at hekey
        unfold keyLe at hekey
        simp only at hekey
        have : d = 0 := by omega
        rw [hei, this]

/-! The sweep never fails and tracks the per-pitch flags. -/

/-- Binding a successful Except computes the continuation. -/
theorem except_ok_bind {α β : Type} (a : α) (g : α → Except PyError β) :
    ((Except.ok a : Except PyError α) >>= g) = g a := rfl

/-- sweep_commit succeeds when a current measure exists, keeps the measure
count, and never touches the sounding table. -/
theorem sweep_commit_ok (st : SweepState) (tick : Nat)
    (hms : st.track.measures ≠ []) :
    ∃ st1, sweep_commit st tick = .ok st1 ∧
      st1.track.measures ≠ [] ∧
      st1.track.measures.length = st.track.measures.length ∧
      st1.sounding_notes = st.sounding_notes := by
  unfold sweep_commit
  by_cases h : st.prev_tick < tick
  · rw [if_pos h]
    cases hlast : st.track.measures.getLast? with
    | none => exact absurd (List.getLast?_eq_none_iff.mp hlast) hms
    | some m =>
        refine ⟨_, rfl, by simp, ?_, rfl⟩
        have hpos : 0 < st.track.measures.length := List.length_pos.mpr hms
        rw [List.length_append, List.length_dropLast]
        simp
        omega
  · rw [if_neg h]
    exact ⟨st, rfl, hms, rfl, rfl⟩

/-- sweep_dispatch succeeds under the shape conditions, adds a measure
exactly on MEASURE_START, and updates the per-pitch reads by updSounding. -/
theorem sweep_dispatch_ok (tpb : Nat) (tss : List TimeSignature)
    (st : SweepState) (e : TEv)
    (hms : st.track.measures ≠ [])
    (hts : e.etype = .MEASURE_START → st.track.measures.length < tss.length)
    (hnote : e.etype ≠ .MEASURE_START → e.note ≠ none) :
    ∃ st2, sweep_dispatch tpb tss st e = .ok st2 ∧
      st2.track.measures ≠ [] ∧
      st2.track.measures.length = st.track.measures.length
        + (if e.etype = .MEASURE_START then 1 else 0) ∧
      (∀ p, dictGetD st2.sounding_notes p false
        = updSounding e p (dictGetD st.sounding_notes p false)) ∧
      ((st.sounding_notes.map Prod.fst).Nodup →
        (st2.sounding_notes.map Prod.fst).Nodup) := by
  cases he : e.etype with
  | NOTE_OFF =>
      cases hn : e.note with
      | none => exact absurd hn (hnote (by simp [he]))
      | some note =>
          unfold sweep_dispatch
          rw [he, hn]
          refine ⟨_, rfl, ?_, ?_, ?_, ?_⟩
          · by_cases hfo : st.first_note_off_at_tick = true <;> simp [hfo, hms]
          · by_cases hfo : st.first_note_off_at_tick = true <;> simp [hfo, he]
          · intro p
            have hsA : (if st.first_note_off_at_tick = true then
                { st with
                  first_note_off_at_tick := false,
                  notes_to_add := st.notes_to_add ++
                    (st.sounding_notes.filter (fun kv => kv.2 = true)).map
                      (fun kv => Note.init kv.1 (-1) true) }
              else st).sounding_notes = st.sounding_notes := by
              by_cases hfo : st.first_note_off_at_tick = true <;> simp [hfo]
            simp only [hsA]
            rw [dictGetD_dictSet]
            unfold updSounding
            rw [he, hn]
            by_cases hp : note.pitch = p
            · simp [hp]
            · simp [hp, Ne.symm hp]
          · intro hnd
            have hsA : (if st.first_note_off_at_tick = true then
                { st with
                  first_note_off_at_tick := false,
                  notes_to_add := st.notes_to_add ++
                    (st.sounding_notes.filter (fun kv => kv.2 = true)).map
                      (fun kv => Note.init kv.1 (-1) true) }
              else st).sounding_notes = st.sounding_notes := by
              by_cases hfo : st.first_note_off_at_tick = true <;> simp [hfo]
            simp only [hsA]
            exact dictSet_nodup_keys _ _ _ hnd
  | MEASURE_START =>
      have hlt := hts he
      have hget : tss.get? st.track.measures.length
          = some (tss.get ⟨st.track.measures.length, hlt⟩) := List.get?_eq_get hlt
      cases hn : e.note with
      | none =>
          unfold sweep_dispatch
          rw [he, hn, hget]
          refine ⟨_, rfl, by simp [Track.new_measure], ?_, ?_, fun h => h⟩
          · simp [Track.new_measure, he]
          · intro p
            unfold updSounding
            rw [he, hn]
      | some note =>
          unfold sweep_dispatch
          rw [he, hn, hget]
          refine ⟨_, rfl, by simp [Track.new_measure], ?_, ?_, fun h => h⟩
          · simp [Track.new_measure, he]
          · intro p
            unfold updSounding
            rw [he, hn]
  | NOTE_ON =>
      cases hn : e.note with
      | none => exact absurd hn (hnote (by simp [he]))
      | some note =>
          unfold sweep_dispatch
          rw [he, hn]
          refine ⟨_, rfl, hms, by simp [he], ?_, fun hnd => dictSet_nodup_keys _ _ _ hnd⟩
          intro p
          rw [dictGetD_dictSet]
          unfold updSounding
          rw [he, hn]
          by_cases hp : note.pitch = p
          · simp [hp]
          · simp [hp, Ne.symm hp]

/-- One sweep iteration succeeds and has the combined effect. -/
theorem sweep_step_ok (tpb : Nat) (tss : List TimeSignature)
    (st : SweepState) (e : TEv)
    (hms : st.track.measures ≠ [])
    (hts : e.etype = .MEASURE_START → st.track.measures.length < tss.length)
    (hnote : e.etype ≠ .MEASURE_START → e.note ≠ none) :
    ∃ st2, sweep_step tpb tss st e = .ok st2 ∧
      st2.track.measures ≠ [] ∧
      st2.track.measures.length = st.track.measures.length
        + (if e.etype = .MEASURE_START then 1 else 0) ∧
      (∀ p, dictGetD st2.sounding_notes p false
        = updSounding e p (dictGetD st.sounding_notes p false)) ∧
      ((st.sounding_notes.map Prod.fst).Nodup →
        (st2.sounding_notes.map Prod.fst).Nodup) := by
  obtain ⟨st1, hc, hms1, hlen1, hsound1⟩ := sweep_commit_ok st e.tick hms
  obtain ⟨st2, hd, hms2, hlen2, hread2, hnd2⟩ :=
    sweep_dispatch_ok tpb tss st1 e hms1 (fun he => hlen1 ▸ hts he) hnote
  refine ⟨{ st2 with prev_tick := e.tick }, ?_, hms2,
    by show st2.track.measures.length = _; omega, ?_, ?_⟩
  · unfold sweep_step
    rw [hc, except_ok_bind, hd, except_ok_bind]
    rfl
  · intro p
    show dictGetD st2.sounding_notes p false = _
    rw [hread2 p, hsound1]
  · intro hnd
    exact hnd2 (hsound1 ▸ hnd)

/-- The whole sweep succeeds and computes, per pitch, the pTrack flag. -/
theorem sweep_fold_ok (tpb : Nat) (tss : List TimeSignature) :
    ∀ (L : List TEv) (st : SweepState),
      (∀ e ∈ L, e.etype ≠ .MEASURE_START → e.note ≠ none) →
      st.track.measures ≠ [] →
      st.track.measures.length
        + L.countP (fun e => decide (e.etype = .MEASURE_START)) ≤ tss.length →
      ∃ stf, L.foldlM (sweep_step tpb tss) st = .ok stf ∧
        (∀ p, dictGetD stf.sounding_notes p false
          = pTrack L p (dictGetD st.sounding_notes p false)) ∧
        ((st.sounding_notes.map Prod.fst).Nodup →
          (stf.sounding_notes.map Prod.fst).Nodup) := by
  intro L
  induction L with
  | nil => intro st _ hms _; exact ⟨st, rfl, fun p => rfl, id⟩
  | cons e t ih =>
      intro st hshape hms hcount
      rw [List.countP_cons] at hcount
      have hts : e.etype = .MEASURE_START → st.track.measures.length < tss.length := by
        intro he
        rw [if_pos (by simp [he])] at hcount
        omega
      obtain ⟨st2, hstep, hms2, hlen2, hread2, hnd2⟩ :=
        sweep_step_ok tpb tss st e hms hts (hshape e (List.mem_cons_self e t))
      have hcount2 : st2.track.measures.length
          + t.countP (fun e => decide (e.etype = .MEASURE_START)) ≤ tss.length := by
        rw [hlen2]
        by_cases he : e.etype = .MEASURE_START
        · rw [if_pos (by simp [he])] at hcount
          rw [if_pos he]
          omega
        · rw [if_neg (by simp [he])] at hcount
          rw [if_neg he]
          omega
      obtain ⟨stf, hfold, hreadf, hndf⟩ :=
        ih st2 (fun x hx => hshape x (List.mem_cons_of_mem e hx)) hms2 hcount2
      refine ⟨stf, ?_, ?_, fun hnd => hndf (hnd2 hnd)⟩
      · rw [List.foldlM_cons, hstep, except_ok_bind]
        exact hfold
      · intro p
        rw [pTrack_cons, hreadf p, hread2 p]

/-- A nonempty interval list has an interval of maximal end tick. -/
theorem exists_max_stop (l : List PMNote) (hne : l ≠ []) :
    ∃ iv ∈ l, ∀ iv2 ∈ l, iv2.stop ≤ iv.stop := by
  induction l with
  | nil => exact absurd rfl hne
  | cons a t ih =>
      cases t with
      | nil =>
          refine ⟨a, List.mem_cons_self a [], ?_⟩
          intro iv2 h2
          rw [List.mem_singleton] at h2
          rw [h2]
      | cons b t2 =>
          obtain ⟨m, hm, hmax⟩ := ih (by simp)
          by_cases hc : a.stop ≤ m.stop
          · refine ⟨m, List.mem_cons_of_mem a hm, ?_⟩
            intro iv2 h2
            cases h2 with
            | head => exact hc
            | tail _ hmem => exact hmax iv2 hmem
          · refine ⟨a, List.mem_cons_self a _, ?_⟩
            intro iv2 h2
            cases h2 with
            | head => exact Nat.le_refl _
            | tail _ hmem => exact Nat.le_trans (hmax iv2 hmem) (Nat.le_of_not_le hc)

/-- On the tail of the sorted event list (after the leading measure start)
the final flag of every pitch is false: each pitch with intervals has its
latest note-off sorted after all of its note-ons. -/
theorem pTrack_tail_false (notes : List PMNote) (downbeats : List Nat)
    (L2 : List TEv) (p : Nat)
    (h1 : ∀ iv ∈ notes, iv.start < iv.stop)
    (hL : get_events notes downbeats = (⟨0, .MEASURE_START, none⟩ : TEv) :: L2) :
    pTrack L2 p false = false := by
  have hsorted : L2.Sorted evLe := by
    have hs := get_events_sorted notes downbeats
    rw [hL] at hs
    exact (List.sorted_cons.mp hs).2
  by_cases hp : ∃ iv ∈ notes, iv.pitch = p
  · obtain ⟨iv0, hiv0, hiv0p⟩ := hp
    have hfne : notes.filter (fun iv => decide (iv.pitch = p)) ≠ [] := by
      intro hcontra
      have hin : iv0 ∈ notes.filter (fun iv => decide (iv.pitch = p)) :=
        List.mem_filter.mpr ⟨hiv0, by simp [hiv0p]⟩
      rw [hcontra] at hin
      cases hin
    obtain ⟨ivm, hivm, hmax⟩ := exists_max_stop _ hfne
    have hivm2 := List.mem_filter.mp hivm
    have hivmp : ivm.pitch = p := by simpa using hivm2.2
    have hoffmem : (⟨ivm.stop, .NOTE_OFF, some ivm⟩ : TEv) ∈ L2 := by
      have hmem := @off_mem_get_events notes downbeats ivm hivm2.1
      rw [hL] at hmem
      rcases List.mem_cons.mp hmem with hcontra | hok
      · simp at hcontra
      · exact hok
    apply pTrack_sorted_false p ivm.stop L2 false hsorted
      ⟨⟨ivm.stop, .NOTE_OFF, some ivm⟩, hoffmem, ⟨rfl, ivm, rfl, hivmp⟩, rfl⟩
    intro e he hon
    have hemem : e ∈ get_events notes downbeats := by
      rw [hL]
      exact List.mem_cons_of_mem _ he
    obtain ⟨iv2, hiv2, hiv2p, hetick⟩ := on_mem_get_events_inv hemem hon
    have hiv2f : iv2 ∈ notes.filter (fun iv => decide (iv.pitch = p)) :=
      List.mem_filter.mpr ⟨hiv2, by simp [hiv2p]⟩
    have hle := hmax iv2 hiv2f
    have hlt := h1 iv2 hiv2
    omega
  · apply pTrack_no_on
    intro e he hon
    have hemem : e ∈ get_events notes downbeats := by
      rw [hL]
      exact List.mem_cons_of_mem _ he
    obtain ⟨iv2, hiv2, hiv2p, _⟩ := on_mem_get_events_inv hemem hon
    exact hp ⟨iv2, hiv2, hiv2p⟩

/-- Claim C5 (confirmed): for well-formed importer input (positive-length
intervals, a downbeat at tick 0, time signatures covering the downbeats)
the sweep succeeds, afterwards every pitch's sounding flag is false, so the
final assert of lines 324-326 passes and importTrack returns the built
track.  A structural-invariant violation instead aborts the conversion:
the zero-length interval (5,5) sorts its note-off before its note-on,
leaves pitch 60 sounding, and importTrack returns the assertion error. -/
theorem c5_theorem (tpb program channel : Nat) (tt : TrackType) (name : String)
    (notes : List PMNote) (downbeats : List Nat) (tss : List TimeSignature)
    (h1 : ∀ iv ∈ notes, iv.start < iv.stop)
    (h2 : 0 ∈ downbeats)
    (h3 : downbeats.length ≤ tss.length) :
    (∃ stf, importSweep tpb tss (track0 name program channel tt)
        (get_events notes downbeats) = .ok stf ∧
      (∀ kv ∈ stf.sounding_notes, kv.2 = false) ∧
      importTrack tpb name program channel tt notes downbeats tss
        = .ok stf.track) ∧
    importTrack 480 "t" 0 0 TrackType.UNKNOWN [⟨5, 5, 60, 100⟩] [0] [⟨4, 4⟩]
      = .error PyError.assertionError := by
  refine ⟨?_, by decide⟩
  obtain ⟨L2, hL⟩ := get_events_head notes downbeats h1 h2
  have hdlen : 0 < downbeats.length :=
    List.length_pos.mpr (by intro hc; rw [hc] at h2; cases h2)
  have htlen : 0 < tss.length := lt_of_lt_of_le hdlen h3
  cases tss with
  | nil => simp at htlen
  | cons ts0 tss2 =>
      have hstep1 : sweep_step tpb (ts0 :: tss2)
          ⟨track0 name program channel tt, [], 0, [], true⟩
          ⟨0, .MEASURE_START, none⟩
          = .ok ⟨{ track0 name program channel tt with
              measures := [⟨0, ts0, []⟩] }, [], 0, [], true⟩ := rfl
      have hcms := countMS_get_events notes downbeats
      rw [hL, List.countP_cons] at hcms
      simp only [decide_eq_true_eq, if_true] at hcms
      have hshape : ∀ e ∈ L2, e.etype ≠ .MEASURE_START → e.note ≠ none := by
        intro e he
        exact get_events_note_shape (by rw [hL]; exact List.mem_cons_of_mem _ he)
      obtain ⟨stf, hfold, hreads, hnds⟩ := sweep_fold_ok tpb (ts0 :: tss2) L2
        ⟨{ track0 name program channel tt with measures := [⟨0, ts0, []⟩] },
          [], 0, [], true⟩
        hshape (by simp) (by simp at h3 ⊢; omega)
      have hsweep : importSweep tpb (ts0 :: tss2) (track0 name program channel tt)
          (get_events notes downbeats) = .ok stf := by
        unfold importSweep
        rw [hL, List.foldlM_cons, hstep1, except_ok_bind]
        exact hfold
      have hfalse : ∀ kv ∈ stf.sounding_notes, kv.2 = false := by
        intro kv hkv
        have hnodup : (stf.sounding_notes.map Prod.fst).Nodup := hnds (by simp)
        have hval := mem_dict_val stf.sounding_notes kv false hnodup hkv
        rw [← hval, hreads kv.1]
        exact pTrack_tail_false notes downbeats L2 kv.1 h1 hL
      refine ⟨stf, hsweep, hfalse, ?_⟩
      unfold importTrack
      rw [hsweep, except_ok_bind]
      split_ifs with hcond
      · obtain ⟨kv, hkv, hkv2⟩ := List.any_eq_true.mp hcond
        have hkvf := hfalse kv hkv
        simp only [decide_eq_true_eq] at hkv2
        rw [hkvf] at hkv2
        cases hkv2
      · rfl

/-! ### Claim C2: tie correctness of the exporter.  Infrastructure about
absolute-time message views and the sounding set first. -/

theorem deltaSum_nil : deltaSum [] = 0 := rfl

theorem deltaSum_append (xs ys : List Msg) :
    deltaSum (xs ++ ys) = deltaSum xs + deltaSum ys := by
  unfold deltaSum
  rw [List.map_append, List.sum_append]

theorem absMsgs_append (xs : List Msg) :
    ∀ (t0 : Nat) (ys : List Msg),
      absMsgs t0 (xs ++ ys) = absMsgs t0 xs ++ absMsgs (t0 + deltaSum xs) ys := by
  induction xs with
  | nil =>
      intro t0 ys
      simp [absMsgs, deltaSum]
  | cons m rest ih =>
      intro t0 ys
      rw [List.cons_append]
      show (t0 + msgDelta m, m) :: absMsgs (t0 + msgDelta m) (rest ++ ys) = _
      rw [ih]
      have : t0 + msgDelta m + deltaSum rest = t0 + deltaSum (m :: rest) := by
        unfold deltaSum
        rw [List.map_cons, List.sum_cons]
        omega
      rw [this]
      rfl

theorem deltaSum_single (m : Msg) : deltaSum [m] = msgDelta m := by
  unfold deltaSum
  simp

/-- Appending one message whose delta lands it at the absolute tick
`tick`. -/
theorem absMsgs_emit (xs : List Msg) (m : Msg) (tick : Nat)
    (h : deltaSum xs ≤ tick) (hm : msgDelta m = tick - deltaSum xs) :
    absMsgs 0 (xs ++ [m]) = absMsgs 0 xs ++ [(tick, m)] ∧
      deltaSum (xs ++ [m]) = tick := by
  constructor
  · rw [absMsgs_append]
    show _ = absMsgs 0 xs ++ [(tick, m)]
    have : (0 + deltaSum xs) + msgDelta m = tick := by omega
    show absMsgs 0 xs ++ [((0 + deltaSum xs) + msgDelta m, m)] = _
    rw [this]
  · rw [deltaSum_append, deltaSum_single]
    omega

theorem pitchMsgs_append (p : Nat) (a b : List (Nat × Msg)) :
    pitchMsgs p (a ++ b) = pitchMsgs p a ++ pitchMsgs p b := by
  unfold pitchMsgs
  rw [List.filterMap_append]

/-! Sounding-set (ascending pitch list) lemmas. -/

theorem mem_setAdd (x y : Nat) : ∀ (s : List Nat), y ∈ setAdd s x ↔ (y = x ∨ y ∈ s) := by
  intro s
  induction s with
  | nil => simp [setAdd]
  | cons a t ih =>
      unfold setAdd
      by_cases h1 : x < a
      · simp [h1]
      · rw [if_neg h1]
        by_cases h2 : x = a
        · rw [if_pos h2]
          subst h2
          simp
        · rw [if_neg h2]
          simp only [List.mem_cons, ih]
          tauto

theorem setAdd_sorted (x : Nat) :
    ∀ (s : List Nat), s.Sorted (fun a b => a < b) →
      (setAdd s x).Sorted (fun a b => a < b) := by
  intro s
  induction s with
  | nil => intro _; simp [setAdd]
  | cons a t ih =>
      intro hs
      have hrel := (List.sorted_cons.mp hs).1
      have hst := (List.sorted_cons.mp hs).2
      unfold setAdd
      by_cases h1 : x < a
      · rw [if_pos h1]
        refine List.sorted_cons.mpr ⟨?_, hs⟩
        intro b hb
        rcases List.mem_cons.mp hb with hba | hbt
        · rw [hba]; exact h1
        · exact Nat.lt_trans h1 (hrel b hbt)
      · rw [if_neg h1]
        by_cases h2 : x = a
        · rw [if_pos h2]; exact hs
        · rw [if_neg h2]
          refine List.sorted_cons.mpr ⟨?_, ih hst⟩
          intro b hb
          rcases (mem_setAdd x b t).mp hb with hbx | hbt
          · rw [hbx]; omega
          · exact hrel b hbt

theorem sorted_lt_nodup (s : List Nat) (hs : s.Sorted (fun a b => a < b)) :
    s.Nodup :=
  hs.imp (fun h => Nat.ne_of_lt h)

/-- Membership in the tie-pitch set of an event. -/
theorem mem_tiedPitches (e : Event) (p : Nat) :
    p ∈ tiedPitches e ↔ ∃ n ∈ e.notes, n.tie_from_previous = true ∧ n.midi_pitch = p := by
  unfold tiedPitches
  suffices h : ∀ (ns : List Note) (s0 : List Nat),
      p ∈ ns.foldl (fun s n => if n.tie_from_previous then setAdd s n.midi_pitch else s) s0
        ↔ (p ∈ s0 ∨ ∃ n ∈ ns, n.tie_from_previous = true ∧ n.midi_pitch = p) by
    rw [h e.notes []]
    simp
  intro ns
  induction ns with
  | nil => simp
  | cons n t ih =>
      intro s0
      rw [List.foldl_cons]
      by_cases hn : n.tie_from_previous
      · rw [if_pos hn, ih, mem_setAdd]
        constructor
        · rintro (⟨hp | hp⟩ | ⟨m, hm, hmt, hmp⟩)
          · exact Or.inr ⟨n, List.mem_cons_self n t, hn, hp.symm⟩
          · exact Or.inl hp
          · exact Or.inr ⟨m, List.mem_cons_of_mem n hm, hmt, hmp⟩
        · rintro (hp | ⟨m, hm, hmt, hmp⟩)
          · exact Or.inl (Or.inr hp)
          · rcases List.mem_cons.mp hm with hmn | hmt2
            · exact Or.inl (Or.inl (by rw [← hmp, hmn]))
            · exact Or.inr ⟨m, hmt2, hmt, hmp⟩
      · rw [if_neg hn, ih]
        constructor
        · rintro (hp | ⟨m, hm, hmt, hmp⟩)
          · exact Or.inl hp
          · exact Or.inr ⟨m, List.mem_cons_of_mem n hm, hmt, hmp⟩
        · rintro (hp | ⟨m, hm, hmt, hmp⟩)
          · exact Or.inl hp
          · rcases List.mem_cons.mp hm with hmn | hmt2
            · exact absurd (hmn ▸ hmt) hn
            · exact Or.inr ⟨m, hmt2, hmt, hmp⟩

/-! Per-pitch reading of single emitted messages. -/

theorem pitchMsgs_single_on (p tick ch q : Nat) (v : Int) (d : Nat) :
    pitchMsgs p [(tick, Msg.note_on ch q v d)]
      = if q = p then [(tick, PMsg.on v)] else [] := by
  unfold pitchMsgs
  by_cases hq : q = p <;> simp [hq]

theorem pitchMsgs_single_off (p tick ch q vel d : Nat) :
    pitchMsgs p [(tick, Msg.note_off ch q vel d)]
      = if q = p then [(tick, PMsg.off)] else [] := by
  unfold pitchMsgs
  by_cases hq : q = p <;> simp [hq]

theorem pitchMsgs_single_ts (p tick a b d : Nat) :
    pitchMsgs p [(tick, Msg.time_signature a b d)] = [] := by
  simp [pitchMsgs]

/-- Emitting a note_on at the cursor tick extends the per-pitch view. -/
theorem pitchMsgs_emit_on (msgs : List Msg) (tick ch q : Nat) (v : Int) (p : Nat)
    (h : deltaSum msgs ≤ tick) :
    pitchMsgs p (absMsgs 0 (msgs ++ [Msg.note_on ch q v (tick - deltaSum msgs)]))
      = pitchMsgs p (absMsgs 0 msgs)
        ++ (if q = p then [(tick, PMsg.on v)] else []) ∧
    deltaSum (msgs ++ [Msg.note_on ch q v (tick - deltaSum msgs)]) = tick := by
  obtain ⟨h1, h2⟩ := absMsgs_emit msgs (Msg.note_on ch q v (tick - deltaSum msgs))
    tick h rfl
  rw [h1, pitchMsgs_append, pitchMsgs_single_on]
  exact ⟨rfl, h2⟩

/-- Emitting a note_off at the cursor tick extends the per-pitch view. -/
theorem pitchMsgs_emit_off (msgs : List Msg) (tick ch q : Nat) (p : Nat)
    (h : deltaSum msgs ≤ tick) :
    pitchMsgs p (absMsgs 0 (msgs ++ [Msg.note_off ch q 0 (tick - deltaSum msgs)]))
      = pitchMsgs p (absMsgs 0 msgs)
        ++ (if q = p then [(tick, PMsg.off)] else []) ∧
    deltaSum (msgs ++ [Msg.note_off ch q 0 (tick - deltaSum msgs)]) = tick := by
  obtain ⟨h1, h2⟩ := absMsgs_emit msgs (Msg.note_off ch q 0 (tick - deltaSum msgs))
    tick h rfl
  rw [h1, pitchMsgs_append, pitchMsgs_single_off]
  exact ⟨rfl, h2⟩

/-! The two successful shapes of export_note_step under well-formedness. -/

theorem export_note_step_tie (ch tick : Nat) (msgs : List Msg) (pt : Nat)
    (snd : List Nat) (n : Note) (hp : n.midi_pitch < 128)
    (ht : n.tie_from_previous = true) :
    export_note_step ch tick (msgs, pt, snd) n
      = .ok (msgs, pt, setAdd snd n.midi_pitch) := by
  unfold export_note_step
  rw [if_neg (by omega), if_neg (by simp [ht]), if_neg (by simp [ht]),
    if_neg (by simp [ht])]

theorem export_note_step_on (ch tick : Nat) (msgs : List Msg) (pt : Nat)
    (snd : List Nat) (n : Note) (hp : n.midi_pitch < 128)
    (ht : n.tie_from_previous = false) (hv : 1 ≤ n.velocity ∧ n.velocity ≤ 127) :
    export_note_step ch tick (msgs, pt, snd) n
      = .ok (msgs ++ [Msg.note_on ch n.midi_pitch n.velocity (tick - pt)], tick,
          setAdd snd n.midi_pitch) := by
  unfold export_note_step
  rw [if_neg (by omega), if_neg (by simp [ht]; omega), if_pos ⟨by omega, ht⟩]

/-! The note-off sweep at the head of each event. -/

theorem turn_off_fold_aux (ch tick : Nat) (ign : List Nat) :
    ∀ (offs : List Nat) (acc1 : List Msg) (pt : Nat) (base : List Msg),
      pt ≤ tick → deltaSum (base ++ acc1) = pt → offs.Nodup →
      ∃ res : List Msg × Nat,
        offs.foldl (turn_off_step ch tick ign) (acc1, pt) = res ∧
        res.2 ≤ tick ∧ pt ≤ res.2 ∧ deltaSum (base ++ res.1) = res.2 ∧
        (∀ p, pitchMsgs p (absMsgs 0 (base ++ res.1))
          = pitchMsgs p (absMsgs 0 (base ++ acc1))
            ++ (if p ∈ offs ∧ ¬ p ∈ ign then [(tick, PMsg.off)] else [])) := by
  intro offs
  induction offs with
  | nil =>
      intro acc1 pt base hpt hds _
      exact ⟨(acc1, pt), rfl, hpt, Nat.le_refl pt, hds, fun p => by simp⟩
  | cons q offs ih =>
      intro acc1 pt base hpt hds hnd
      rw [List.foldl_cons]
      have hndt := (List.nodup_cons.mp hnd).2
      have hqnot := (List.nodup_cons.mp hnd).1
      by_cases hq : q ∈ ign
      · rw [show turn_off_step ch tick ign (acc1, pt) q = (acc1, pt) from
          by unfold turn_off_step; rw [if_pos hq]]
        obtain ⟨res, hres, h1, h2, h3, h4⟩ := ih acc1 pt base hpt hds hndt
        refine ⟨res, hres, h1, h2, h3, ?_⟩
        intro p
        rw [h4 p]
        have hiff : (p ∈ offs ∧ ¬ p ∈ ign) ↔ (p ∈ q :: offs ∧ ¬ p ∈ ign) := by
          constructor
          · intro hc
            exact ⟨List.mem_cons_of_mem q hc.1, hc.2⟩
          · intro hc
            rcases List.mem_cons.mp hc.1 with hpq | hpo
            · exact absurd hq (hpq ▸ hc.2)
            · exact ⟨hpo, hc.2⟩
        by_cases hc : p ∈ offs ∧ ¬ p ∈ ign
        · rw [if_pos hc, if_pos (hiff.mp hc)]
        · rw [if_neg hc, if_neg (fun h => hc (hiff.mpr h))]
      · rw [show turn_off_step ch tick ign (acc1, pt) q
            = (acc1 ++ [Msg.note_off ch q 0 (tick - pt)], tick) from
          by unfold turn_off_step; rw [if_neg hq]]
        have hds3 : deltaSum (base ++ (acc1 ++ [Msg.note_off ch q 0 (tick - pt)])) = tick := by
          rw [← List.append_assoc]
          exact (absMsgs_emit (base ++ acc1) (Msg.note_off ch q 0 (tick - pt)) tick
            (hds ▸ hpt) (by rw [hds]; rfl)).2
        obtain ⟨res, hres, h1, h2, h3, h4⟩ :=
          ih (acc1 ++ [Msg.note_off ch q 0 (tick - pt)]) tick base (Nat.le_refl tick)
            hds3 hndt
        refine ⟨res, hres, h1, Nat.le_trans hpt h2, h3, ?_⟩
        intro p
        rw [h4 p]
        have habs : pitchMsgs p (absMsgs 0 (base ++ (acc1 ++ [Msg.note_off ch q 0 (tick - pt)])))
            = pitchMsgs p (absMsgs 0 (base ++ acc1))
              ++ (if q = p then [(tick, PMsg.off)] else []) := by
          rw [← List.append_assoc]
          have hh := (pitchMsgs_emit_off (base ++ acc1) tick ch q p (hds ▸ hpt)).1
          rw [hds] at hh
          exact hh
        rw [habs]
        by_cases hpq : q = p
        · subst hpq
          have e1 : (if q = q then [(tick, PMsg.off)] else []) = [(tick, PMsg.off)] :=
            if_pos rfl
          have e2 : (if q ∈ offs ∧ ¬ q ∈ ign then [(tick, PMsg.off)] else []) = [] :=
            if_neg (fun hc => hqnot hc.1)
          have e3 : (if q ∈ q :: offs ∧ ¬ q ∈ ign then [(tick, PMsg.off)] else [])
              = [(tick, PMsg.off)] := if_pos ⟨List.mem_cons_self q offs, hq⟩
          rw [e1, e2, e3]
          simp
        · have e1 : (if q = p then [(tick, PMsg.off)] else []) = [] := if_neg hpq
          have hiff : (p ∈ offs ∧ ¬ p ∈ ign) ↔ (p ∈ q :: offs ∧ ¬ p ∈ ign) := by
            constructor
            · intro hc
              exact ⟨List.mem_cons_of_mem q hc.1, hc.2⟩
            · intro hc
              rcases List.mem_cons.mp hc.1 with hp2 | hpo
              · exact absurd hp2 (fun h => hpq h.symm)
              · exact ⟨hpo, hc.2⟩
          rw [e1]
          by_cases hc : p ∈ offs ∧ ¬ p ∈ ign
          · rw [if_pos hc, if_pos (hiff.mp hc)]
            simp
          · rw [if_neg hc, if_neg (fun h => hc (hiff.mpr h))]
            simp

/-- The specification of _turn_off_notes: one note-off at the current tick
for every sounding pitch not tied through. -/
theorem turn_off_notes_spec (ch tick pt : Nat) (offs ign : List Nat)
    (base : List Msg) (hpt : pt ≤ tick) (hds : deltaSum base = pt)
    (hnd : offs.Nodup) :
    ∃ res : List Msg × Nat,
      turn_off_notes ch tick pt offs ign = res ∧
      res.2 ≤ tick ∧ pt ≤ res.2 ∧ deltaSum (base ++ res.1) = res.2 ∧
      (∀ p, pitchMsgs p (absMsgs 0 (base ++ res.1))
        = pitchMsgs p (absMsgs 0 base)
          ++ (if p ∈ offs ∧ ¬ p ∈ ign then [(tick, PMsg.off)] else [])) := by
  have h := turn_off_fold_aux ch tick ign offs [] pt base hpt (by simpa using hds) hnd
  obtain ⟨res, hres, h1, h2, h3, h4⟩ := h
  refine ⟨res, hres, h1, h2, h3, ?_⟩
  intro p
  rw [h4 p]
  simp

/-- The note loop of one exported event: every non-tie note (audible under
well-formedness) emits one note_on at the current tick, ties emit nothing,
and the new sounding set collects all the event's pitches. -/
theorem export_notes_fold (ch tick : Nat) :
    ∀ (ns : List Note) (msgs0 : List Msg) (pt0 : Nat) (snd0 : List Nat),
      (∀ n ∈ ns, n.midi_pitch < 128 ∧
        (n.tie_from_previous = false → 1 ≤ n.velocity ∧ n.velocity ≤ 127)) →
      pt0 ≤ tick → deltaSum msgs0 = pt0 →
      snd0.Sorted (fun a b => a < b) →
      ∃ r : List Msg × Nat × List Nat,
        ns.foldlM (fun st note => export_note_step ch tick st note)
          (msgs0, pt0, snd0) = .ok r ∧
        r.2.1 ≤ tick ∧ pt0 ≤ r.2.1 ∧ deltaSum r.1 = r.2.1 ∧
        r.2.2.Sorted (fun a b => a < b) ∧
        (∀ p, p ∈ r.2.2 ↔ (p ∈ snd0 ∨ p ∈ ns.map (fun n => n.midi_pitch))) ∧
        (∀ p, pitchMsgs p (absMsgs 0 r.1) = pitchMsgs p (absMsgs 0 msgs0)
          ++ (ns.filter (fun n => n.midi_pitch = p ∧ n.tie_from_previous = false)).map
              (fun n => (tick, PMsg.on n.velocity))) := by
  intro ns
  induction ns with
  | nil =>
      intro msgs0 pt0 snd0 _ hpt hds hsort
      refine ⟨(msgs0, pt0, snd0), rfl, hpt, Nat.le_refl pt0, hds, hsort, ?_, ?_⟩
      · intro p
        simp
      · intro p
        simp
  | cons n t ih =>
      intro msgs0 pt0 snd0 hwf hpt hds hsort
      have hn := hwf n (List.mem_cons_self n t)
      have hwt : ∀ m ∈ t, m.midi_pitch < 128 ∧
          (m.tie_from_previous = false → 1 ≤ m.velocity ∧ m.velocity ≤ 127) :=
        fun m hm => hwf m (List.mem_cons_of_mem n hm)
      rw [List.foldlM_cons]
      cases htie : n.tie_from_previous with
      | true =>
          rw [export_note_step_tie ch tick msgs0 pt0 snd0 n hn.1 htie, except_ok_bind]
          obtain ⟨r, hr, h1, h2, h3, h4, h5, h6⟩ :=
            ih msgs0 pt0 (setAdd snd0 n.midi_pitch) hwt hpt hds
              (setAdd_sorted n.midi_pitch snd0 hsort)
          refine ⟨r, hr, h1, h2, h3, h4, ?_, ?_⟩
          · intro p
            rw [h5 p, mem_setAdd]
            simp only [List.map_cons, List.mem_cons]
            tauto
          · intro p
            rw [h6 p, List.filter_cons]
            rw [if_neg (by simp [htie])]
      | false =>
          have hv := hn.2 htie
          rw [export_note_step_on ch tick msgs0 pt0 snd0 n hn.1 htie hv, except_ok_bind]
          obtain ⟨r, hr, h1, h2, h3, h4, h5, h6⟩ :=
            ih (msgs0 ++ [Msg.note_on ch n.midi_pitch n.velocity (tick - pt0)]) tick
              (setAdd snd0 n.midi_pitch) hwt (Nat.le_refl tick)
              (by rw [← hds] at hpt ⊢; exact (pitchMsgs_emit_on msgs0 tick ch
                n.midi_pitch n.velocity 0 hpt).2)
              (setAdd_sorted n.midi_pitch snd0 hsort)
          refine ⟨r, hr, h1, Nat.le_trans hpt h2, h3, h4, ?_, ?_⟩
          · intro p
            rw [h5 p, mem_setAdd]
            simp only [List.map_cons, List.mem_cons]
            tauto
          · intro p
            rw [h6 p]
            have habs : pitchMsgs p (absMsgs 0
                (msgs0 ++ [Msg.note_on ch n.midi_pitch n.velocity (tick - pt0)]))
                = pitchMsgs p (absMsgs 0 msgs0)
                  ++ (if n.midi_pitch = p then [(tick, PMsg.on n.velocity)] else []) := by
              have hh := (pitchMsgs_emit_on msgs0 tick ch n.midi_pitch n.velocity p
                (by rw [hds]; exact hpt)).1
              rw [hds] at hh
              exact hh
            rw [habs, List.filter_cons]
            by_cases hp : n.midi_pitch = p
            · rw [if_pos hp, if_pos (by simp [hp, htie])]
              simp
            · rw [if_neg hp, if_neg (by simp [hp])]
              simp

/-! From the note list of a well-formed Event to its per-pitch reading. -/

/-- In a duplicate-free note list, two members with the same pitch are the
same note. -/
theorem distinct_unique_pitch {ns : List Note} (hd : distinctPitches ns) :
    ∀ {m n : Note}, m ∈ ns → n ∈ ns → m.midi_pitch = n.midi_pitch → m = n := by
  unfold distinctPitches at hd
  induction ns with
  | nil => intro m n hm _ _; cases hm
  | cons x xs ih =>
      have hx := (List.pairwise_cons.mp hd).1
      have hxs := (List.pairwise_cons.mp hd).2
      intro m n hm hn hp
      rcases List.mem_cons.mp hm with hmx | hmxs
      · rcases List.mem_cons.mp hn with hnx | hnxs
        · rw [hmx, hnx]
        · exact absurd (hmx ▸ hp) (hx n hnxs)
      · rcases List.mem_cons.mp hn with hnx | hnxs
        · exact absurd (hnx ▸ hp).symm (hx m hmxs)
        · exact ih hxs hmxs hnxs hp

/-- In a duplicate-free note list, the notes of pitch p that are not ties
are exactly the one found non-tie note. -/
theorem filter_unique_pitch {ns : List Note} (hd : distinctPitches ns)
    {n : Note} {p : Nat} (hn : n ∈ ns) (hp : n.midi_pitch = p)
    (ht : n.tie_from_previous = false) :
    ns.filter (fun m => m.midi_pitch = p ∧ m.tie_from_previous = false) = [n] := by
  unfold distinctPitches at hd
  induction ns with
  | nil => cases hn
  | cons x xs ih =>
      have hx := (List.pairwise_cons.mp hd).1
      have hxs := (List.pairwise_cons.mp hd).2
      rcases List.mem_cons.mp hn with hnx | hnxs
      · subst hnx
        rw [List.filter_cons, if_pos (by simp [hp, ht])]
        have hnone : xs.filter (fun m => m.midi_pitch = p ∧ m.tie_from_previous = false)
            = [] := by
          rw [List.filter_eq_nil]
          intro m hm
          simp only [decide_eq_true_eq, not_and]
          intro hmp
          exact ((hx m hm) (by rw [hp, hmp])).elim
        rw [hnone]
      · have hxp : ¬ (x.midi_pitch = p) := by
          intro hxp
          exact (hx n hnxs) (by rw [hxp, hp])
        rw [List.filter_cons, if_neg (by simp [hxp])]
        exact ih hxs hnxs

/-- A pitch occurs among an event's pitches iff the event has a note of
that pitch. -/
theorem pnote_isSome_iff (e : Event) (p : Nat) :
    (pnote e p).isSome ↔ p ∈ eventPitches e := by
  unfold pnote eventPitches
  constructor
  · intro h
    obtain ⟨n, hn⟩ := Option.isSome_iff_exists.mp h
    have hmem := List.mem_of_find?_eq_some hn
    have hpn := List.find?_some hn
    simp only [decide_eq_true_eq] at hpn
    exact List.mem_map.mpr ⟨n, hmem, hpn⟩
  · intro h
    obtain ⟨n, hn, hp⟩ := List.mem_map.mp h
    cases hfind : e.notes.find? (fun n => n.midi_pitch = p) with
    | none =>
        have := List.find?_eq_none.mp hfind n hn
        simp [hp] at this
    | some m => rfl

/-- A found note of pitch p is a member with that pitch. -/
theorem pnote_spec {e : Event} {p : Nat} {n : Note} (h : pnote e p = some n) :
    n ∈ e.notes ∧ n.midi_pitch = p := by
  refine ⟨List.mem_of_find?_eq_some h, ?_⟩
  have := List.find?_some h
  simpa using this

/-- One exported Event: previously sounding pitches not tied through are
turned off, fresh onsets are turned on, ties stay silent, and the sounding
set becomes the event's pitches.  The per-pitch emission is stepMsgs. -/
theorem export_event_spec (ch : Nat) (c : Cursor) (e : Event)
    (hwf : eventNotesWF e)
    (hsort : c.sounding.Sorted (fun a b => a < b))
    (hpt : c.prev_tick ≤ c.tick)
    (hds : deltaSum c.msgs = c.prev_tick) :
    ∃ cf : Cursor, export_event ch c e = .ok cf ∧
      cf.tick = c.tick + e.duration ∧
      cf.prev_tick ≤ c.tick ∧
      deltaSum cf.msgs = cf.prev_tick ∧
      cf.sounding.Sorted (fun a b => a < b) ∧
      (∀ p, p ∈ cf.sounding ↔ p ∈ eventPitches e) ∧
      (∀ p, pitchMsgs p (absMsgs 0 cf.msgs) = pitchMsgs p (absMsgs 0 c.msgs)
        ++ stepMsgs p c.tick (decide (p ∈ c.sounding)) e) := by
  obtain ⟨off, hoff, ho1, ho2, ho3, ho4⟩ :=
    turn_off_notes_spec ch c.tick c.prev_tick c.sounding (tiedPitches e) c.msgs
      hpt hds (sorted_lt_nodup c.sounding hsort)
  obtain ⟨r, hr, hr1, hr2, hr3, hr4, hr5, hr6⟩ :=
    export_notes_fold ch c.tick e.notes (c.msgs ++ off.1) off.2 [] hwf.1 ho1 ho3
      (by simp)
  refine ⟨⟨r.1, r.2.1, c.tick + e.duration, r.2.2⟩, ?_, rfl, hr1, hr3, hr4, ?_, ?_⟩
  · have hdef : export_event ch c e
        = (e.notes.foldlM (fun st note => export_note_step ch c.tick st note)
            (c.msgs ++ (turn_off_notes ch c.tick c.prev_tick c.sounding
              (tiedPitches e)).1,
             (turn_off_notes ch c.tick c.prev_tick c.sounding (tiedPitches e)).2,
             ([] : List Nat))) >>= (fun r =>
          pure ⟨r.1, r.2.1, c.tick + e.duration, r.2.2⟩) := rfl
    rw [hdef, hoff, hr, except_ok_bind]
    rfl
  · intro p
    show p ∈ r.2.2 ↔ _
    rw [hr5 p]
    unfold eventPitches
    simp
  · intro p
    show pitchMsgs p (absMsgs 0 r.1) = _
    rw [hr6 p, ho4 p, List.append_assoc]
    congr 1
    unfold stepMsgs
    cases hfind : pnote e p with
    | none =>
        have hstat : pstatus e p = .silent := by
          unfold pstatus
          rw [hfind]
        rw [hstat]
        have hnop : ∀ m ∈ e.notes, ¬ (m.midi_pitch = p) := by
          intro m hm
          have := List.find?_eq_none.mp hfind m hm
          simpa using this
        have hfilter : e.notes.filter
            (fun m => m.midi_pitch = p ∧ m.tie_from_previous = false) = [] := by
          rw [List.filter_eq_nil]
          intro m hm
          simp only [decide_eq_true_eq, not_and]
          intro hmp
          exact absurd hmp (hnop m hm)
        have hnotied : ¬ p ∈ tiedPitches e := by
          rw [mem_tiedPitches]
          rintro ⟨m, hm, _, hmp⟩
          exact hnop m hm hmp
        rw [hfilter]
        by_cases hs : p ∈ c.sounding
        · rw [if_pos ⟨hs, hnotied⟩]
          simp [hs]
        · rw [if_neg (fun hc => hs hc.1)]
          simp [hs]
    | some n =>
        obtain ⟨hmem, hp⟩ := pnote_spec hfind
        cases htie : n.tie_from_previous with
        | true =>
            have hstat : pstatus e p = .tie := by
              unfold pstatus
              rw [hfind]
              simp [htie]
            rw [hstat]
            have htied : p ∈ tiedPitches e :=
              (mem_tiedPitches e p).mpr ⟨n, hmem, htie, hp⟩
            have hfilter : e.notes.filter
                (fun m => m.midi_pitch = p ∧ m.tie_from_previous = false) = [] := by
              rw [List.filter_eq_nil]
              intro m hm
              simp only [decide_eq_true_eq, not_and]
              intro hmp hmt
              have : m = n := distinct_unique_pitch hwf.2 hm hmem (by rw [hmp, hp])
              rw [this] at hmt
              rw [hmt] at htie
              cases htie
            rw [hfilter, if_neg (fun hc => hc.2 htied)]
            simp
        | false =>
            have hstat : pstatus e p = .onset n.velocity := by
              unfold pstatus
              rw [hfind]
              simp [htie]
            rw [hstat]
            have hfilter := filter_unique_pitch hwf.2 hmem hp htie
            rw [hfilter]
            have hnotied : ¬ p ∈ tiedPitches e := by
              rw [mem_tiedPitches]
              rintro ⟨m, hm, hmt, hmp⟩
              have : m = n := distinct_unique_pitch hwf.2 hm hmem (by rw [hmp, hp])
              rw [this] at hmt
              rw [hmt] at htie
              cases htie
            by_cases hs : p ∈ c.sounding
            · rw [if_pos ⟨hs, hnotied⟩]
              simp [hs]
            · rw [if_neg (fun hc => hs hc.1)]
              simp [hs]

theorem stepMsgsList_cons (p t : Nat) (b : Bool) (e : Event) (rest : List Event) :
    stepMsgsList p t b (e :: rest)
      = stepMsgs p t b e
        ++ stepMsgsList p (t + e.duration) (decide (p ∈ eventPitches e)) rest := rfl

/-- A run of exported events (the event loop inside one measure). -/
theorem export_events_run (ch : Nat) :
    ∀ (evs : List Event) (c : Cursor),
      (∀ e ∈ evs, eventNotesWF e) →
      c.sounding.Sorted (fun a b => a < b) →
      c.prev_tick ≤ c.tick →
      deltaSum c.msgs = c.prev_tick →
      ∃ cf, evs.foldlM (export_event ch) c = .ok cf ∧
        cf.tick = c.tick + (evs.map Event.duration).sum ∧
        cf.prev_tick ≤ cf.tick ∧
        deltaSum cf.msgs = cf.prev_tick ∧
        cf.sounding.Sorted (fun a b => a < b) ∧
        (∀ p, decide (p ∈ cf.sounding) = finalB p (decide (p ∈ c.sounding)) evs) ∧
        (∀ p, pitchMsgs p (absMsgs 0 cf.msgs) = pitchMsgs p (absMsgs 0 c.msgs)
          ++ stepMsgsList p c.tick (decide (p ∈ c.sounding)) evs) := by
  intro evs
  induction evs with
  | nil =>
      intro c _ hsort hpt hds
      refine ⟨c, rfl, by simp, hpt, hds, hsort, fun p => rfl, fun p => by
        unfold stepMsgsList
        simp⟩
  | cons e rest ih =>
      intro c hwf hsort hpt hds
      obtain ⟨c2, hc2, h1, h2, h3, h4, h5, h6⟩ :=
        export_event_spec ch c e (hwf e (List.mem_cons_self e rest)) hsort hpt hds
      obtain ⟨cf, hcf, g1, g2, g3, g4, g5, g6⟩ :=
        ih c2 (fun x hx => hwf x (List.mem_cons_of_mem e hx)) h4
          (by omega) h3
      have hsnd : ∀ p, decide (p ∈ c2.sounding) = decide (p ∈ eventPitches e) := by
        intro p
        simp [h5 p]
      refine ⟨cf, ?_, ?_, g2, g3, g4, ?_, ?_⟩
      · rw [List.foldlM_cons, hc2, except_ok_bind]
        exact hcf
      · rw [g1, h1]
        simp
        omega
      · intro p
        rw [g5 p, hsnd p]
        rfl
      · intro p
        rw [g6 p, h6 p, hsnd p, h1, stepMsgsList_cons, List.append_assoc]

theorem stepMsgsList_append (p : Nat) :
    ∀ (xs ys : List Event) (t : Nat) (b : Bool),
      stepMsgsList p t b (xs ++ ys)
        = stepMsgsList p t b xs
          ++ stepMsgsList p (t + (xs.map Event.duration).sum) (finalB p b xs) ys := by
  intro xs
  induction xs with
  | nil =>
      intro ys t b
      unfold stepMsgsList finalB
      simp
  | cons e rest ih =>
      intro ys t b
      rw [List.cons_append]
      show stepMsgs p t b e ++ _ = (stepMsgs p t b e ++ _) ++ _
      rw [ih, List.append_assoc]
      show _ = stepMsgs p t b e ++ (_ ++ stepMsgsList p _ (finalB p b (e :: rest)) ys)
      have ht : t + e.duration + ((rest.map Event.duration).sum)
          = t + (((e :: rest).map Event.duration).sum) := by
        simp
        omega
      rw [ht]
      rfl

theorem finalB_append (p : Nat) :
    ∀ (xs ys : List Event) (b : Bool),
      finalB p b (xs ++ ys) = finalB p (finalB p b xs) ys := by
  intro xs
  induction xs with
  | nil => intro ys b; rfl
  | cons e rest ih =>
      intro ys b
      rw [List.cons_append]
      show finalB p (decide (p ∈ eventPitches e)) (rest ++ ys) = _
      rw [ih]
      rfl

/-- One exported Measure under well-formedness: the cursor arrives exactly
at the measure start, a possible time-signature message changes nothing in
the per-pitch view, the events run, and the end-of-measure sweep is skipped
because the events exactly fill the measure. -/
theorem export_measure_spec (idx tpb ch : Nat) (c : Cursor)
    (prevTs : Option TimeSignature) (m : Measure)
    (hstart : m.start_tick = c.tick)
    (hfill : (m.events.map Event.duration).sum
      = get_duration_ticks m.time_signature tpb)
    (hwfev : ∀ e ∈ m.events, eventNotesWF e)
    (hsort : c.sounding.Sorted (fun a b => a < b))
    (hpt : c.prev_tick ≤ c.tick)
    (hds : deltaSum c.msgs = c.prev_tick) :
    ∃ cf prevTs2, export_measure idx tpb ch (c, prevTs) m = .ok (cf, prevTs2) ∧
      cf.tick = c.tick + (m.events.map Event.duration).sum ∧
      cf.prev_tick ≤ cf.tick ∧
      deltaSum cf.msgs = cf.prev_tick ∧
      cf.sounding.Sorted (fun a b => a < b) ∧
      (∀ p, decide (p ∈ cf.sounding) = finalB p (decide (p ∈ c.sounding)) m.events) ∧
      (∀ p, pitchMsgs p (absMsgs 0 cf.msgs) = pitchMsgs p (absMsgs 0 c.msgs)
        ++ stepMsgsList p c.tick (decide (p ∈ c.sounding)) m.events) := by
  have hdef : export_measure idx tpb ch (c, prevTs) m
      = (m.events.foldlM (export_event ch)
          (if idx = 0 ∧ prevTs ≠ some m.time_signature then
            { msgs := c.msgs ++ [Msg.time_signature m.time_signature.numerator
                m.time_signature.denominator (m.start_tick - c.prev_tick)],
              prev_tick := m.start_tick, tick := m.start_tick,
              sounding := c.sounding }
          else { c with tick := m.start_tick })) >>= (fun c3 =>
        pure (if c3.tick < m.start_tick + get_duration_ticks m.time_signature tpb then
          { c3 with
            msgs := c3.msgs ++ (turn_off_notes ch c3.tick c3.prev_tick c3.sounding []).1,
            prev_tick := (turn_off_notes ch c3.tick c3.prev_tick c3.sounding []).2,
            sounding := [] }
        else c3,
        if idx = 0 ∧ prevTs ≠ some m.time_signature then some m.time_signature
        else prevTs)) := rfl
  by_cases hemit : idx = 0 ∧ prevTs ≠ some m.time_signature
  · -- the time-signature message is emitted before the events
    have hds2 : deltaSum (c.msgs ++ [Msg.time_signature m.time_signature.numerator
        m.time_signature.denominator (m.start_tick - c.prev_tick)]) = c.tick := by
      rw [deltaSum_append, deltaSum_single, hds]
      show c.prev_tick + (m.start_tick - c.prev_tick) = c.tick
      omega
    have hneutral : ∀ p, pitchMsgs p (absMsgs 0 (c.msgs
        ++ [Msg.time_signature m.time_signature.numerator
          m.time_signature.denominator (m.start_tick - c.prev_tick)]))
        = pitchMsgs p (absMsgs 0 c.msgs) := by
      intro p
      rw [absMsgs_append, pitchMsgs_append]
      have : pitchMsgs p (absMsgs (0 + deltaSum c.msgs)
          [Msg.time_signature m.time_signature.numerator
            m.time_signature.denominator (m.start_tick - c.prev_tick)]) = [] := by
        show pitchMsgs p [(0 + deltaSum c.msgs + (m.start_tick - c.prev_tick), _)] = []
        rw [pitchMsgs_single_ts]
      rw [this]
      simp
    obtain ⟨cf, hcf, g1, g2, g3, g4, g5, g6⟩ :=
      export_events_run ch m.events
        ⟨c.msgs ++ [Msg.time_signature m.time_signature.numerator
            m.time_signature.denominator (m.start_tick - c.prev_tick)],
          m.start_tick, m.start_tick, c.sounding⟩
        hwfev hsort (Nat.le_refl _)
        (by show deltaSum (c.msgs ++ [Msg.time_signature m.time_signature.numerator
              m.time_signature.denominator (m.start_tick - c.prev_tick)]) = m.start_tick
            rw [hds2, hstart])
    refine ⟨cf, some m.time_signature, ?_,
      by rw [g1]; show m.start_tick + _ = _; rw [hstart], ?_, g3, g4, ?_, ?_⟩
    · rw [hdef]
      rw [if_pos hemit, if_pos hemit]
      rw [hcf, except_ok_bind]
      have hnotlt : ¬ (cf.tick < m.start_tick + get_duration_ticks m.time_signature tpb) := by
        rw [g1]
        show ¬ (m.start_tick + _ < _)
        omega
      rw [if_neg hnotlt]
      rfl
    · omega
    · intro p
      rw [g5 p]
    · intro p
      rw [g6 p]
      show pitchMsgs p (absMsgs 0 (c.msgs
          ++ [Msg.time_signature m.time_signature.numerator
            m.time_signature.denominator (m.start_tick - c.prev_tick)]))
          ++ stepMsgsList p m.start_tick (decide (p ∈ c.sounding)) m.events = _
      rw [hneutral p, hstart]
  · obtain ⟨cf, hcf, g1, g2, g3, g4, g5, g6⟩ :=
      export_events_run ch m.events ({ c with tick := m.start_tick } : Cursor)
        hwfev hsort (by show c.prev_tick ≤ m.start_tick; omega) hds
    refine ⟨cf, prevTs, ?_, by rw [g1]; simp [hstart], ?_, g3, g4, ?_, ?_⟩
    · rw [hdef]
      rw [if_neg hemit, if_neg hemit]
      rw [hcf, except_ok_bind]
      have hnotlt : ¬ (cf.tick < m.start_tick + get_duration_ticks m.time_signature tpb) := by
        rw [g1]
        show ¬ ((({ c with tick := m.start_tick } : Cursor).tick) + _ < _)
        show ¬ (m.start_tick + _ < _)
        omega
      rw [if_neg hnotlt]
      rfl
    · omega
    · intro p
      rw [g5 p]
    · intro p
      rw [g6 p]
      show pitchMsgs p (absMsgs 0 c.msgs) ++ stepMsgsList p m.start_tick _ m.events = _
      rw [hstart]

/-- The measure loop of export_track over consecutive, exactly filled
measures. -/
theorem export_measures_run (idx tpb ch : Nat) :
    ∀ (ms : List Measure) (c : Cursor) (prevTs : Option TimeSignature),
      measStartsOK tpb c.tick ms →
      (∀ m ∈ ms, (m.events.map Event.duration).sum
        = get_duration_ticks m.time_signature tpb) →
      (∀ m ∈ ms, ∀ e ∈ m.events, eventNotesWF e) →
      c.sounding.Sorted (fun a b => a < b) →
      c.prev_tick ≤ c.tick →
      deltaSum c.msgs = c.prev_tick →
      ∃ cf pf, ms.foldlM (export_measure idx tpb ch) (c, prevTs) = .ok (cf, pf) ∧
        cf.tick = c.tick + ((ms.flatMap (fun m => m.events)).map Event.duration).sum ∧
        cf.prev_tick ≤ cf.tick ∧
        deltaSum cf.msgs = cf.prev_tick ∧
        cf.sounding.Sorted (fun a b => a < b) ∧
        (∀ p, decide (p ∈ cf.sounding)
          = finalB p (decide (p ∈ c.sounding)) (ms.flatMap (fun m => m.events))) ∧
        (∀ p, pitchMsgs p (absMsgs 0 cf.msgs) = pitchMsgs p (absMsgs 0 c.msgs)
          ++ stepMsgsList p c.tick (decide (p ∈ c.sounding))
              (ms.flatMap (fun m => m.events))) := by
  intro ms
  induction ms with
  | nil =>
      intro c prevTs _ _ _ hsort hpt hds
      exact ⟨c, prevTs, rfl, by simp, hpt, hds, hsort, fun p => rfl,
        fun p => by
          show pitchMsgs p (absMsgs 0 c.msgs)
            = pitchMsgs p (absMsgs 0 c.msgs) ++ ([] : List (Nat × PMsg))
          simp⟩
  | cons m rest ih =>
      intro c prevTs hms hfill hwf hsort hpt hds
      obtain ⟨hm1, hm2⟩ := hms
      have hfm : (m.events.map Event.duration).sum
          = get_duration_ticks m.time_signature tpb :=
        hfill m (List.mem_cons_self m rest)
      obtain ⟨c2, p2, hc2, h1, h2, h3, h4, h5, h6⟩ :=
        export_measure_spec idx tpb ch c prevTs m hm1 hfm
          (hwf m (List.mem_cons_self m rest)) hsort hpt hds
      have hms2 : measStartsOK tpb c2.tick rest := by
        rw [h1, hfm]
        exact hm2
      obtain ⟨cf, pf, hcf, g1, g2, g3, g4, g5, g6⟩ :=
        ih c2 p2 hms2 (fun x hx => hfill x (List.mem_cons_of_mem m hx))
          (fun x hx => hwf x (List.mem_cons_of_mem m hx)) h4 h2 h3
      refine ⟨cf, pf, ?_, ?_, g2, g3, g4, ?_, ?_⟩
      · rw [List.foldlM_cons, hc2, except_ok_bind]
        exact hcf
      · rw [g1, h1]
        rw [List.flatMap_cons, List.map_append, List.sum_append]
        omega
      · intro p
        rw [g5 p, h5 p, List.flatMap_cons, finalB_append]
      · intro p
        rw [g6 p, h6 p, h5 p, h1, List.flatMap_cons, stepMsgsList_append,
          List.append_assoc]

/-- An event is silent for a pitch exactly when the pitch is absent. -/
theorem pstatus_mem (e : Event) (p : Nat) :
    pstatus e p = PStat.silent ↔ ¬ p ∈ eventPitches e := by
  rw [← pnote_isSome_iff]
  unfold pstatus
  cases hf : pnote e p with
  | none => simp
  | some n =>
      by_cases ht : n.tie_from_previous <;> simp [ht]

theorem mem_of_pstatus_ne_silent {e : Event} {p : Nat}
    (h : pstatus e p ≠ PStat.silent) : p ∈ eventPitches e := by
  by_contra hmem
  exact h ((pstatus_mem e p).mpr hmem)

/-- A tie reading comes from an actual tie-from-previous note at the
pitch. -/
theorem pstatus_tie_exists {e : Event} {p : Nat}
    (h : pstatus e p = PStat.tie) :
    ∃ n, pnote e p = some n ∧ n.tie_from_previous = true := by
  unfold pstatus at h
  cases hf : pnote e p with
  | none =>
      rw [hf] at h
      simp at h
  | some n =>
      rw [hf] at h
      by_cases ht : n.tie_from_previous
      · exact ⟨n, rfl, ht⟩
      · simp [ht] at h

/-- Global tie well-formedness specialises to each pitch. -/
theorem tiesOK_pTiesOK (p : Nat) :
    ∀ (evs : List Event) (prev : List Nat) (b : Bool),
      tiesOK prev evs → (b = true ↔ p ∈ prev) →
      pTiesOK p b evs := by
  intro evs
  induction evs with
  | nil =>
      intro prev b _ _
      trivial
  | cons e rest ih =>
      intro prev b hts hb
      obtain ⟨h1, h2⟩ := hts
      refine ⟨?_, ih (eventPitches e) (decide (p ∈ eventPitches e)) h2 (by simp)⟩
      intro hst
      obtain ⟨n, hfn, htie⟩ := pstatus_tie_exists hst
      obtain ⟨hmem, hp⟩ := pnote_spec hfn
      exact hb.mpr (hp ▸ h1 n hmem htie)

theorem finalB_cons (p : Nat) (b : Bool) (e : Event) (rest : List Event) :
    finalB p b (e :: rest) = finalB p (decide (p ∈ eventPitches e)) rest := rfl

/-- The bridge between the exporter's per-pitch emissions and the
occurrence intervals: over a tie-correct event run, the emitted messages
are exactly one on per onset and one off per termination, plus the closing
off of a pitch still open at the end. -/
theorem occMsgs_bridge (p : Nat) :
    ∀ (evs : List Event) (t : Nat) (opn : Option (Nat × Int)),
      pTiesOK p opn.isSome evs →
      occMsgs (occsGo p t opn evs)
        = (match opn with
            | some o => [(o.1, PMsg.on o.2)]
            | none => ([] : List (Nat × PMsg)))
          ++ stepMsgsList p t opn.isSome evs
          ++ (if finalB p opn.isSome evs = true
              then [(t + (evs.map Event.duration).sum, PMsg.off)] else []) := by
  intro evs
  induction evs with
  | nil =>
      intro t opn _
      cases opn with
      | none => simp [occsGo, occMsgs, stepMsgsList, finalB]
      | some o => simp [occsGo, occMsgs, stepMsgsList, finalB]
  | cons e rest ih =>
      intro t opn hties
      obtain ⟨hte, hrest⟩ := hties
      cases hst : pstatus e p with
      | onset v =>
          have hmem : p ∈ eventPitches e :=
            mem_of_pstatus_ne_silent (by simp [hst])
          have hdec : decide (p ∈ eventPitches e) = true := decide_eq_true hmem
          rw [hdec] at hrest
          have hon : stepMsgs p t true e = [(t, PMsg.off), (t, PMsg.on v)] := by
            unfold stepMsgs
            rw [hst]
          have hon0 : stepMsgs p t false e = [(t, PMsg.on v)] := by
            unfold stepMsgs
            rw [hst]
          cases opn with
          | some o =>
              simp only [Option.isSome_some]
              have hgo : occsGo p t (some o) (e :: rest)
                  = (o.1, t, o.2) :: occsGo p (t + e.duration) (some (t, v)) rest := by
                conv_lhs => unfold occsGo
                conv_lhs => rw [hst]
              rw [hgo]
              show (o.1, PMsg.on o.2) :: (t, PMsg.off)
                  :: occMsgs (occsGo p (t + e.duration) (some (t, v)) rest) = _
              rw [ih (t + e.duration) (some (t, v)) hrest]
              simp [stepMsgsList_cons, finalB_cons, hdec, hon, Nat.add_assoc]
          | none =>
              simp only [Option.isSome_none]
              have hgo : occsGo p t none (e :: rest)
                  = occsGo p (t + e.duration) (some (t, v)) rest := by
                conv_lhs => unfold occsGo
                conv_lhs => rw [hst]
              rw [hgo, ih (t + e.duration) (some (t, v)) hrest]
              simp [stepMsgsList_cons, finalB_cons, hdec, hon0, Nat.add_assoc]
      | tie =>
          have hmem : p ∈ eventPitches e :=
            mem_of_pstatus_ne_silent (by simp [hst])
          have hdec : decide (p ∈ eventPitches e) = true := decide_eq_true hmem
          rw [hdec] at hrest
          have hb := hte hst
          cases opn with
          | none => simp at hb
          | some o =>
              simp only [Option.isSome_some]
              have hgo : occsGo p t (some o) (e :: rest)
                  = occsGo p (t + e.duration) (some o) rest := by
                conv_lhs => unfold occsGo
                conv_lhs => rw [hst]
              have htie0 : stepMsgs p t true e = [] := by
                unfold stepMsgs
                rw [hst]
              rw [hgo, ih (t + e.duration) (some o) hrest]
              simp [stepMsgsList_cons, finalB_cons, hdec, htie0, Nat.add_assoc]
      | silent =>
          have hmem : ¬ p ∈ eventPitches e := (pstatus_mem e p).mp hst
          have hdec : decide (p ∈ eventPitches e) = false := decide_eq_false hmem
          rw [hdec] at hrest
          cases opn with
          | some o =>
              simp only [Option.isSome_some]
              have hgo : occsGo p t (some o) (e :: rest)
                  = (o.1, t, o.2) :: occsGo p (t + e.duration) none rest := by
                conv_lhs => unfold occsGo
                conv_lhs => rw [hst]
              have hoff : stepMsgs p t true e = [(t, PMsg.off)] := by
                unfold stepMsgs
                rw [hst]
              rw [hgo]
              show (o.1, PMsg.on o.2) :: (t, PMsg.off)
                  :: occMsgs (occsGo p (t + e.duration) none rest) = _
              rw [ih (t + e.duration) none hrest]
              simp [stepMsgsList_cons, finalB_cons, hdec, hoff, Nat.add_assoc]
          | none =>
              simp only [Option.isSome_none]
              have hgo : occsGo p t none (e :: rest)
                  = occsGo p (t + e.duration) none rest := by
                conv_lhs => unfold occsGo
                conv_lhs => rw [hst]
              have hnil : stepMsgs p t false e = [] := by
                unfold stepMsgs
                rw [hst]
              rw [hgo, ih (t + e.duration) none hrest]
              simp [stepMsgsList_cons, finalB_cons, hdec, hnil, Nat.add_assoc]

/-- C2: during export of a well-formed track a tie-from-previous Note never
produces a note-on, and every sustained pitch (onset plus tie
continuations across events and measure boundaries) produces exactly one
note-on at its onset tick and exactly one note-off at its termination
tick, with no intermediate off/on pair: for every pitch, the exported
note messages at their absolute ticks are exactly the on/off pairs of the
pitch's occurrence intervals.  (Shared helper; claim C2 restates it.) -/
theorem export_track_occ (idx tpb : Nat) (t : Track) (hwf : trackWF t tpb) :
    ∃ msgs, export_track idx tpb t = Except.ok msgs ∧
      ∀ p, pitchMsgs p (absMsgs 0 msgs) = occMsgs (occurrences p t) := by
  obtain ⟨hch, hms, hfill, hwfe, _hdur, hties⟩ := hwf
  have hnotgt : ¬ 15 < t.channel := by omega
  obtain ⟨cf, pf, hfold, g1, g2, g3, g4, g5, g6⟩ :=
    export_measures_run idx tpb t.channel t.measures
      ⟨[Msg.program_change t.channel t.program 0], 0, 0, []⟩ none
      hms hfill hwfe List.sorted_nil (Nat.le_refl 0) rfl
  have hnd : cf.sounding.Nodup := sorted_lt_nodup _ g4
  obtain ⟨res, hres, _hr1, _hr2, _hr3, hrp⟩ :=
    turn_off_notes_spec t.channel cf.tick cf.prev_tick cf.sounding [] cf.msgs
      g2 g3 hnd
  have hdef : export_track idx tpb t
      = (if 15 < t.channel then pure [] else
          (t.measures.foldlM (export_measure idx tpb t.channel)
            (⟨[Msg.program_change t.channel t.program 0], 0, 0, []⟩, none)) >>=
            (fun r => pure (r.1.msgs
              ++ (turn_off_notes t.channel r.1.tick r.1.prev_tick r.1.sounding []).1
              ++ [Msg.end_of_track]))) := rfl
  refine ⟨cf.msgs ++ res.1 ++ [Msg.end_of_track], ?_, ?_⟩
  · rw [hdef, if_neg hnotgt, hfold, except_ok_bind]
    show Except.ok (cf.msgs
        ++ (turn_off_notes t.channel cf.tick cf.prev_tick cf.sounding []).1
        ++ [Msg.end_of_track])
      = Except.ok (cf.msgs ++ res.1 ++ [Msg.end_of_track])
    rw [hres]
  · intro p
    have hpm : pitchMsgs p (absMsgs 0 (cf.msgs ++ res.1 ++ [Msg.end_of_track]))
        = pitchMsgs p (absMsgs 0 (cf.msgs ++ res.1)) := by
      rw [absMsgs_append, pitchMsgs_append]
      have : pitchMsgs p
          (absMsgs (0 + deltaSum (cf.msgs ++ res.1)) [Msg.end_of_track]) = [] := by
        show pitchMsgs p
          [(0 + deltaSum (cf.msgs ++ res.1) + 0, Msg.end_of_track)] = []
        rfl
      rw [this, List.append_nil]
    have hfin : finalB p false (trackEvents t) = decide (p ∈ cf.sounding) :=
      (g5 p).symm
    have htick : cf.tick = ((trackEvents t).map Event.duration).sum := by
      rw [g1]
      show 0 + ((trackEvents t).map Event.duration).sum = _
      omega
    have hbr2 : occMsgs (occsGo p 0 none (trackEvents t))
        = stepMsgsList p 0 false (trackEvents t)
          ++ (if finalB p false (trackEvents t) = true
              then [(((trackEvents t).map Event.duration).sum, PMsg.off)]
              else []) := by
      rw [occMsgs_bridge p (trackEvents t) 0 none
        (tiesOK_pTiesOK p (trackEvents t) [] false hties (by simp))]
      show ([] : List (Nat × PMsg)) ++ stepMsgsList p 0 false (trackEvents t)
          ++ (if finalB p false (trackEvents t) = true
              then [(0 + ((trackEvents t).map Event.duration).sum, PMsg.off)]
              else []) = _
      rw [List.nil_append, Nat.zero_add]
    rw [hpm, hrp p, g6 p]
    show (([] : List (Nat × PMsg))
        ++ stepMsgsList p 0 false (t.measures.flatMap fun m => m.events))
        ++ (if p ∈ cf.sounding ∧ ¬ p ∈ ([] : List Nat)
            then [(cf.tick, PMsg.off)] else [])
      = occMsgs (occurrences p t)
    rw [List.nil_append,
      show (t.measures.flatMap fun m => m.events) = trackEvents t from rfl,
      show occurrences p t = occsGo p 0 none (trackEvents t) from rfl,
      hbr2]
    by_cases hp : p ∈ cf.sounding
    · rw [if_pos ⟨hp, by simp⟩,
        if_pos (by rw [hfin]; exact decide_eq_true hp), htick]
    · rw [if_neg (fun hc => hp hc.1),
        if_neg (by rw [hfin]; simpa using hp)]

/-- C2: during export of a well-formed track a tie-from-previous Note never
produces a note-on, and every sustained pitch (onset plus tie
continuations across events and measure boundaries) produces exactly one
note-on at its onset tick and exactly one note-off at its termination
tick, with no intermediate off/on pair: for every pitch, the exported
note messages at their absolute ticks are exactly the on/off pairs of the
pitch's occurrence intervals. -/
theorem c2_theorem (idx tpb : Nat) (t : Track) (hwf : trackWF t tpb) :
    ∃ msgs, export_track idx tpb t = Except.ok msgs ∧
      ∀ p, pitchMsgs p (absMsgs 0 msgs) = occMsgs (occurrences p t) :=
  export_track_occ idx tpb t hwf

/-- Witness for c2_theorem: a one-measure 4/4 track at 480 ticks per beat
whose two half-measure events hold an onset of pitch 64 and its tie
continuation; the hypotheses evaluate by decision. -/
theorem c2_theorem_witness :
    ∃ msgs, export_track 0 480
        ⟨"w", 0, 0, TrackType.MELODY,
          [⟨0, ⟨4, 4⟩, [⟨960, [⟨64, 100, false⟩]⟩, ⟨960, [⟨64, -1, true⟩]⟩]⟩]⟩
      = Except.ok msgs ∧
      ∀ p, pitchMsgs p (absMsgs 0 msgs)
        = occMsgs (occurrences p
            ⟨"w", 0, 0, TrackType.MELODY,
              [⟨0, ⟨4, 4⟩,
                [⟨960, [⟨64, 100, false⟩]⟩, ⟨960, [⟨64, -1, true⟩]⟩]⟩]⟩) :=
  c2_theorem 0 480
    ⟨"w", 0, 0, TrackType.MELODY,
      [⟨0, ⟨4, 4⟩, [⟨960, [⟨64, 100, false⟩]⟩, ⟨960, [⟨64, -1, true⟩]⟩]⟩]⟩
    (by decide)

/-! ### Occurrence-scan split lemmas (claim C1). -/

theorem occsClosed_cons (p t : Nat) (opn : Option (Nat × Int)) (e : Event)
    (rest : List Event) :
    occsClosed p t opn (e :: rest)
      = occStepC p t opn e
        ++ occsClosed p (t + e.duration) (occStepO p t opn e) rest := by
  cases hst : pstatus e p <;> cases opn <;>
    simp [occsClosed, occStepC, occStepO, hst]

theorem occsOpen_cons (p t : Nat) (opn : Option (Nat × Int)) (e : Event)
    (rest : List Event) :
    occsOpen p t opn (e :: rest)
      = occsOpen p (t + e.duration) (occStepO p t opn e) rest := by
  cases hst : pstatus e p <;> cases opn <;>
    simp [occsOpen, occStepO, hst]

theorem occsGo_cons (p t : Nat) (opn : Option (Nat × Int)) (e : Event)
    (rest : List Event) :
    occsGo p t opn (e :: rest)
      = occStepC p t opn e
        ++ occsGo p (t + e.duration) (occStepO p t opn e) rest := by
  cases hst : pstatus e p <;> cases opn <;>
    simp [occsGo, occStepC, occStepO, hst]

/-- occsGo is its closed occurrences plus the closure of the still-open
one at the total duration. -/
theorem occsGo_eq_closed_open (p : Nat) :
    ∀ (evs : List Event) (t : Nat) (opn : Option (Nat × Int)),
      occsGo p t opn evs
        = occsClosed p t opn evs
          ++ (match occsOpen p t opn evs with
              | some o => [(o.1, t + (evs.map Event.duration).sum, o.2)]
              | none => []) := by
  intro evs
  induction evs with
  | nil =>
      intro t opn
      cases opn <;> simp [occsGo, occsClosed, occsOpen]
  | cons e rest ih =>
      intro t opn
      rw [occsGo_cons, occsClosed_cons, occsOpen_cons, ih]
      simp [Nat.add_assoc]

theorem occsClosed_append (p : Nat) :
    ∀ (xs ys : List Event) (t : Nat) (opn : Option (Nat × Int)),
      occsClosed p t opn (xs ++ ys)
        = occsClosed p t opn xs
          ++ occsClosed p (t + (xs.map Event.duration).sum)
              (occsOpen p t opn xs) ys := by
  intro xs
  induction xs with
  | nil => intro ys t opn; simp [occsClosed, occsOpen]
  | cons e rest ih =>
      intro ys t opn
      simp only [List.cons_append, occsClosed_cons, occsOpen_cons]
      rw [ih]
      simp [Nat.add_assoc]

theorem occsOpen_append (p : Nat) :
    ∀ (xs ys : List Event) (t : Nat) (opn : Option (Nat × Int)),
      occsOpen p t opn (xs ++ ys)
        = occsOpen p (t + (xs.map Event.duration).sum)
            (occsOpen p t opn xs) ys := by
  intro xs
  induction xs with
  | nil => intro ys t opn; simp [occsOpen]
  | cons e rest ih =>
      intro ys t opn
      simp only [List.cons_append, occsOpen_cons]
      rw [ih]
      simp [Nat.add_assoc]

theorem occChain_mono (l : List (Nat × Nat × Int)) :
    ∀ (a b : Nat), a ≤ b → occChain b l → occChain a l := by
  cases l with
  | nil => intro a b _ _; trivial
  | cons o rest =>
      intro a b hab h
      obtain ⟨h1, h2, h3⟩ := h
      exact ⟨by omega, h2, h3⟩

/-- The occurrences of a track with strictly positive event durations are
chained: onset before termination, termination at or before the next
onset. -/
theorem occsGo_chain (p : Nat) :
    ∀ (evs : List Event) (t : Nat) (opn : Option (Nat × Int)),
      (∀ e ∈ evs, 1 ≤ e.duration) →
      (∀ o, opn = some o → o.1 < t) →
      occChain (match opn with | some o => o.1 | none => t)
        (occsGo p t opn evs) := by
  intro evs
  induction evs with
  | nil =>
      intro t opn _ ho
      cases opn with
      | none => trivial
      | some o =>
          show occChain o.1 [(o.1, t, o.2)]
          exact ⟨Nat.le_refl _, ho o rfl, trivial⟩
  | cons e rest ih =>
      intro t opn hdur ho
      have hd : 1 ≤ e.duration := hdur e (List.mem_cons_self e rest)
      have hdr : ∀ x ∈ rest, 1 ≤ x.duration :=
        fun x hx => hdur x (List.mem_cons_of_mem e hx)
      rw [occsGo_cons]
      cases hst : pstatus e p with
      | onset v =>
          have hso : occStepO p t opn e = some (t, v) := by
            cases opn <;> simp [occStepO, hst]
          have hih := ih (t + e.duration) (some (t, v)) hdr
            (fun o2 h2 => by
              cases h2
              show t < t + e.duration
              omega)
          cases opn with
          | some o =>
              have hsc : occStepC p t (some o) e = [(o.1, t, o.2)] := by
                simp [occStepC, hst]
              rw [hsc, hso]
              exact ⟨Nat.le_refl _, ho o rfl, hih⟩
          | none =>
              have hsc : occStepC p t none e = [] := by
                simp [occStepC, hst]
              rw [hsc, hso]
              show occChain t (occsGo p (t + e.duration) (some (t, v)) rest)
              exact hih
      | tie =>
          have hso : occStepO p t opn e = opn := by
            cases opn <;> simp [occStepO, hst]
          have hsc : occStepC p t opn e = [] := by
            cases opn <;> simp [occStepC, hst]
          rw [hsc, hso]
          cases opn with
          | some o =>
              exact ih (t + e.duration) (some o) hdr
                (fun o2 h2 => by
                  cases h2
                  have := ho o rfl
                  omega)
          | none =>
              show occChain t (occsGo p (t + e.duration) none rest)
              exact occChain_mono _ t (t + e.duration) (by omega)
                (ih (t + e.duration) none hdr (fun o2 h2 => by cases h2))
      | silent =>
          have hso : occStepO p t opn e = none := by
            cases opn <;> simp [occStepO, hst]
          have hih := occChain_mono _ t (t + e.duration) (by omega)
            (ih (t + e.duration) none hdr (fun o2 h2 => by cases h2))
          cases opn with
          | some o =>
              have hsc : occStepC p t (some o) e = [(o.1, t, o.2)] := by
                simp [occStepC, hst]
              rw [hsc, hso]
              exact ⟨Nat.le_refl _, ho o rfl, hih⟩
          | none =>
              have hsc : occStepC p t none e = [] := by
                simp [occStepC, hst]
              rw [hsc, hso]
              show occChain t (occsGo p (t + e.duration) none rest)
              exact hih

/-! ### Pending-list and dictionary utilities (claim C1). -/

theorem dictGetD_cons {α : Type} (k : Nat) (b : α) (rest : List (Nat × α))
    (q : Nat) (dflt : α) :
    dictGetD ((k, b) :: rest) q dflt
      = if k = q then b else dictGetD rest q dflt := by
  unfold dictGetD
  rw [List.find?_cons]
  by_cases hk : k = q
  · simp [hk]
  · simp [hk, Ne.symm hk]

theorem dictGetD_not_mem {α : Type} (d : List (Nat × α)) (q : Nat) (dflt : α)
    (h : ¬ q ∈ d.map Prod.fst) :
    dictGetD d q dflt = dflt := by
  induction d with
  | nil => rfl
  | cons kv rest ih =>
      have hk : kv.1 ≠ q := by
        intro he
        exact h (List.mem_map.mpr ⟨kv, List.mem_cons_self _ _, he⟩)
      rw [show dictGetD (kv :: rest) q dflt
          = if kv.1 = q then kv.2 else dictGetD rest q dflt
          from dictGetD_cons kv.1 kv.2 rest q dflt]
      rw [if_neg hk]
      exact ih (fun hm => h (by rw [List.map_cons]; exact List.mem_cons_of_mem _ hm))

/-- The tie-snapshot list holds exactly one tie per sounding pitch. -/
theorem snapshot_filter (d : List (Nat × Bool)) (q : Nat)
    (hnd : (d.map Prod.fst).Nodup) :
    ((d.filter (fun kv => kv.2 = true)).map
        (fun kv => Note.init kv.1 (-1) true)).filter
      (fun n => decide (n.midi_pitch = q))
      = if dictGetD d q false = true then [Note.init q (-1) true] else [] := by
  induction d with
  | nil => simp [dictGetD]
  | cons kv rest ih =>
      rw [List.map_cons, List.nodup_cons] at hnd
      have hres := ih hnd.2
      have hgd : dictGetD (kv :: rest) q false
          = if kv.1 = q then kv.2 else dictGetD rest q false :=
        dictGetD_cons kv.1 kv.2 rest q false
      rw [List.filter_cons, hgd]
      by_cases hb : kv.2 = true
      · rw [if_pos (by simp [hb])]
        rw [List.map_cons, List.filter_cons]
        by_cases hq : kv.1 = q
        · have hrest0 : dictGetD rest q false = false :=
            dictGetD_not_mem rest q false (hq ▸ hnd.1)
          rw [hrest0] at hres
          rw [if_neg (by simp)] at hres
          rw [hres]
          have : (Note.init kv.1 (-1) true).midi_pitch = q := hq
          rw [if_pos (by simp [this]), if_pos hq, hb, if_pos rfl, hq]
        · have : ¬ (Note.init kv.1 (-1) true).midi_pitch = q := hq
          rw [if_neg (by simp [this]), hres, if_neg hq]
      · rw [if_neg (by simp [hb])]
        by_cases hq : kv.1 = q
        · have hrest0 : dictGetD rest q false = false :=
            dictGetD_not_mem rest q false (hq ▸ hnd.1)
          rw [hrest0] at hres
          rw [if_neg (by simp)] at hres
          rw [hres, if_pos hq]
          have : kv.2 = false := by
            cases hkv2 : kv.2
            · rfl
            · exact absurd hkv2 hb
          rw [this, if_neg (by simp)]
        · rw [hres, if_neg hq]

theorem filter_removeFirstPitch_ne (l : List Note) (p q : Nat) (hq : q ≠ p) :
    (removeFirstPitch l p).filter (fun n => decide (n.midi_pitch = q))
      = l.filter (fun n => decide (n.midi_pitch = q)) := by
  induction l with
  | nil => rfl
  | cons n rest ih =>
      unfold removeFirstPitch
      by_cases hp : n.midi_pitch = p
      · rw [if_pos hp, List.filter_cons]
        have hne : ¬ n.midi_pitch = q := by
          rw [hp]
          exact fun h => hq h.symm
        rw [decide_eq_false hne]
        simp
      · rw [if_neg hp, List.filter_cons, List.filter_cons, ih]

theorem filter_removeFirstPitch_self (l : List Note) (p : Nat) :
    (removeFirstPitch l p).filter (fun n => decide (n.midi_pitch = p))
      = (l.filter (fun n => decide (n.midi_pitch = p))).tail := by
  induction l with
  | nil => rfl
  | cons n rest ih =>
      unfold removeFirstPitch
      by_cases hp : n.midi_pitch = p
      · rw [if_pos hp, List.filter_cons, decide_eq_true hp]
        simp
      · rw [if_neg hp, List.filter_cons, List.filter_cons,
          decide_eq_false hp]
        simp [ih]

theorem filter_removeLastPitch_ne (l : List Note) (p q : Nat) (hq : q ≠ p) :
    (removeLastPitch l p).filter (fun n => decide (n.midi_pitch = q))
      = l.filter (fun n => decide (n.midi_pitch = q)) := by
  unfold removeLastPitch
  rw [List.filter_reverse, filter_removeFirstPitch_ne _ _ _ hq,
    List.filter_reverse, List.reverse_reverse]

theorem filter_removeLastPitch_self (l : List Note) (p : Nat) :
    (removeLastPitch l p).filter (fun n => decide (n.midi_pitch = p))
      = (l.filter (fun n => decide (n.midi_pitch = p))).dropLast := by
  unfold removeLastPitch
  rw [List.filter_reverse, filter_removeFirstPitch_self,
    List.filter_reverse, List.tail_reverse_eq_reverse_dropLast,
    List.reverse_reverse]

theorem find_eq_head_filter (l : List Note) (q : Nat) :
    l.find? (fun n => n.midi_pitch = q)
      = (l.filter (fun n => decide (n.midi_pitch = q))).head? := by
  induction l with
  | nil => rfl
  | cons n rest ih =>
      rw [List.find?_cons, List.filter_cons]
      by_cases hq : n.midi_pitch = q
      · rw [decide_eq_true hq]
        rfl
      · rw [decide_eq_false hq]
        exact ih

theorem trackEvents_new_measure (tr : Track) (tpb : Nat) (ts : TimeSignature) :
    trackEvents (tr.new_measure tpb ts) = trackEvents tr := by
  unfold trackEvents Track.new_measure
  simp

theorem trackEvents_commit (tr : Track) (m : Measure) (d : Nat)
    (pend : List Note) (snd : List (Nat × Bool))
    (hlast : tr.measures.getLast? = some m) :
    trackEvents { tr with measures := tr.measures.dropLast
        ++ [write_event d m pend snd] }
      = trackEvents tr ++ [⟨d, write_event_notes pend snd⟩] := by
  obtain ⟨l2, hl⟩ := List.getLast?_eq_some_iff.mp hlast
  unfold trackEvents write_event
  rw [show ({ tr with measures := tr.measures.dropLast
      ++ [{ m with events := m.events
        ++ [⟨d, write_event_notes pend snd⟩] }] } : Track).measures
    = tr.measures.dropLast ++ [{ m with events := m.events
        ++ [⟨d, write_event_notes pend snd⟩] }] from rfl]
  rw [hl, List.dropLast_concat]
  simp

/-- The tie-adding fold of _write_event, projected to one pitch. -/
theorem wen_fold_filter (q : Nat) :
    ∀ (snd : List (Nat × Bool)) (acc1 : List Note) (acc2 : List (Nat × Bool)),
      (snd.map Prod.fst).Nodup →
      (dictGetD acc2 q false = true
        ↔ acc1.filter (fun n => decide (n.midi_pitch = q)) ≠ []) →
      ((snd.foldl (fun (acc : List Note × List (Nat × Bool)) kv =>
          if kv.2 = true then
            if dictGetD acc.2 kv.1 false = false then
              (acc.1 ++ [Note.init kv.1 (-1) true], dictSet acc.2 kv.1 true)
            else acc
          else acc) (acc1, acc2)).1).filter (fun n => decide (n.midi_pitch = q))
        = acc1.filter (fun n => decide (n.midi_pitch = q))
          ++ (if dictGetD snd q false = true
                ∧ acc1.filter (fun n => decide (n.midi_pitch = q)) = []
              then [Note.init q (-1) true] else []) := by
  intro snd
  induction snd with
  | nil =>
      intro acc1 acc2 _ _
      rw [List.foldl_nil]
      rw [show dictGetD ([] : List (Nat × Bool)) q false = false from rfl]
      rw [if_neg (by simp)]
      simp
  | cons kv rest ih =>
      intro acc1 acc2 hnd hcpl
      rw [List.map_cons, List.nodup_cons] at hnd
      rw [List.foldl_cons]
      have hgd : dictGetD (kv :: rest) q false
          = if kv.1 = q then kv.2 else dictGetD rest q false :=
        dictGetD_cons kv.1 kv.2 rest q false
      by_cases hb : kv.2 = true
      · rw [if_pos hb]
        by_cases hq : kv.1 = q
        · subst hq
          by_cases hw : dictGetD acc2 kv.1 false = false
          · rw [if_pos hw]
            have hpend0 : acc1.filter (fun n => decide (n.midi_pitch = kv.1)) = [] := by
              by_contra hne
              rw [hcpl.mpr hne] at hw
              exact absurd hw (by simp)
            have hcpl2 : dictGetD (dictSet acc2 kv.1 true) kv.1 false = true
                ↔ (acc1 ++ [Note.init kv.1 (-1) true]).filter
                    (fun n => decide (n.midi_pitch = kv.1)) ≠ [] := by
              rw [dictGetD_dictSet, if_pos rfl, List.filter_append, hpend0]
              simp [Note.init]
            rw [ih _ _ hnd.2 hcpl2]
            have hrest0 : dictGetD rest kv.1 false = false :=
              dictGetD_not_mem rest kv.1 false hnd.1
            rw [hrest0, if_neg (by simp), List.filter_append, hpend0, hgd,
              if_pos rfl, hb, if_pos ⟨rfl, rfl⟩]
            simp [Note.init]
          · rw [if_neg hw]
            have hw2 : dictGetD acc2 kv.1 false = true := by
              cases h2 : dictGetD acc2 kv.1 false
              · exact absurd h2 hw
              · rfl
            have hne := hcpl.mp hw2
            rw [ih acc1 acc2 hnd.2 hcpl, hgd,
              if_pos rfl, hb]
            rw [dictGetD_not_mem rest kv.1 false hnd.1]
            rw [if_neg (by simp), if_neg (fun hc => hne hc.2)]
        · by_cases hw : dictGetD acc2 kv.1 false = false
          · rw [if_pos hw]
            have hfadd : (acc1 ++ [Note.init kv.1 (-1) true]).filter
                (fun n => decide (n.midi_pitch = q))
                = acc1.filter (fun n => decide (n.midi_pitch = q)) := by
              rw [List.filter_append]
              have : ¬ (Note.init kv.1 (-1) true).midi_pitch = q := hq
              simp [this]
            have hcpl2 : dictGetD (dictSet acc2 kv.1 true) q false = true
                ↔ (acc1 ++ [Note.init kv.1 (-1) true]).filter
                    (fun n => decide (n.midi_pitch = q)) ≠ [] := by
              rw [dictGetD_dictSet, if_neg (fun h => hq h.symm), hfadd]
              exact hcpl
            rw [ih _ _ hnd.2 hcpl2, hfadd, hgd, if_neg hq]
          · rw [if_neg hw]
            rw [ih acc1 acc2 hnd.2 hcpl, hgd, if_neg hq]
      · rw [if_neg hb]
        rw [ih acc1 acc2 hnd.2 hcpl, hgd]
        by_cases hq : kv.1 = q
        · rw [if_pos hq]
          have hb2 : kv.2 = false := by
            cases h2 : kv.2
            · rfl
            · exact absurd h2 hb
          rw [hb2, dictGetD_not_mem rest q false (hq ▸ hnd.1)]
        · rw [if_neg hq]

/-- The note list _write_event builds, projected to one pitch: the pending
notes of the pitch, plus one tie when the pitch is sounding and not
pending. -/
theorem write_event_notes_filter (q : Nat) (pend : List Note)
    (snd : List (Nat × Bool)) (hnd : (snd.map Prod.fst).Nodup) :
    (write_event_notes pend snd).filter (fun n => decide (n.midi_pitch = q))
      = pend.filter (fun n => decide (n.midi_pitch = q))
        ++ (if dictGetD snd q false = true
              ∧ pend.filter (fun n => decide (n.midi_pitch = q)) = []
            then [Note.init q (-1) true] else []) := by
  show ((snd.foldl (fun (acc : List Note × List (Nat × Bool)) kv =>
      if kv.2 = true then
        if dictGetD acc.2 kv.1 false = false then
          (acc.1 ++ [Note.init kv.1 (-1) true], dictSet acc.2 kv.1 true)
        else acc
      else acc)
      (pend, pend.foldl (fun d n => dictSet d n.midi_pitch true)
        ([] : List (Nat × Bool)))).1).filter
      (fun n => decide (n.midi_pitch = q)) = _
  refine wen_fold_filter q snd pend _ hnd ?_
  rw [dictGetD_fold_pitches]
  constructor
  · rintro (hm | habs)
    · intro hfil
      rw [List.filter_eq_nil_iff] at hfil
      obtain ⟨n, hn, hp⟩ := List.mem_map.mp hm
      exact hfil n hn (by simp [hp])
    · exact absurd habs (by simp [dictGetD])
  · intro hne
    left
    by_contra hnm
    apply hne
    rw [List.filter_eq_nil_iff]
    intro n hn
    simp only [decide_eq_true_eq]
    intro hp
    exact hnm (List.mem_map.mpr ⟨n, hn, hp⟩)

/-! ### The per-pitch view of the sorted importer event list (claim C1). -/

theorem pitchChain_mem (l : List PMNote) (hc : pitchChain l) :
    ∀ iv ∈ l, iv.start < iv.stop := by
  induction l with
  | nil => intro iv h; cases h
  | cons n rest ih =>
      intro iv hiv
      cases rest with
      | nil =>
          cases hiv with
          | head => exact hc
          | tail _ h => cases h
      | cons m rest2 =>
          obtain ⟨h1, _, h3⟩ := hc
          cases hiv with
          | head => exact h1
          | tail _ h => exact ih h3 iv h

theorem pitchChain_head_lb :
    ∀ (rest : List PMNote) (n : PMNote), pitchChain (n :: rest) →
      ∀ iv ∈ n :: rest, n.start ≤ iv.start := by
  intro rest
  induction rest with
  | nil =>
      intro n _ iv hiv
      cases hiv with
      | head => exact Nat.le_refl _
      | tail _ h => cases h
  | cons m rest2 ih =>
      intro n hc iv hiv
      obtain ⟨h1, h2, h3⟩ := hc
      cases hiv with
      | head => exact Nat.le_refl _
      | tail _ h =>
          have := ih m h3 iv h
          omega

theorem pitchChain_tail (l : List PMNote) (hc : pitchChain l) :
    pitchChain l.tail := by
  cases l with
  | nil => trivial
  | cons n rest =>
      cases rest with
      | nil => trivial
      | cons m rest2 => exact hc.2.2

/-- Members of ivEvents are the ons and offs of the intervals. -/
theorem mem_ivEvents {l : List PMNote} {e : TEv} (he : e ∈ ivEvents l) :
    ∃ iv ∈ l, e = ⟨iv.start, .NOTE_ON, some iv⟩ ∨ e = ⟨iv.stop, .NOTE_OFF, some iv⟩ := by
  induction l with
  | nil => cases he
  | cons n rest ih =>
      cases he with
      | head => exact ⟨n, List.mem_cons_self _ _, Or.inl rfl⟩
      | tail _ h2 =>
          cases h2 with
          | head => exact ⟨n, List.mem_cons_self _ _, Or.inr rfl⟩
          | tail _ h3 =>
              obtain ⟨iv, hiv, hor⟩ := ih h3
              exact ⟨iv, List.mem_cons_of_mem _ hiv, hor⟩

theorem keyLt_of_fst (k1 k2 : Nat × Nat × Nat) (h : k1.1 < k2.1) :
    keyLt k1 k2 := Or.inl h

theorem keyLt_of_snd (k1 k2 : Nat × Nat × Nat) (h1 : k1.1 = k2.1)
    (h2 : k1.2.1 < k2.2.1) : keyLt k1 k2 := Or.inr ⟨h1, Or.inl h2⟩

theorem keyLe_ne_lt (k1 k2 : Nat × Nat × Nat) (hle : keyLe k1 k2)
    (hne : k1 ≠ k2) : keyLt k1 k2 := by
  obtain ⟨a1, b1, c1⟩ := k1
  obtain ⟨a2, b2, c2⟩ := k2
  have hle2 : a1 < a2 ∨ (a1 = a2 ∧ (b1 < b2 ∨ (b1 = b2 ∧ c1 ≤ c2))) := hle
  have hne2 : ¬ (a1 = a2 ∧ b1 = b2 ∧ c1 = c2) := by
    intro h
    exact hne (by rw [h.1, h.2.1, h.2.2])
  show a1 < a2 ∨ (a1 = a2 ∧ (b1 < b2 ∨ (b1 = b2 ∧ c1 < c2)))
  omega

/-- The event list of a chained interval list is strictly sorted. -/
theorem ivEvents_pairwise (l : List PMNote) (hc : pitchChain l) :
    (ivEvents l).Pairwise (fun a b => keyLt (evKey a) (evKey b)) := by
  induction l with
  | nil => exact List.Pairwise.nil
  | cons n rest ih =>
      have h1 : n.start < n.stop := pitchChain_mem _ hc n (List.mem_cons_self _ _)
      have hlb : ∀ iv ∈ rest, n.stop ≤ iv.start := by
        intro iv hiv
        cases rest with
        | nil => cases hiv
        | cons m rest2 =>
            obtain ⟨_, h2, h3⟩ := hc
            have := pitchChain_head_lb rest2 m h3 iv hiv
            omega
      have hrest : pitchChain rest := pitchChain_tail _ hc
      have htail := ih hrest
      have htickb : ∀ e ∈ ivEvents rest, n.stop ≤ e.tick := by
        intro e he
        obtain ⟨iv, hiv, hor⟩ := mem_ivEvents he
        have hs := hlb iv hiv
        have hss := pitchChain_mem _ hrest iv hiv
        cases hor with
        | inl h => rw [h]; show n.stop ≤ iv.start; omega
        | inr h => rw [h]; show n.stop ≤ iv.stop; omega
      show List.Pairwise _ (⟨n.start, .NOTE_ON, some n⟩
        :: ⟨n.stop, .NOTE_OFF, some n⟩ :: ivEvents rest)
      refine List.Pairwise.cons ?_ (List.Pairwise.cons ?_ htail)
      · intro e he
        cases he with
        | head => exact keyLt_of_fst _ _ h1
        | tail _ h2 =>
            obtain ⟨iv, hiv, hor⟩ := mem_ivEvents h2
            have hss := pitchChain_mem _ hrest iv hiv
            have hs := hlb iv hiv
            cases hor with
            | inl h =>
                subst h
                exact keyLt_of_fst _ _ (by show n.start < iv.start; omega)
            | inr h =>
                subst h
                exact keyLt_of_fst _ _ (by show n.start < iv.stop; omega)
      · intro e he
        obtain ⟨iv, hiv, hor⟩ := mem_ivEvents he
        have hs := hlb iv hiv
        have hss := pitchChain_mem _ hrest iv hiv
        cases hor with
        | inl h =>
            subst h
            rcases Nat.lt_or_ge n.stop iv.start with hlt | hge
            · exact keyLt_of_fst _ _ hlt
            · have heq : n.stop = iv.start := by omega
              exact keyLt_of_snd _ _ (by show n.stop = iv.start; omega)
                (by show 1 < 3; omega)
        | inr h =>
            subst h
            exact keyLt_of_fst _ _ (by show n.stop < iv.stop; omega)

/-- The per-pitch projection of the unsorted merge list. -/
theorem pEvts_raw (p : Nat) (notes : List PMNote) (downbeats : List Nat) :
    pEvts p (raw_events notes downbeats) = ivEvents (pitchIvs p notes) := by
  unfold pEvts raw_events pitchIvs
  rw [List.filter_append]
  have hms : (downbeats.map (fun d => (⟨d, .MEASURE_START, none⟩ : TEv))).filter
      (fun e => match e.note with
        | some n => decide (n.pitch = p)
        | none => false) = [] := by
    rw [List.filter_eq_nil_iff]
    intro a ha
    obtain ⟨d, _, hda⟩ := List.mem_map.mp ha
    rw [← hda]
    simp
  rw [hms, List.append_nil]
  induction notes with
  | nil => rfl
  | cons n rest ih =>
      rw [List.flatMap_cons, List.filter_append, ih, List.filter_cons,
        List.filter_cons, List.filter_cons]
      by_cases hp : n.pitch = p
      · simp only [decide_eq_true hp]
        show (⟨n.start, .NOTE_ON, some n⟩ : TEv) :: (⟨n.stop, .NOTE_OFF, some n⟩ : TEv)
            :: ivEvents (rest.filter (fun n2 => decide (n2.pitch = p)))
          = ivEvents (n :: rest.filter (fun n2 => decide (n2.pitch = p)))
        rfl
      · simp only [decide_eq_false hp]
        rfl

/-- The per-pitch projection of the sorted event list is exactly the
pitch's chained interval events, in order. -/
theorem pEvts_get_events (p : Nat) (notes : List PMNote) (downbeats : List Nat)
    (hc : pitchChain (pitchIvs p notes)) :
    pEvts p (get_events notes downbeats) = ivEvents (pitchIvs p notes) := by
  have hperm : List.Perm (pEvts p (get_events notes downbeats))
      (ivEvents (pitchIvs p notes)) := by
    rw [← pEvts_raw p notes downbeats]
    exact (List.perm_insertionSort evLe (raw_events notes downbeats)).filter _
  have hsorted1 : (pEvts p (get_events notes downbeats)).Pairwise evLe :=
    (get_events_sorted notes downbeats).filter _
  have hsorted2 := ivEvents_pairwise (pitchIvs p notes) hc
  have hkeysnd : ((ivEvents (pitchIvs p notes)).map evKey).Nodup := by
    unfold List.Nodup
    rw [List.pairwise_map]
    refine hsorted2.imp ?_
    intro a b hlt he
    rw [he] at hlt
    unfold keyLt at hlt
    omega
  have hkeysnd1 : ((pEvts p (get_events notes downbeats)).map evKey).Nodup :=
    ((hperm.map evKey).nodup_iff).mpr hkeysnd
  have hpne : (pEvts p (get_events notes downbeats)).Pairwise
      (fun a b => evKey a ≠ evKey b) := by
    unfold List.Nodup at hkeysnd1
    rw [List.pairwise_map] at hkeysnd1
    exact hkeysnd1
  have hsorted1lt : (pEvts p (get_events notes downbeats)).Pairwise
      (fun a b => keyLt (evKey a) (evKey b)) := by
    have hand := hsorted1.and hpne
    exact hand.imp (fun hab => keyLe_ne_lt _ _ hab.1 hab.2)
  haveI : IsAntisymm TEv (fun a b => keyLt (evKey a) (evKey b)) := ⟨by
    intro a b h1 h2
    exfalso
    unfold keyLt at h1 h2
    omega⟩
  exact List.eq_of_perm_of_sorted hperm hsorted1lt hsorted2

/-! ### Small step lemmas for the sweep invariant (claim C1). -/

theorem occsOpen_singleton (p t : Nat) (opn : Option (Nat × Int)) (e : Event) :
    occsOpen p t opn [e] = occStepO p t opn e := by
  rw [occsOpen_cons]
  rfl

theorem occsClosed_singleton (p t : Nat) (opn : Option (Nat × Int)) (e : Event) :
    occsClosed p t opn [e] = occStepC p t opn e := by
  rw [occsClosed_cons]
  simp [occsClosed]

theorem evKey_fst (a : TEv) : (evKey a).1 = a.tick := by
  unfold evKey
  cases a.note <;> rfl

theorem evKey_code (a : TEv) : (evKey a).2.1 = a.etype.code := by
  unfold evKey
  cases a.note <;> rfl

theorem evLe_tick_le {a b : TEv} (h : evLe a b) : a.tick ≤ b.tick := by
  unfold evLe keyLe at h
  have h1 := evKey_fst a
  have h2 := evKey_fst b
  omega

theorem evLe_code_le {a b : TEv} (h : evLe a b) (ht : b.tick = a.tick) :
    a.etype.code ≤ b.etype.code := by
  unfold evLe keyLe at h
  have h1 := evKey_fst a
  have h2 := evKey_fst b
  have h3 := evKey_code a
  have h4 := evKey_code b
  omega

theorem code_ne_off {x : TEv} (h : 2 ≤ x.etype.code) :
    x.etype ≠ EventType.NOTE_OFF := by
  intro he
  rw [he] at h
  exact absurd h (by decide)

theorem pEvts_cons_none (p : Nat) (e : TEv) (L : List TEv)
    (h : e.note = none) : pEvts p (e :: L) = pEvts p L := by
  unfold pEvts
  rw [List.filter_cons]
  rw [show (match e.note with
    | some n => decide (n.pitch = p)
    | none => false) = false from by rw [h]]
  simp

theorem pEvts_cons_mine (p : Nat) (e : TEv) (L : List TEv) (n : PMNote)
    (h : e.note = some n) (hp : n.pitch = p) :
    pEvts p (e :: L) = e :: pEvts p L := by
  unfold pEvts
  rw [List.filter_cons]
  rw [show (match e.note with
    | some n2 => decide (n2.pitch = p)
    | none => false) = true from by rw [h]; exact decide_eq_true hp]
  simp

theorem pEvts_cons_other (p : Nat) (e : TEv) (L : List TEv) (n : PMNote)
    (h : e.note = some n) (hp : ¬ n.pitch = p) :
    pEvts p (e :: L) = pEvts p L := by
  unfold pEvts
  rw [List.filter_cons]
  rw [show (match e.note with
    | some n2 => decide (n2.pitch = p)
    | none => false) = false from by rw [h]; exact decide_eq_false hp]
  simp

theorem ivEvents_head_on {ivrem : List PMNote} {e : TEv} {L : List TEv}
    (h : e :: L = ivEvents ivrem) :
    ∃ cur ivrem2, ivrem = cur :: ivrem2
      ∧ e = ⟨cur.start, .NOTE_ON, some cur⟩
      ∧ L = ⟨cur.stop, .NOTE_OFF, some cur⟩ :: ivEvents ivrem2 := by
  cases ivrem with
  | nil => simp [ivEvents] at h
  | cons cur ivrem2 =>
      rw [show ivEvents (cur :: ivrem2)
        = ⟨cur.start, .NOTE_ON, some cur⟩
          :: ⟨cur.stop, .NOTE_OFF, some cur⟩ :: ivEvents ivrem2 from rfl] at h
      injection h with h1 h2
      exact ⟨cur, ivrem2, rfl, h1, h2⟩

theorem pinv_imp_onlyOn (p : Nat) (target : List (Nat × Nat × Int))
    (TE : List Event) (sndp : Bool) (pendp : List Note) (fno : Bool)
    (prev : Nat) (restP : List TEv) {P Q : Prop} (hPQ : P → Q)
    (h : pinv p target TE sndp pendp fno prev restP P) :
    pinv p target TE sndp pendp fno prev restP Q := by
  obtain ⟨ivrem, h1, h2, h3⟩ := h
  refine ⟨ivrem, h1, h2, ?_⟩
  rcases h3 with h | h | ⟨cur, hc1, hc2, hc3, hc4, hsub⟩
  · exact Or.inl h
  · exact Or.inr (Or.inl h)
  · refine Or.inr (Or.inr ⟨cur, hc1, hc2, hc3, hc4, ?_⟩)
    rcases hsub with ⟨a, b, c, d⟩ | h2
    · exact Or.inl ⟨a, b, hPQ c, d⟩
    · exact Or.inr h2

/-- The committed event closes or extends each pitch's configuration: after
a commit the pending list is empty, the first-note-off flag is set and the
clock advances to the commit tick. -/
theorem pinv_commit (p : Nat) (target : List (Nat × Nat × Int))
    (TE : List Event) (sndp : Bool) (pendp : List Note) (fno : Bool)
    (prev tick : Nat) (restP : List TEv) (onlyOn : Prop) (onlyOn2 : Prop)
    (E2notes : List Note)
    (hflt : E2notes.filter (fun n => decide (n.midi_pitch = p))
      = pendp ++ (if sndp = true ∧ pendp = []
          then [Note.init p (-1) true] else []))
    (hsum : (TE.map Event.duration).sum = prev)
    (hlt : prev < tick)
    (h : pinv p target TE sndp pendp fno prev restP onlyOn) :
    pinv p target (TE ++ [⟨tick - prev, E2notes⟩]) sndp [] true tick
      restP onlyOn2 := by
  obtain ⟨ivrem, hivp, hivc, hcase⟩ := h
  have hacc : (0 : Nat) + (TE.map Event.duration).sum = prev := by omega
  rcases hcase with ⟨hre, hsnd, hpend, hopen, heq⟩
    | ⟨s, v, hre, hsnd, hpend, hopen, heq⟩
    | ⟨cur, hcp, hss, hre, hsnd, hsub⟩
  · -- idle stays idle
    have hfil : E2notes.filter (fun n => decide (n.midi_pitch = p)) = [] := by
      rw [hflt, hpend, hsnd]
      simp
    have hpn : pnote ⟨tick - prev, E2notes⟩ p = none := by
      unfold pnote
      rw [show (⟨tick - prev, E2notes⟩ : Event).notes = E2notes from rfl,
        find_eq_head_filter, hfil]
      rfl
    have hps : pstatus ⟨tick - prev, E2notes⟩ p = .silent := by
      unfold pstatus
      rw [hpn]
    refine ⟨ivrem, hivp, hivc, Or.inl ⟨hre, hsnd, rfl, ?_, ?_⟩⟩
    · rw [occsOpen_append, hopen, occsOpen_singleton]
      simp [occStepO, hps]
    · rw [occsClosed_append, hopen, occsClosed_singleton]
      rw [show occStepC p (0 + (TE.map Event.duration).sum) none
          ⟨tick - prev, E2notes⟩ = [] from by simp [occStepC, hps]]
      rw [List.append_nil]
      exact heq
  · -- justEnded closes at prev and becomes idle
    have hfil : E2notes.filter (fun n => decide (n.midi_pitch = p)) = [] := by
      rw [hflt, hpend, hsnd]
      simp
    have hpn : pnote ⟨tick - prev, E2notes⟩ p = none := by
      unfold pnote
      rw [show (⟨tick - prev, E2notes⟩ : Event).notes = E2notes from rfl,
        find_eq_head_filter, hfil]
      rfl
    have hps : pstatus ⟨tick - prev, E2notes⟩ p = .silent := by
      unfold pstatus
      rw [hpn]
    refine ⟨ivrem, hivp, hivc, Or.inl ⟨hre, hsnd, rfl, ?_, ?_⟩⟩
    · rw [occsOpen_append, hopen, occsOpen_singleton]
      simp [occStepO, hps]
    · rw [occsClosed_append, hopen, occsClosed_singleton]
      rw [show occStepC p (0 + (TE.map Event.duration).sum) (some (s, v))
          ⟨tick - prev, E2notes⟩
          = [(s, 0 + (TE.map Event.duration).sum, v)] from by
        simp [occStepC, hps]]
      rw [hacc, ← heq]
      simp
  · rcases hsub with ⟨hstart, hpend, _hgON, heq⟩ | ⟨hstart, hpend, hopen, heq⟩
    · -- just started: the pending onset is committed and opens
      have hfil : E2notes.filter (fun n => decide (n.midi_pitch = p))
          = [Note.init p cur.velocity false] := by
        rw [hflt, hpend]
        rw [if_neg (by rintro ⟨_, h2⟩; cases h2)]
        simp
      have hpn : pnote ⟨tick - prev, E2notes⟩ p
          = some (Note.init p cur.velocity false) := by
        unfold pnote
        rw [show (⟨tick - prev, E2notes⟩ : Event).notes = E2notes from rfl,
          find_eq_head_filter, hfil]
        rfl
      have hps : pstatus ⟨tick - prev, E2notes⟩ p = .onset cur.velocity := by
        unfold pstatus
        rw [hpn]
        rfl
      refine ⟨ivrem, hivp, hivc, Or.inr (Or.inr ⟨cur, hcp, hss, hre, hsnd,
        Or.inr ⟨by omega, by simp, ?_, ?_⟩⟩)⟩
      · rw [occsOpen_append, occsOpen_singleton]
        rw [show occStepO p (0 + (TE.map Event.duration).sum)
            (occsOpen p 0 none TE) ⟨tick - prev, E2notes⟩
            = some (0 + (TE.map Event.duration).sum, cur.velocity) from by
          simp [occStepO, hps]]
        rw [hacc, hstart]
      · rw [occsClosed_append, occsClosed_singleton]
        cases hop : occsOpen p 0 none TE with
        | none =>
            rw [show occStepC p (0 + (TE.map Event.duration).sum) none
                ⟨tick - prev, E2notes⟩ = [] from by simp [occStepC, hps]]
            rw [hop] at heq
            simp only [List.append_nil]
            rw [← heq]
            simp
        | some o =>
            rw [show occStepC p (0 + (TE.map Event.duration).sum) (some o)
                ⟨tick - prev, E2notes⟩
                = [(o.1, 0 + (TE.map Event.duration).sum, o.2)] from by
              simp [occStepC, hps]]
            rw [hop] at heq
            rw [hacc, ← heq]
    · -- covered: the tie keeps the occurrence open
      have hfil : E2notes.filter (fun n => decide (n.midi_pitch = p))
          = [Note.init p (-1) true] := by
        rw [hflt, hpend]
        by_cases hf : fno
        · rw [if_pos hf, if_pos ⟨hsnd, rfl⟩]
          simp
        · rw [if_neg hf, if_neg (by rintro ⟨_, hx⟩; cases hx)]
          simp
      have hpn : pnote ⟨tick - prev, E2notes⟩ p
          = some (Note.init p (-1) true) := by
        unfold pnote
        rw [show (⟨tick - prev, E2notes⟩ : Event).notes = E2notes from rfl,
          find_eq_head_filter, hfil]
        rfl
      have hps : pstatus ⟨tick - prev, E2notes⟩ p = .tie := by
        unfold pstatus
        rw [hpn]
        rfl
      refine ⟨ivrem, hivp, hivc, Or.inr (Or.inr ⟨cur, hcp, hss, hre, hsnd,
        Or.inr ⟨by omega, by simp, ?_, ?_⟩⟩)⟩
      · rw [occsOpen_append, hopen, occsOpen_singleton]
        simp [occStepO, hps]
      · rw [occsClosed_append, hopen, occsClosed_singleton]
        rw [show occStepC p (0 + (TE.map Event.duration).sum)
            (some (cur.start, cur.velocity)) ⟨tick - prev, E2notes⟩
            = [] from by simp [occStepC, hps]]
        rw [List.append_nil]
        exact heq

/-- The note-off dispatch: snapshot ties on the first off of the tick,
clear the pitch's flag and drop its first pending entry. -/
theorem off_dispatch_spec (tpb : Nat) (tss : List TimeSignature)
    (st1 : SweepState) (e : TEv) (n : PMNote)
    (hety : e.etype = .NOTE_OFF) (hnote : e.note = some n)
    (hnd : (st1.sounding_notes.map Prod.fst).Nodup) :
    ∃ st2, sweep_dispatch tpb tss st1 e = .ok st2 ∧
      st2.track = st1.track ∧
      st2.prev_tick = st1.prev_tick ∧
      st2.first_note_off_at_tick = false ∧
      st2.sounding_notes = dictSet st1.sounding_notes n.pitch false ∧
      (∀ q, pendNotes q st2
        = if q = n.pitch
          then (pendNotes q st1 ++ (if st1.first_note_off_at_tick = true
              ∧ dictGetD st1.sounding_notes q false = true
            then [Note.init q (-1) true] else [])).tail
          else pendNotes q st1 ++ (if st1.first_note_off_at_tick = true
              ∧ dictGetD st1.sounding_notes q false = true
            then [Note.init q (-1) true] else [])) := by
  obtain ⟨tr1, snd1, pv1, pend1, fno1⟩ := st1
  cases fno1 with
  | true =>
      refine ⟨⟨tr1, dictSet snd1 n.pitch false, pv1,
        removeFirstPitch (pend1 ++
          (snd1.filter (fun kv => kv.2 = true)).map
            (fun kv => Note.init kv.1 (-1) true)) n.pitch,
        false⟩, ?_, rfl, rfl, rfl, rfl, ?_⟩
      · unfold sweep_dispatch
        rw [hety, hnote]
        rfl
      · intro q
        unfold pendNotes
        show (removeFirstPitch (pend1 ++
            (snd1.filter (fun kv => kv.2 = true)).map
              (fun kv => Note.init kv.1 (-1) true)) n.pitch).filter
            (fun x => decide (x.midi_pitch = q)) = _
        by_cases hq : q = n.pitch
        · subst hq
          rw [if_pos rfl, filter_removeFirstPitch_self, List.filter_append,
            snapshot_filter snd1 n.pitch hnd]
          by_cases hdq : dictGetD snd1 n.pitch false = true
          · rw [if_pos hdq, if_pos ⟨rfl, hdq⟩]
          · rw [if_neg hdq, if_neg (fun hc2 => hdq hc2.2)]
        · rw [if_neg hq, filter_removeFirstPitch_ne _ _ _ hq,
            List.filter_append, snapshot_filter snd1 q hnd]
          by_cases hdq : dictGetD snd1 q false = true
          · rw [if_pos hdq, if_pos ⟨rfl, hdq⟩]
          · rw [if_neg hdq, if_neg (fun hc2 => hdq hc2.2)]
  | false =>
      refine ⟨⟨tr1, dictSet snd1 n.pitch false, pv1,
        removeFirstPitch pend1 n.pitch, false⟩, ?_, rfl, rfl, rfl, rfl, ?_⟩
      · unfold sweep_dispatch
        rw [hety, hnote]
        rfl
      · intro q
        unfold pendNotes
        show (removeFirstPitch pend1 n.pitch).filter
            (fun x => decide (x.midi_pitch = q)) = _
        rw [show (if (false = true ∧ dictGetD snd1 q false = true)
            then [Note.init q (-1) true] else ([] : List Note))
          = [] from if_neg (by rintro ⟨h1, _⟩; cases h1)]
        rw [List.append_nil]
        by_cases hq : q = n.pitch
        · subst hq
          rw [if_pos rfl, filter_removeFirstPitch_self]
        · rw [if_neg hq, filter_removeFirstPitch_ne _ _ _ hq]

/-- The note-on dispatch: drop the pitch's last pending entry, append a
fresh onset and set the sounding flag. -/
theorem on_dispatch_spec (tpb : Nat) (tss : List TimeSignature)
    (st1 : SweepState) (e : TEv) (n : PMNote)
    (hety : e.etype = .NOTE_ON) (hnote : e.note = some n) :
    ∃ st2, sweep_dispatch tpb tss st1 e = .ok st2 ∧
      st2.track = st1.track ∧
      st2.prev_tick = st1.prev_tick ∧
      st2.first_note_off_at_tick = st1.first_note_off_at_tick ∧
      st2.sounding_notes = dictSet st1.sounding_notes n.pitch true ∧
      (∀ q, pendNotes q st2 = if q = n.pitch
          then (pendNotes q st1).dropLast ++ [Note.init n.pitch n.velocity false]
          else pendNotes q st1) := by
  refine ⟨⟨st1.track, dictSet st1.sounding_notes n.pitch true, st1.prev_tick,
    removeLastPitch st1.notes_to_add n.pitch
      ++ [Note.init n.pitch n.velocity false],
    st1.first_note_off_at_tick⟩, ?_, rfl, rfl, rfl, rfl, ?_⟩
  · unfold sweep_dispatch
    rw [hety, hnote]
  · intro q
    unfold pendNotes
    show (removeLastPitch st1.notes_to_add n.pitch
        ++ [Note.init n.pitch n.velocity false]).filter
        (fun x => decide (x.midi_pitch = q)) = _
    rw [List.filter_append]
    by_cases hq : q = n.pitch
    · subst hq
      rw [if_pos rfl, filter_removeLastPitch_self]
      rw [show ([Note.init n.pitch n.velocity false]).filter
          (fun x => decide (x.midi_pitch = n.pitch))
        = [Note.init n.pitch n.velocity false] from by simp [Note.init]]
    · rw [if_neg hq, filter_removeLastPitch_ne _ _ _ hq]
      rw [show ([Note.init n.pitch n.velocity false]).filter
          (fun x => decide (x.midi_pitch = q))
        = [] from by simp [Note.init, Ne.symm hq]]
      rw [List.append_nil]

/-- One sweep step preserves the import invariant. -/
theorem sweep_step_inv (tpb : Nat) (tss : List TimeSignature)
    (target : Nat → List (Nat × Nat × Int)) (st : SweepState) (e : TEv)
    (rest : List TEv)
    (hinv : sinv tss target st (e :: rest)) :
    ∃ st2, sweep_step tpb tss st e = .ok st2 ∧ sinv tss target st2 rest := by
  obtain ⟨hG0, hG1, hG2, hG2b, hG3, hG4, hG5, hG6, hG7⟩ := hinv
  have hpairs := List.pairwise_cons.mp hG0
  have hG0r : rest.Pairwise evLe := hpairs.2
  have hprevle : st.prev_tick ≤ e.tick := hG1 e (List.mem_cons_self e rest)
  have hrestle : ∀ x ∈ rest, e.tick ≤ x.tick :=
    fun x hx => evLe_tick_le (hpairs.1 x hx)
  have hG2r : ∀ x ∈ rest, x.etype ≠ .MEASURE_START → ∃ n, x.note = some n :=
    fun x hx => hG2 x (List.mem_cons_of_mem e hx)
  have hG2br : ∀ x ∈ rest, x.etype = .MEASURE_START → x.note = none :=
    fun x hx => hG2b x (List.mem_cons_of_mem e hx)
  obtain ⟨st1, hc1, hs1snd, hs1ms, hs1len, hs1sum, hs1pinv⟩ :
      ∃ st1, sweep_commit st e.tick = .ok st1
        ∧ st1.sounding_notes = st.sounding_notes
        ∧ st1.track.measures ≠ []
        ∧ st1.track.measures.length = st.track.measures.length
        ∧ ((trackEvents st1.track).map Event.duration).sum = e.tick
        ∧ (∀ p, pinv p (target p) (trackEvents st1.track)
            (dictGetD st.sounding_notes p false) (pendNotes p st1)
            st1.first_note_off_at_tick e.tick (pEvts p (e :: rest))
            (∀ x ∈ e :: rest, x.tick = e.tick
              → x.etype ≠ EventType.NOTE_OFF)) := by
    rcases Nat.lt_or_ge st.prev_tick e.tick with hlt | hge
    · cases hm : st.track.measures.getLast? with
      | none => exact absurd (List.getLast?_eq_none_iff.mp hm) hG3
      | some m =>
          have hc : sweep_commit st e.tick = .ok { st with
              track := { st.track with
                measures := st.track.measures.dropLast ++
                  [write_event (e.tick - st.prev_tick) m st.notes_to_add
                    st.sounding_notes] },
              notes_to_add := [],
              first_note_off_at_tick := true } := by
            unfold sweep_commit
            rw [if_pos hlt, hm]
          have hTE : trackEvents ({ st.track with
              measures := st.track.measures.dropLast ++
                [write_event (e.tick - st.prev_tick) m st.notes_to_add
                  st.sounding_notes] } : Track)
              = trackEvents st.track
                ++ [⟨e.tick - st.prev_tick,
                    write_event_notes st.notes_to_add st.sounding_notes⟩] :=
            trackEvents_commit st.track m _ _ _ hm
          refine ⟨_, hc, rfl, ?_, ?_, ?_, ?_⟩
          · show st.track.measures.dropLast ++ [write_event (e.tick - st.prev_tick)
              m st.notes_to_add st.sounding_notes] ≠ []
            simp
          · show (st.track.measures.dropLast ++ [write_event (e.tick - st.prev_tick)
              m st.notes_to_add st.sounding_notes]).length
              = st.track.measures.length
            rw [List.length_append, List.length_dropLast]
            have : 0 < st.track.measures.length := List.length_pos.mpr hG3
            simp
            omega
          · show ((trackEvents ({ st.track with
              measures := st.track.measures.dropLast ++
                [write_event (e.tick - st.prev_tick) m st.notes_to_add
                  st.sounding_notes] } : Track)).map Event.duration).sum = e.tick
            rw [hTE, List.map_append, List.sum_append, hG6]
            show st.prev_tick + (e.tick - st.prev_tick + 0) = e.tick
            omega
          · intro p
            have hbase := pinv_commit p (target p) (trackEvents st.track)
              (dictGetD st.sounding_notes p false) (pendNotes p st)
              st.first_note_off_at_tick st.prev_tick e.tick
              (pEvts p (e :: rest))
              (∀ x ∈ e :: rest, x.tick = st.prev_tick
                → x.etype ≠ EventType.NOTE_OFF)
              (∀ x ∈ e :: rest, x.tick = e.tick
                → x.etype ≠ EventType.NOTE_OFF)
              (write_event_notes st.notes_to_add st.sounding_notes)
              (write_event_notes_filter p st.notes_to_add st.sounding_notes hG5)
              hG6 hlt (hG7 p)
            show pinv p (target p) (trackEvents ({ st.track with
              measures := st.track.measures.dropLast ++
                [write_event (e.tick - st.prev_tick) m st.notes_to_add
                  st.sounding_notes] } : Track))
              (dictGetD st.sounding_notes p false) ([].filter
                (fun n => decide (n.midi_pitch = p))) true e.tick
              (pEvts p (e :: rest)) _
            rw [hTE]
            exact hbase
    · have heqt : st.prev_tick = e.tick := by omega
      have hc : sweep_commit st e.tick = .ok st := by
        unfold sweep_commit
        rw [if_neg (by omega)]
      refine ⟨st, hc, rfl, hG3, rfl, by rw [hG6]; exact heqt, ?_⟩
      intro p
      have := hG7 p
      rw [heqt] at this
      exact this
  -- the dispatch stage, by event kind
  cases hety : e.etype with
  | MEASURE_START =>
      have hnote : e.note = none := hG2b e (List.mem_cons_self e rest) hety
      have hcnt : (e :: rest).countP (fun x => decide (x.etype = .MEASURE_START))
          = 1 + rest.countP (fun x => decide (x.etype = .MEASURE_START)) := by
        rw [List.countP_cons, if_pos (by simp [hety])]
        omega
      have hlt2 : st1.track.measures.length < tss.length := by
        rw [hs1len]
        rw [hcnt] at hG4
        omega
      have hget : tss.get? st1.track.measures.length
          = some (tss.get ⟨st1.track.measures.length, hlt2⟩) :=
        List.get?_eq_get hlt2
      have hd : sweep_dispatch tpb tss st1 e = .ok { st1 with
          track := st1.track.new_measure tpb
            (tss.get ⟨st1.track.measures.length, hlt2⟩) } := by
        unfold sweep_dispatch
        rw [hety, hnote, hget]
      refine ⟨{ st1 with
          track := st1.track.new_measure tpb
            (tss.get ⟨st1.track.measures.length, hlt2⟩),
          prev_tick := e.tick }, ?_, ?_⟩
      · unfold sweep_step
        rw [hc1, except_ok_bind, hd, except_ok_bind]
        rfl
      refine ⟨hG0r, hrestle, hG2r, hG2br, ?_, ?_, ?_, ?_, ?_⟩
      · show (st1.track.new_measure tpb _).measures ≠ []
        simp [Track.new_measure]
      · show (st1.track.new_measure tpb _).measures.length + _ ≤ _
        rw [show (st1.track.new_measure tpb
            (tss.get ⟨st1.track.measures.length, hlt2⟩)).measures.length
          = st1.track.measures.length + 1 from by simp [Track.new_measure]]
        rw [hs1len]
        rw [hcnt] at hG4
        omega
      · show (st1.sounding_notes.map Prod.fst).Nodup
        rw [hs1snd]
        exact hG5
      · show ((trackEvents (st1.track.new_measure tpb _)).map Event.duration).sum
          = e.tick
        rw [trackEvents_new_measure]
        exact hs1sum
      · intro p
        have hbase := hs1pinv p
        rw [pEvts_cons_none p e rest hnote] at hbase
        show pinv p (target p) (trackEvents (st1.track.new_measure tpb _))
          (dictGetD st1.sounding_notes p false) (pendNotes p st1)
          st1.first_note_off_at_tick e.tick (pEvts p rest) _
        rw [trackEvents_new_measure, hs1snd]
        refine pinv_imp_onlyOn _ _ _ _ _ _ _ _
          (fun hP x hx ht => hP x (List.mem_cons_of_mem e hx) ht) hbase
  | NOTE_OFF =>
      obtain ⟨n, hnote⟩ := hG2 e (List.mem_cons_self e rest)
        (by rw [hety]; exact fun h => EventType.noConfusion h)
      obtain ⟨st2, hd, h2tr, h2pv, h2fno, h2snd, h2pend⟩ :=
        off_dispatch_spec tpb tss st1 e n hety hnote (by rw [hs1snd]; exact hG5)
      have hbaseP := hs1pinv n.pitch
      rw [pEvts_cons_mine n.pitch e rest n hnote rfl] at hbaseP
      obtain ⟨ivremP, hivpP, hivcP, hcaseP⟩ := hbaseP
      have hnoton : ¬ (∀ x ∈ e :: rest, x.tick = e.tick
          → x.etype ≠ EventType.NOTE_OFF) :=
        fun hP => hP e (List.mem_cons_self e rest) rfl hety
      have hC : ∃ cur : PMNote, cur.pitch = n.pitch ∧ cur.start < cur.stop ∧
          e = ⟨cur.stop, .NOTE_OFF, some cur⟩ ∧
          pEvts n.pitch rest = ivEvents ivremP ∧
          dictGetD st.sounding_notes n.pitch false = true ∧
          cur.start < e.tick ∧
          pendNotes n.pitch st1 = (if st1.first_note_off_at_tick then []
            else [Note.init n.pitch (-1) true]) ∧
          occsOpen n.pitch 0 none (trackEvents st1.track)
            = some (cur.start, cur.velocity) ∧
          occsClosed n.pitch 0 none (trackEvents st1.track)
            ++ (cur.start, cur.stop, cur.velocity) :: ivsToOccs ivremP
            = target n.pitch := by
        rcases hcaseP with ⟨hre, _, _, _, _⟩ | ⟨s9, v9, hre, _, _, _, _⟩
          | ⟨cur, hcpP, hssP, hreP, hsndP, hsubP⟩
        · obtain ⟨c2, iv2, _, heon, _⟩ := ivEvents_head_on hre
          rw [heon] at hety
          cases hety
        · obtain ⟨c2, iv2, _, heon, _⟩ := ivEvents_head_on hre
          rw [heon] at hety
          cases hety
        · have heev : e = ⟨cur.stop, .NOTE_OFF, some cur⟩ :=
            (List.cons_eq_cons.mp hreP).1
          have hrestP : pEvts n.pitch rest = ivEvents ivremP :=
            (List.cons_eq_cons.mp hreP).2
          rcases hsubP with ⟨hstart, _, hgON, _⟩ | ⟨hstart, hpend, hopen, heq⟩
          · exact absurd hgON hnoton
          · exact ⟨cur, hcpP, hssP, heev, hrestP, hsndP, hstart, hpend,
              hopen, heq⟩
      obtain ⟨cur, hcpP, hssP, heev, hrestP, hsndP, hstart, hpendP,
        hopenP, heqP⟩ := hC
      have hticke : e.tick = cur.stop := by rw [heev]
      refine ⟨{ st2 with prev_tick := e.tick }, ?_, ?_⟩
      · unfold sweep_step
        rw [hc1, except_ok_bind, hd, except_ok_bind]
        rfl
      refine ⟨hG0r, hrestle, hG2r, hG2br, ?_, ?_, ?_, ?_, ?_⟩
      · show st2.track.measures ≠ []
        rw [h2tr]
        exact hs1ms
      · show st2.track.measures.length + _ ≤ tss.length
        rw [h2tr, hs1len]
        rw [List.countP_cons, if_neg (by simp [hety])] at hG4
        omega
      · show (st2.sounding_notes.map Prod.fst).Nodup
        rw [h2snd, hs1snd]
        exact dictSet_nodup_keys _ _ _ hG5
      · show ((trackEvents st2.track).map Event.duration).sum = e.tick
        rw [h2tr]
        exact hs1sum
      · intro q
        show pinv q (target q) (trackEvents st2.track)
          (dictGetD st2.sounding_notes q false) (pendNotes q st2)
          st2.first_note_off_at_tick e.tick (pEvts q rest)
          (∀ x ∈ rest, x.tick = e.tick → x.etype ≠ EventType.NOTE_OFF)
        rw [h2tr, h2snd, hs1snd, dictGetD_dictSet, h2pend q, h2fno]
        rw [show (if st1.first_note_off_at_tick = true
              ∧ dictGetD st1.sounding_notes q false = true
            then [Note.init q (-1) true] else ([] : List Note))
          = (if st1.first_note_off_at_tick = true
              ∧ dictGetD st.sounding_notes q false = true
            then [Note.init q (-1) true] else ([] : List Note))
          from by rw [hs1snd]]
        by_cases hq : q = n.pitch
        · subst hq
          rw [if_pos rfl, if_pos rfl]
          refine ⟨ivremP, hivpP, hivcP, Or.inr (Or.inl
            ⟨cur.start, cur.velocity, hrestP, rfl, ?_, hopenP, ?_⟩)⟩
          · rw [hpendP]
            by_cases hf2 : st1.first_note_off_at_tick
            · rw [if_pos hf2, if_pos ⟨(by rw [hf2]), hsndP⟩]
              rfl
            · rw [if_neg hf2,
                if_neg (fun hc2 => hf2 hc2.1)]
              rfl
          · rw [hticke]
            exact heqP
        · rw [if_neg hq, if_neg hq]
          have hbase := hs1pinv q
          rw [pEvts_cons_other q e rest n hnote (fun h2 => hq h2.symm)] at hbase
          obtain ⟨ivq, hivq, hivcq, hcq⟩ := hbase
          rcases hcq with ⟨hre, hsnd, hpend, hopen, heq⟩
            | ⟨s9, v9, hre, hsnd, hpend, hopen, heq⟩
            | ⟨cur2, hcp2, hss2, hre2, hsnd2, hsub2⟩
          · refine ⟨ivq, hivq, hivcq, Or.inl ⟨hre, hsnd, ?_, hopen, heq⟩⟩
            rw [hpend, hsnd, if_neg (by rintro ⟨_, h2⟩; cases h2)]
            rfl
          · refine ⟨ivq, hivq, hivcq, Or.inr (Or.inl
              ⟨s9, v9, hre, hsnd, ?_, hopen, heq⟩)⟩
            rw [hpend, hsnd, if_neg (by rintro ⟨_, h2⟩; cases h2)]
            rfl
          · rcases hsub2 with ⟨_, _, hgON, _⟩ | ⟨hst2, hpend2, hopen2, heq2⟩
            · exact absurd hgON hnoton
            · refine ⟨ivq, hivq, hivcq, Or.inr (Or.inr
                ⟨cur2, hcp2, hss2, hre2, hsnd2, Or.inr
                  ⟨hst2, ?_, hopen2, heq2⟩⟩)⟩
              rw [hpend2]
              by_cases hf2 : st1.first_note_off_at_tick
              · rw [if_pos hf2, if_pos ⟨(by rw [hf2]), hsnd2⟩]
                rfl
              · rw [if_neg hf2, if_neg (fun hc2 => hf2 hc2.1)]
                rfl
  | NOTE_ON =>
      obtain ⟨n, hnote⟩ := hG2 e (List.mem_cons_self e rest)
        (by rw [hety]; exact fun h => EventType.noConfusion h)
      obtain ⟨st2, hd, h2tr, h2pv, h2fno, h2snd, h2pend⟩ :=
        on_dispatch_spec tpb tss st1 e n hety hnote
      have hnewOnly : ∀ x ∈ rest, x.tick = e.tick
          → x.etype ≠ EventType.NOTE_OFF := by
        intro x hx ht
        have hcode := evLe_code_le (hpairs.1 x hx) ht
        rw [hety] at hcode
        have h3 : EventType.code .NOTE_ON = 3 := rfl
        exact code_ne_off (by omega)
      have hbaseP := hs1pinv n.pitch
      rw [pEvts_cons_mine n.pitch e rest n hnote rfl] at hbaseP
      obtain ⟨ivremP, hivpP, hivcP, hcaseP⟩ := hbaseP
      have hAB : ∃ cur ivrem2, ivremP = cur :: ivrem2
          ∧ e = ⟨cur.start, .NOTE_ON, some cur⟩
          ∧ pEvts n.pitch rest
            = ⟨cur.stop, .NOTE_OFF, some cur⟩ :: ivEvents ivrem2
          ∧ dictGetD st.sounding_notes n.pitch false = false
          ∧ pendNotes n.pitch st1 = []
          ∧ occsClosed n.pitch 0 none (trackEvents st1.track)
              ++ (match occsOpen n.pitch 0 none (trackEvents st1.track) with
                  | some o => [(o.1, e.tick, o.2)]
                  | none => [])
              ++ ivsToOccs ivremP = target n.pitch := by
        rcases hcaseP with ⟨hre, hsnd, hpend, hopen, heq⟩
          | ⟨s9, v9, hre, hsnd, hpend, hopen, heq⟩
          | ⟨cur, _, _, hreP, _, _⟩
        · obtain ⟨cur, ivrem2, hiv, heon, hrest2⟩ := ivEvents_head_on hre
          refine ⟨cur, ivrem2, hiv, heon, hrest2, hsnd, hpend, ?_⟩
          rw [hopen]
          rw [← heq]
          simp
        · obtain ⟨cur, ivrem2, hiv, heon, hrest2⟩ := ivEvents_head_on hre
          refine ⟨cur, ivrem2, hiv, heon, hrest2, hsnd, hpend, ?_⟩
          rw [hopen]
          rw [← heq]
          simp
        · have heev : e = ⟨cur.stop, .NOTE_OFF, some cur⟩ :=
            (List.cons_eq_cons.mp hreP).1
          rw [heev] at hety
          cases hety
      obtain ⟨cur, ivrem2, hivsplit, heev, hrestP, hsndP, hpendP, heqP⟩ := hAB
      have hticke : e.tick = cur.start := by rw [heev]
      have hnc : n = cur := by
        have hn2 : e.note = some cur := by rw [heev]
        rw [hnote] at hn2
        exact Option.some_inj.mp hn2
      refine ⟨{ st2 with prev_tick := e.tick }, ?_, ?_⟩
      · unfold sweep_step
        rw [hc1, except_ok_bind, hd, except_ok_bind]
        rfl
      refine ⟨hG0r, hrestle, hG2r, hG2br, ?_, ?_, ?_, ?_, ?_⟩
      · show st2.track.measures ≠ []
        rw [h2tr]
        exact hs1ms
      · show st2.track.measures.length + _ ≤ tss.length
        rw [h2tr, hs1len]
        rw [List.countP_cons, if_neg (by simp [hety])] at hG4
        omega
      · show (st2.sounding_notes.map Prod.fst).Nodup
        rw [h2snd, hs1snd]
        exact dictSet_nodup_keys _ _ _ hG5
      · show ((trackEvents st2.track).map Event.duration).sum = e.tick
        rw [h2tr]
        exact hs1sum
      · intro q
        show pinv q (target q) (trackEvents st2.track)
          (dictGetD st2.sounding_notes q false) (pendNotes q st2)
          st2.first_note_off_at_tick e.tick (pEvts q rest)
          (∀ x ∈ rest, x.tick = e.tick → x.etype ≠ EventType.NOTE_OFF)
        rw [h2tr, h2snd, hs1snd, dictGetD_dictSet, h2pend q, h2fno]
        by_cases hq : q = n.pitch
        · subst hq
          rw [if_pos rfl, if_pos rfl]
          have hch2 : pitchChain (cur :: ivrem2) := by
            rw [← hivsplit]
            exact hivcP
          refine ⟨ivrem2, ?_, ?_, Or.inr (Or.inr
            ⟨cur, ?_, ?_, ?_, rfl, Or.inl ⟨?_, ?_, hnewOnly, ?_⟩⟩)⟩
          · intro iv hiv
            exact hivpP iv (by rw [hivsplit]; exact List.mem_cons_of_mem _ hiv)
          · exact pitchChain_tail _ hch2
          · exact hivpP cur (by rw [hivsplit]; exact List.mem_cons_self _ _)
          · exact pitchChain_mem _ hch2 cur (List.mem_cons_self _ _)
          · exact hrestP
          · omega
          · rw [hpendP]
            rw [show (([] : List Note)).dropLast = [] from rfl, List.nil_append]
            rw [hnc]
          · rw [← heqP, hivsplit]
            rw [show ivsToOccs (cur :: ivrem2)
              = (cur.start, cur.stop, cur.velocity) :: ivsToOccs ivrem2 from rfl]
        · rw [if_neg hq, if_neg hq]
          have hbase := hs1pinv q
          rw [pEvts_cons_other q e rest n hnote (fun h2 => hq h2.symm)] at hbase
          exact pinv_imp_onlyOn _ _ _ _ _ _ _ _
            (fun hP x hx ht => hP x (List.mem_cons_of_mem e hx) ht) hbase

/-- Witness for c5_theorem: one interval (0,10) of pitch 60, one downbeat
at 0, one 4/4 signature. -/
theorem c5_theorem_witness :
    (∃ stf, importSweep 480 [⟨4, 4⟩] (track0 "m" 1 2 TrackType.MELODY)
        (get_events [⟨0, 10, 60, 100⟩] [0]) = .ok stf ∧
      (∀ kv ∈ stf.sounding_notes, kv.2 = false) ∧
      importTrack 480 "m" 1 2 TrackType.MELODY [⟨0, 10, 60, 100⟩] [0] [⟨4, 4⟩]
        = .ok stf.track) ∧
    importTrack 480 "t" 0 0 TrackType.UNKNOWN [⟨5, 5, 60, 100⟩] [0] [⟨4, 4⟩]
      = .error PyError.assertionError :=
  c5_theorem 480 1 2 TrackType.MELODY "m" [⟨0, 10, 60, 100⟩] [0] [⟨4, 4⟩]
    (by decide) (by decide) (by decide)

/-- The whole sweep preserves the invariant down to the empty list. -/
theorem sweep_fold_inv (tpb : Nat) (tss : List TimeSignature)
    (target : Nat → List (Nat × Nat × Int)) :
    ∀ (evs : List TEv) (st : SweepState), sinv tss target st evs →
      ∃ stf, evs.foldlM (sweep_step tpb tss) st = .ok stf ∧
        sinv tss target stf [] := by
  intro evs
  induction evs with
  | nil => intro st h; exact ⟨st, rfl, h⟩
  | cons e rest ih =>
      intro st h
      obtain ⟨st1, hs, hinv1⟩ := sweep_step_inv tpb tss target st e rest h
      obtain ⟨stf, hf, hinvf⟩ := ih st1 hinv1
      exact ⟨stf, by rw [List.foldlM_cons, hs, except_ok_bind]; exact hf, hinvf⟩

/-- At the end of the sweep the invariant forces every sounding flag false
and makes the track's occurrences the target of every pitch. -/
theorem sinv_final_occ (tss : List TimeSignature)
    (target : Nat → List (Nat × Nat × Int)) (stf : SweepState)
    (h : sinv tss target stf []) :
    (∀ kv ∈ stf.sounding_notes, kv.2 = false) ∧
    (∀ p, occurrences p stf.track = target p) := by
  obtain ⟨h1, h2, h3, h4, h5, h6, hnd, hsum, hpinv⟩ := h
  have hkey : ∀ p, dictGetD stf.sounding_notes p false = false
      ∧ occurrences p stf.track = target p := by
    intro p
    obtain ⟨ivrem, hivp, hivc, hcfg⟩ := hpinv p
    rcases hcfg with ⟨hre, hsnd, hpend, hopen, heq⟩
      | ⟨s, v, hre, hsnd, hpend, hopen, heq⟩
      | ⟨cur, hcp, hss, hre, hsnd, hsub⟩
    · have hivnil : ivrem = [] := by
        cases ivrem with
        | nil => rfl
        | cons a t => simp [pEvts, ivEvents] at hre
      refine ⟨hsnd, ?_⟩
      unfold occurrences
      rw [occsGo_eq_closed_open, hopen]
      rw [hivnil] at heq
      rw [show (ivsToOccs [] : List (Nat × Nat × Int)) = [] from rfl] at heq
      rw [List.append_nil] at heq ⊢
      exact heq
    · have hivnil : ivrem = [] := by
        cases ivrem with
        | nil => rfl
        | cons a t => simp [pEvts, ivEvents] at hre
      refine ⟨hsnd, ?_⟩
      unfold occurrences
      rw [occsGo_eq_closed_open, hopen, Nat.zero_add, hsum]
      rw [hivnil] at heq
      exact heq
    · exfalso
      simp [pEvts] at hre
  refine ⟨?_, fun p => (hkey p).2⟩
  intro kv hkv
  have := (hkey kv.1).1
  rw [mem_dict_val stf.sounding_notes kv false hnd hkv] at this
  exact this

/-- Importing one instrument whose intervals are per-pitch chained, with a
downbeat at tick 0 and enough time signatures, succeeds and gives a track
whose per-pitch occurrences are exactly the input intervals. -/
theorem importTrack_occ (tpb : Nat) (name : String) (program channel : Nat)
    (tt : TrackType) (notes : List PMNote) (downbeats : List Nat)
    (tss : List TimeSignature)
    (h1 : ∀ iv ∈ notes, iv.start < iv.stop)
    (hchain : ∀ p, pitchChain (pitchIvs p notes))
    (h0 : 0 ∈ downbeats)
    (hlen : downbeats.length ≤ tss.length) :
    ∃ tr, importTrack tpb name program channel tt notes downbeats tss
        = .ok tr ∧
      ∀ p, occurrences p tr = ivsToOccs (pitchIvs p notes) := by
  obtain ⟨L2, hL⟩ := get_events_head notes downbeats h1 h0
  have hdbpos : 0 < downbeats.length :=
    List.length_pos.mpr (List.ne_nil_of_mem h0)
  have htsspos : 0 < tss.length := by omega
  have hget : tss.get? 0 = some (tss.get ⟨0, htsspos⟩) :=
    List.get?_eq_get htsspos
  have hsorted := get_events_sorted notes downbeats
  rw [hL] at hsorted
  have hsortedL2 : L2.Pairwise evLe := (List.sorted_cons.mp hsorted).2
  have hmemL2 : ∀ x ∈ L2, x ∈ get_events notes downbeats := by
    intro x hx
    rw [hL]
    exact List.mem_cons_of_mem _ hx
  have hcnt := countMS_get_events notes downbeats
  rw [hL, List.countP_cons, if_pos (by decide)] at hcnt
  have hstep1 : sweep_step tpb tss
      (⟨track0 name program channel tt, [], 0, [], true⟩ : SweepState)
      (⟨0, .MEASURE_START, none⟩ : TEv)
      = .ok ⟨⟨name, program, channel, tt,
          [⟨0, tss.get ⟨0, htsspos⟩, []⟩]⟩, [], 0, [], true⟩ := by
    unfold sweep_step
    rw [show sweep_commit
        (⟨track0 name program channel tt, [], 0, [], true⟩ : SweepState) 0
        = .ok (⟨track0 name program channel tt, [], 0, [], true⟩ : SweepState)
      from rfl, except_ok_bind]
    unfold sweep_dispatch
    rw [show tss.get? ((⟨track0 name program channel tt, [], 0, [], true⟩ :
        SweepState)).track.measures.length
        = some (tss.get ⟨0, htsspos⟩) from hget]
    rfl
  have hinv1 : sinv tss (fun p => ivsToOccs (pitchIvs p notes))
      (⟨⟨name, program, channel, tt,
          [⟨0, tss.get ⟨0, htsspos⟩, []⟩]⟩, [], 0, [], true⟩ : SweepState)
      L2 := by
    refine ⟨hsortedL2, fun x _ => Nat.zero_le _, ?_, ?_, ?_, ?_, ?_, rfl, ?_⟩
    · intro x hx hne
      have hns := get_events_note_shape (hmemL2 x hx) hne
      cases hn : x.note with
      | none => exact absurd hn hns
      | some n => exact ⟨n, rfl⟩
    · intro x hx hms
      rcases mem_get_events_cases (hmemL2 x hx) with ⟨iv, _, hei⟩
        | ⟨iv, _, hei⟩ | ⟨d, _, hei⟩
      · rw [hei] at hms
        exact absurd hms (by simp)
      · rw [hei] at hms
        exact absurd hms (by simp)
      · rw [hei]
    · exact List.cons_ne_nil _ _
    · show 1 + _ ≤ tss.length
      omega
    · exact List.nodup_nil
    · intro p
      refine ⟨pitchIvs p notes, ?_, hchain p,
        Or.inl ⟨?_, rfl, rfl, rfl, rfl⟩⟩
      · intro iv hiv
        exact of_decide_eq_true (List.mem_filter.mp hiv).2
      · have hpe := pEvts_get_events p notes downbeats (hchain p)
        rw [hL, pEvts_cons_none p _ L2 rfl] at hpe
        exact hpe
  obtain ⟨stf, hfold, hinvf⟩ := sweep_fold_inv tpb tss _ L2 _ hinv1
  have hfinal := sinv_final_occ tss _ stf hinvf
  have hsweep : importSweep tpb tss (track0 name program channel tt)
      (get_events notes downbeats) = .ok stf := by
    unfold importSweep
    rw [hL, List.foldlM_cons, hstep1, except_ok_bind]
    exact hfold
  refine ⟨stf.track, ?_, hfinal.2⟩
  unfold importTrack
  rw [hsweep, except_ok_bind]
  rw [if_neg (by
    rw [List.any_eq_true]
    rintro ⟨kv, hkv, hv⟩
    rw [hfinal.1 kv hkv] at hv
    cases hv)]
  rfl

/-! ### Decoding an exported track back to intervals (claim C1). -/

/-- Pairing the exact on/off trace of an occurrence list recovers the
occurrences as intervals of the pitch. -/
theorem pairIntervals_occMsgs (p : Nat) :
    ∀ l : List (Nat × Nat × Int),
      pairIntervals p (occMsgs l)
        = l.map (fun o => (⟨o.1, o.2.1, p, o.2.2⟩ : PMNote)) := by
  intro l
  induction l with
  | nil => rfl
  | cons o rest ih =>
      show pairIntervals p ((o.1, PMsg.on o.2.2) :: (o.2.1, PMsg.off)
        :: occMsgs rest) = _
      rw [show pairIntervals p ((o.1, PMsg.on o.2.2) :: (o.2.1, PMsg.off)
          :: occMsgs rest)
        = ⟨o.1, o.2.1, p, o.2.2⟩ :: pairIntervals p (occMsgs rest) from rfl,
        ih]
      rfl

/-- With every event silent for p the occurrence scan yields nothing. -/
theorem occsGo_silent (p : Nat) :
    ∀ (evs : List Event) (t : Nat),
      (∀ e ∈ evs, pstatus e p = .silent) →
      occsGo p t none evs = [] := by
  intro evs
  induction evs with
  | nil => intro t _; rfl
  | cons e rest ih =>
      intro t h
      have hs := h e (List.mem_cons_self e rest)
      rw [occsGo_cons,
        show occStepC p t none e = [] from by simp [occStepC, hs],
        show occStepO p t none e = none from by simp [occStepO, hs],
        List.nil_append]
      exact ih _ (fun x hx => h x (List.mem_cons_of_mem e hx))

/-- A pitch outside the MIDI range never occurs in a well-formed track. -/
theorem occurrences_high (p : Nat) (t : Track) (tpb : Nat)
    (hwf : trackWF t tpb) (hp : 128 ≤ p) :
    occurrences p t = [] := by
  obtain ⟨_, _, _, hwfe, _, _⟩ := hwf
  unfold occurrences
  refine occsGo_silent p (trackEvents t) 0 ?_
  intro e he
  obtain ⟨m, hm, hme⟩ := List.mem_flatMap.mp
    (show e ∈ t.measures.flatMap (fun m => m.events) from he)
  have hn := (hwfe m hm e hme).1
  unfold pstatus pnote
  rw [show e.notes.find? (fun n => decide (n.midi_pitch = p)) = none from ?_]
  · rw [List.find?_eq_none]
    intro n hn2
    have hlt := (hn n hn2).1
    simp only [decide_eq_true_eq]
    omega

/-- Filtering distributes over flatMap. -/
theorem filter_flatMap {α β : Type} (l : List α) (f : α → List β)
    (q : β → Bool) :
    (l.flatMap f).filter q = l.flatMap (fun a => (f a).filter q) := by
  induction l with
  | nil => rfl
  | cons a rest ih =>
      rw [List.flatMap_cons, List.flatMap_cons, List.filter_append, ih]

/-- A flatMap of empties is empty. -/
theorem flatMap_all_nil {α : Type} (g : Nat → List α) :
    ∀ L : List Nat, (∀ q ∈ L, g q = []) → L.flatMap g = [] := by
  intro L
  induction L with
  | nil => intro _; rfl
  | cons a rest ih =>
      intro h
      rw [List.flatMap_cons, h a (List.mem_cons_self a rest),
        List.nil_append]
      exact ih (fun q hq => h q (List.mem_cons_of_mem a hq))

/-- A flatMap supported at a single key collapses to that key's list. -/
theorem flatMap_eq_single {α : Type} (g : Nat → List α) (p : Nat) :
    ∀ L : List Nat, L.Nodup → p ∈ L → (∀ q ∈ L, q ≠ p → g q = []) →
      L.flatMap g = g p := by
  intro L
  induction L with
  | nil => intro _ h; cases h
  | cons a rest ih =>
      intro hnd hmem hz
      rw [List.flatMap_cons]
      by_cases hap : a = p
      · subst hap
        rw [flatMap_all_nil g rest (fun q hq =>
          hz q (List.mem_cons_of_mem a hq)
            (fun hqp => (List.nodup_cons.mp hnd).1 (hqp ▸ hq))),
          List.append_nil]
      · rw [hz a (List.mem_cons_self a rest) hap, List.nil_append]
        refine ih (List.nodup_cons.mp hnd).2 ?_
          (fun q hq hqp => hz q (List.mem_cons_of_mem a hq) hqp)
        cases hmem with
        | head => exact absurd rfl hap
        | tail _ h => exact h

/-- Every occurrence of a chained list ends after it starts. -/
theorem occChain_mem_lt :
    ∀ (l : List (Nat × Nat × Int)) (t0 : Nat),
      occChain t0 l → ∀ o ∈ l, o.1 < o.2.1 := by
  intro l
  induction l with
  | nil => intro t0 _ o ho; cases ho
  | cons a rest ih =>
      intro t0 h o ho
      obtain ⟨h1, h2, h3⟩ := h
      cases ho with
      | head => exact h2
      | tail _ hmem => exact ih a.2.1 h3 o hmem

/-- A chained occurrence list, read as intervals of one pitch, is a
pitch chain. -/
theorem occChain_pitchChain (p : Nat) :
    ∀ (l : List (Nat × Nat × Int)) (t0 : Nat), occChain t0 l →
      pitchChain (l.map (fun o => (⟨o.1, o.2.1, p, o.2.2⟩ : PMNote))) := by
  intro l
  induction l with
  | nil => intro t0 _; trivial
  | cons o rest ih =>
      intro t0 h
      obtain ⟨h1, h2, h3⟩ := h
      cases rest with
      | nil => exact h2
      | cons o2 rest2 => exact ⟨h2, h3.1, ih o.2.1 h3⟩

/-- Reading the decoded intervals of one pitch back as occurrence triples
is the identity. -/
theorem ivsToOccs_map (p : Nat) (l : List (Nat × Nat × Int)) :
    ivsToOccs (l.map (fun o => (⟨o.1, o.2.1, p, o.2.2⟩ : PMNote))) = l := by
  induction l with
  | nil => rfl
  | cons o rest ih =>
      show (o.1, o.2.1, o.2.2) :: ivsToOccs _ = o :: rest
      rw [ih]

/-- The decoded notes of a well-formed track's export: per pitch they are
exactly the track's occurrences, strictly positive and chained. -/
theorem decode_export_occ (tpb : Nat) (t : Track) (msgs : List Msg)
    (hwf : trackWF t tpb)
    (hmsgs : ∀ p, pitchMsgs p (absMsgs 0 msgs) = occMsgs (occurrences p t)) :
    (∀ iv ∈ decode_notes msgs, iv.start < iv.stop) ∧
    (∀ p, pitchChain (pitchIvs p (decode_notes msgs))) ∧
    (∀ p, ivsToOccs (pitchIvs p (decode_notes msgs)) = occurrences p t) := by
  have hdur : ∀ e ∈ trackEvents t, 1 ≤ e.duration := by
    intro e he
    obtain ⟨m, hm, hme⟩ := List.mem_flatMap.mp
      (show e ∈ t.measures.flatMap (fun m => m.events) from he)
    exact hwf.2.2.2.2.1 m hm e hme
  have hocc : ∀ q, occChain 0 (occurrences q t) :=
    fun q => occsGo_chain q (trackEvents t) 0 none hdur
      (fun o ho => Option.noConfusion ho)
  have hdq : ∀ q, pairIntervals q (pitchMsgs q (absMsgs 0 msgs))
      = (occurrences q t).map
        (fun o => (⟨o.1, o.2.1, q, o.2.2⟩ : PMNote)) := by
    intro q
    rw [hmsgs q, pairIntervals_occMsgs]
  have hdecode : decode_notes msgs
      = (List.range 128).flatMap (fun q => (occurrences q t).map
          (fun o => (⟨o.1, o.2.1, q, o.2.2⟩ : PMNote))) := by
    unfold decode_notes
    rw [funext hdq]
  have hgq : ∀ p q, (((occurrences q t).map
        (fun o => (⟨o.1, o.2.1, q, o.2.2⟩ : PMNote))).filter
        (fun n => decide (n.pitch = p)))
      = if q = p then (occurrences q t).map
          (fun o => (⟨o.1, o.2.1, q, o.2.2⟩ : PMNote)) else [] := by
    intro p q
    rw [List.filter_map]
    by_cases hqp : q = p
    · rw [if_pos hqp,
        show ((fun n => decide (n.pitch = p)) ∘
            (fun o : Nat × Nat × Int => (⟨o.1, o.2.1, q, o.2.2⟩ : PMNote)))
          = fun _ => true from by funext o; simp [hqp],
        List.filter_true]
    · rw [if_neg hqp,
        show ((fun n => decide (n.pitch = p)) ∘
            (fun o : Nat × Nat × Int => (⟨o.1, o.2.1, q, o.2.2⟩ : PMNote)))
          = fun _ => false from by funext o; simp [hqp],
        List.filter_false, List.map_nil]
  have hpitch : ∀ p, pitchIvs p (decode_notes msgs)
      = if p < 128 then (occurrences p t).map
          (fun o => (⟨o.1, o.2.1, p, o.2.2⟩ : PMNote)) else [] := by
    intro p
    unfold pitchIvs
    rw [hdecode, filter_flatMap]
    by_cases hp : p < 128
    · rw [if_pos hp,
        flatMap_eq_single _ p (List.range 128) (List.nodup_range 128)
          (List.mem_range.mpr hp)
          (fun q _ hqp => by rw [hgq p q, if_neg hqp]),
        hgq p p, if_pos rfl]
    · rw [if_neg hp]
      refine flatMap_all_nil _ (List.range 128) ?_
      intro q hq
      rw [hgq p q, if_neg ?_]
      intro hqp
      exact hp (hqp ▸ List.mem_range.mp hq)
  refine ⟨?_, ?_, ?_⟩
  · intro iv hiv
    rw [hdecode] at hiv
    obtain ⟨q, hq, hivm⟩ := List.mem_flatMap.mp hiv
    obtain ⟨o, ho, hoe⟩ := List.mem_map.mp hivm
    rw [← hoe]
    exact occChain_mem_lt _ 0 (hocc q) o ho
  · intro p
    rw [hpitch p]
    by_cases hp : p < 128
    · rw [if_pos hp]
      exact occChain_pitchChain p _ 0 (hocc p)
    · rw [if_neg hp]
      trivial
  · intro p
    rw [hpitch p]
    by_cases hp : p < 128
    · rw [if_pos hp, ivsToOccs_map]
    · rw [if_neg hp,
        occurrences_high p t tpb hwf (by omega)]
      rfl

/-! ### Song-level round trip (claim C1). -/

/-- Exporting indexed well-formed tracks succeeds and links each message
list to its track's occurrences. -/
theorem export_tracks_ok (tpb : Nat) :
    ∀ l : List (Nat × Track),
      (∀ x ∈ l, trackWF x.2 tpb) →
      ∃ msgss, l.mapM (fun x => export_track x.1 tpb x.2) = .ok msgss ∧
        List.Forall₂ (fun msgs (t : Track) =>
          ∀ p, pitchMsgs p (absMsgs 0 msgs) = occMsgs (occurrences p t))
          msgss (l.map Prod.snd) := by
  intro l
  induction l with
  | nil => exact fun _ => ⟨[], rfl, List.Forall₂.nil⟩
  | cons x rest ih =>
      intro h
      obtain ⟨msgs, hm, hp⟩ :=
        export_track_occ x.1 tpb x.2 (h x (List.mem_cons_self x rest))
      obtain ⟨msgss, hms, hf⟩ :=
        ih (fun y hy => h y (List.mem_cons_of_mem x hy))
      refine ⟨msgs :: msgss, ?_, List.Forall₂.cons hp hf⟩
      rw [List.mapM_cons, hm, except_ok_bind, hms, except_ok_bind]
      rfl

/-- export_midi of a song of well-formed tracks succeeds, and each track's
message list carries exactly its occurrences. -/
theorem export_midi_occ (s : Song)
    (hwf : ∀ t ∈ s.tracks, trackWF t s.ticks_per_beat) :
    ∃ msgss, export_midi s = .ok msgss ∧
      List.Forall₂ (fun msgs (t : Track) =>
        ∀ p, pitchMsgs p (absMsgs 0 msgs) = occMsgs (occurrences p t))
        msgss s.tracks := by
  obtain ⟨msgss, hm, hf⟩ := export_tracks_ok s.ticks_per_beat s.tracks.enum
    (fun x hx => hwf x.2 (by
      rw [← List.enum_map_snd s.tracks]
      exact List.mem_map_of_mem Prod.snd hx))
  rw [List.enum_map_snd] at hf
  exact ⟨msgss, hm, hf⟩

/-- The per-instrument fold of import_song, started anywhere, appends one
imported track per instrument. -/
theorem import_fold_occ (tpb : Nat) (downbeats : List Nat)
    (tss : List TimeSignature) (h0 : 0 ∈ downbeats)
    (hlen : downbeats.length ≤ tss.length) :
    ∀ (insts : List Instrument) (acc : List Track × Nat),
      (∀ inst ∈ insts, (∀ iv ∈ inst.notes, iv.start < iv.stop)
        ∧ (∀ p, pitchChain (pitchIvs p inst.notes))) →
      ∃ r, insts.foldlM
          (fun (acc : List Track × Nat) inst => do
            let this_channel := if inst.is_drum then DRUM_CHANNEL else acc.2
            let track ← importTrack tpb inst.name inst.program this_channel
              inst.track_type inst.notes downbeats tss
            let channel2 := acc.2 + 1
            let channel3 := if channel2 = DRUM_CHANNEL
              then DRUM_CHANNEL + 1 else channel2
            pure (acc.1 ++ [track], channel3))
          acc = .ok r ∧
        ∃ newTracks, r.1 = acc.1 ++ newTracks ∧
          List.Forall₂ (fun (tr : Track) (inst : Instrument) =>
            ∀ p, occurrences p tr = ivsToOccs (pitchIvs p inst.notes))
            newTracks insts := by
  intro insts
  induction insts with
  | nil =>
      intro acc _
      exact ⟨acc, rfl, [], (List.append_nil acc.1).symm, List.Forall₂.nil⟩
  | cons inst rest ih =>
      intro acc h
      obtain ⟨h1i, h2i⟩ := h inst (List.mem_cons_self inst rest)
      obtain ⟨tr, htr, hocc⟩ := importTrack_occ tpb inst.name inst.program
        (if inst.is_drum then DRUM_CHANNEL else acc.2) inst.track_type
        inst.notes downbeats tss h1i h2i h0 hlen
      obtain ⟨r, hr, newTracks, hnew, hf⟩ := ih (acc.1 ++ [tr],
          if acc.2 + 1 = DRUM_CHANNEL then DRUM_CHANNEL + 1 else acc.2 + 1)
        (fun y hy => h y (List.mem_cons_of_mem inst hy))
      have hstep : (do
          let this_channel := if inst.is_drum then DRUM_CHANNEL else acc.2
          let track ← importTrack tpb inst.name inst.program this_channel
            inst.track_type inst.notes downbeats tss
          let channel2 := acc.2 + 1
          let channel3 := if channel2 = DRUM_CHANNEL
            then DRUM_CHANNEL + 1 else channel2
          pure (acc.1 ++ [track], channel3)
            : Except PyError (List Track × Nat))
          = .ok (acc.1 ++ [tr],
            if acc.2 + 1 = DRUM_CHANNEL then DRUM_CHANNEL + 1
            else acc.2 + 1) := by
        show (importTrack tpb inst.name inst.program
            (if inst.is_drum then DRUM_CHANNEL else acc.2)
            inst.track_type inst.notes downbeats tss >>= fun track =>
              pure (acc.1 ++ [track],
                if acc.2 + 1 = DRUM_CHANNEL then DRUM_CHANNEL + 1
                else acc.2 + 1)) = _
        rw [htr, except_ok_bind]
        rfl
      refine ⟨r, ?_, tr :: newTracks, ?_, List.Forall₂.cons hocc hf⟩
      · rw [List.foldlM_cons, hstep, except_ok_bind]
        exact hr
      · rw [hnew, List.append_assoc]
        rfl

/-- import_song of chained instruments over a grid with downbeat 0
succeeds, each imported track realising its instrument's intervals. -/
theorem import_song_occ (tpb : Nat) (insts : List Instrument)
    (downbeats : List Nat) (tss : List TimeSignature) (name : String)
    (h0 : 0 ∈ downbeats) (hlen : downbeats.length ≤ tss.length)
    (hgood : ∀ inst ∈ insts, (∀ iv ∈ inst.notes, iv.start < iv.stop)
      ∧ (∀ p, pitchChain (pitchIvs p inst.notes))) :
    ∃ s2, import_song tpb insts downbeats tss name = .ok s2 ∧
      List.Forall₂ (fun (tr : Track) (inst : Instrument) =>
        ∀ p, occurrences p tr = ivsToOccs (pitchIvs p inst.notes))
        s2.tracks insts := by
  obtain ⟨r, hr, newTracks, hnew, hf⟩ :=
    import_fold_occ tpb downbeats tss h0 hlen insts ([], 0) hgood
  refine ⟨⟨name, tpb, ⟨4, 4⟩, ⟨0, Mode.MAJOR⟩, r.1⟩, ?_, ?_⟩
  · unfold import_song
    rw [hr, except_ok_bind]
    rfl
  · show List.Forall₂ _ r.1 insts
    rw [hnew, List.nil_append]
    exact hf

/-- Composing export, decode and import track lists pointwise. -/
theorem roundtrip_tracks_occ (tpb : Nat) :
    ∀ (tracks : List Track) (msgss : List (List Msg))
      (s2tracks : List Track),
      List.Forall₂ (fun msgs (t : Track) =>
        ∀ p, pitchMsgs p (absMsgs 0 msgs) = occMsgs (occurrences p t))
        msgss tracks →
      (∀ t ∈ tracks, trackWF t tpb) →
      List.Forall₂ (fun (tr : Track) (inst : Instrument) =>
        ∀ p, occurrences p tr = ivsToOccs (pitchIvs p inst.notes))
        s2tracks ((tracks.zip msgss).map (fun tm =>
          (⟨tm.1.name, tm.1.program, false, decode_notes tm.2,
            tm.1.track_type⟩ : Instrument))) →
      List.Forall₂ (fun t2 t1 : Track =>
        ∀ p, occurrences p t2 = occurrences p t1) s2tracks tracks := by
  intro tracks msgss s2tracks hexp
  induction hexp generalizing s2tracks with
  | nil =>
      intro _ h2
      cases h2
      exact List.Forall₂.nil
  | cons hpm hrest ih =>
      intro hwf h2
      cases h2 with
      | cons hhead htail =>
          refine List.Forall₂.cons ?_
            (ih _ (fun t ht => hwf t (List.mem_cons_of_mem _ ht)) htail)
          intro p
          rw [hhead p,
            (decode_export_occ tpb _ _
              (hwf _ (List.mem_cons_self _ _)) hpm).2.2 p]

/-- Claim C1, counterexample to the byte-identical half: the channel-1 song
c1_song exports with channel 1 in its messages, but import reassigns
melodic tracks ascending channels from 0, so the re-export differs from
the first export. -/
theorem c1_counterexample :
    roundtrip1 c1_song [0] [⟨4, 4⟩] ≠ export_midi c1_song := by
  decide

/-- C1 (amended): for a Song of well-formed tracks, exporting, decoding
each track's messages and importing them over a grid with a downbeat at
tick 0 and enough time signatures succeeds, and reproduces, per track and
per pitch, exactly the same (onset tick, offset tick, velocity)
occurrences; the re-export need not be byte-identical (the importer
reassigns channels, see c1_counterexample). -/
theorem c1_amended_theorem (s : Song) (downbeats : List Nat)
    (tss : List TimeSignature)
    (hwf : ∀ t ∈ s.tracks, trackWF t s.ticks_per_beat)
    (h0 : 0 ∈ downbeats) (hlen : downbeats.length ≤ tss.length) :
    ∃ msgss s2, export_midi s = .ok msgss ∧
      import_song s.ticks_per_beat
        ((s.tracks.zip msgss).map (fun tm =>
          (⟨tm.1.name, tm.1.program, false, decode_notes tm.2,
            tm.1.track_type⟩ : Instrument)))
        downbeats tss s.name = .ok s2 ∧
      List.Forall₂ (fun t2 t1 : Track =>
        ∀ p, occurrences p t2 = occurrences p t1) s2.tracks s.tracks := by
  obtain ⟨msgss, hexp, hfor⟩ := export_midi_occ s hwf
  have hzip : ∀ tm ∈ s.tracks.zip msgss,
      trackWF tm.1 s.ticks_per_beat ∧
      (∀ p, pitchMsgs p (absMsgs 0 tm.2) = occMsgs (occurrences p tm.1)) := by
    intro tm htm
    have hmem := List.mem_zip htm
    refine ⟨hwf tm.1 hmem.1, ?_⟩
    have hswap : (tm.2, tm.1) ∈ msgss.zip s.tracks := by
      rw [← List.zip_swap]
      exact List.mem_map_of_mem Prod.swap htm
    exact (List.forall₂_iff_zip.mp hfor).2 hswap
  have hgood : ∀ inst ∈ (s.tracks.zip msgss).map (fun tm =>
      (⟨tm.1.name, tm.1.program, false, decode_notes tm.2,
        tm.1.track_type⟩ : Instrument)),
      (∀ iv ∈ inst.notes, iv.start < iv.stop)
      ∧ (∀ p, pitchChain (pitchIvs p inst.notes)) := by
    intro inst hinst
    obtain ⟨tm, htm, hie⟩ := List.mem_map.mp hinst
    obtain ⟨hwt, hpm⟩ := hzip tm htm
    have hd := decode_export_occ s.ticks_per_beat tm.1 tm.2 hwt hpm
    rw [← hie]
    exact ⟨hd.1, hd.2.1⟩
  obtain ⟨s2, himp, hf2⟩ := import_song_occ s.ticks_per_beat _ downbeats tss
    s.name h0 hlen hgood
  exact ⟨msgss, s2, hexp, himp,
    roundtrip_tracks_occ s.ticks_per_beat s.tracks msgss s2.tracks
      hfor hwf hf2⟩

/-- Witness for c1_amended_theorem at c1_song with a downbeat at 0 and a
single 4/4 signature; the hypotheses evaluate by decision. -/
theorem c1_amended_theorem_witness :
    (∀ t ∈ c1_song.tracks, trackWF t c1_song.ticks_per_beat) ∧
    (0 ∈ [0]) ∧ ([0].length ≤ [(⟨4, 4⟩ : TimeSignature)].length) ∧
    ∃ msgss s2, export_midi c1_song = .ok msgss ∧
      import_song c1_song.ticks_per_beat
        ((c1_song.tracks.zip msgss).map (fun tm =>
          (⟨tm.1.name, tm.1.program, false, decode_notes tm.2,
            tm.1.track_type⟩ : Instrument)))
        [0] [⟨4, 4⟩] c1_song.name = .ok s2 ∧
      List.Forall₂ (fun t2 t1 : Track =>
        ∀ p, occurrences p t2 = occurrences p t1) s2.tracks
        c1_song.tracks :=
  ⟨by decide, by decide, by decide,
    c1_amended_theorem c1_song [0] [⟨4, 4⟩] (by decide) (by decide)
      (by decide)⟩

end Pysong
